import Mathlib

/-!
# graph.c : queue, adjacency-list BFS, linked-list bubble sort, adjacency-matrix DFS

A shallow embedding of `src/programs/graph.c`.

* C `int` values, array indices and cursors are `Int` (no arithmetic in the
  program can overflow: every value is a vertex identifier, a cursor in
  `-1 .. 40`, or a list value that is only compared and copied).
* A C array is a `List`; every indexed read or write is checked, and an index
  out of range (or a NULL dereference) is the outcome `fault`.
* A `struct node*` adjacency chain is the `List Int` of its `vertex` fields,
  head first (nodes are freshly allocated, so chains are finite and acyclic).
* Loops that are not counted loops take a fuel argument and give `outOfFuel`
  when it is used up.
-/

namespace GraphC

/-! ## Outcomes and checked array access -/

/-- Result of running a piece of the program. -/
inductive Outcome (α : Type) where
  /-- normal return -/
  | done (a : α) : Outcome α
  /-- undefined behaviour: index out of range or NULL dereference -/
  | fault : Outcome α
  /-- the loop budget of the model ran out -/
  | outOfFuel : Outcome α
  deriving DecidableEq

/-- Sequencing of outcomes. -/
def Outcome.bind {α β : Type} (x : Outcome α) (f : α → Outcome β) : Outcome β :=
  match x with
  | .done a => f a
  | .fault => .fault
  | .outOfFuel => .outOfFuel

/-- Checked read `l[i]` at a natural position. -/
def readN {α : Type} (l : List α) (i : Nat) : Outcome α :=
  match l[i]? with
  | some a => .done a
  | none => .fault

/-- Checked write `l[i] = v` at a natural position. -/
def writeN {α : Type} (l : List α) (i : Nat) (v : α) : Outcome (List α) :=
  if i < l.length then .done (l.set i v) else .fault

/-- Checked read `l[i]` for a C `int` index. -/
def readAt {α : Type} (l : List α) (i : Int) : Outcome α :=
  if i < 0 then .fault else readN l i.toNat

/-- Checked write `l[i] = v` for a C `int` index. -/
def writeAt {α : Type} (l : List α) (i : Int) (v : α) : Outcome (List α) :=
  if i < 0 then .fault else writeN l i.toNat v

/-! ## Queue (graph.c lines 18-22, 72-118) -/

/-- Source `struct queue { int items[40]; int front; int rear; }`. -/
structure queue where
  items : List Int
  front : Int
  rear : Int
  deriving DecidableEq

/-- Source `createQueue`: the block comes from `tj_malloc` (not part of the sources), so
the initial contents `mem` of `items` are whatever the allocator returned. -/
def createQueue (mem : List Int) : queue :=
  { items := mem, front := -1, rear := -1 }

/-- Source `isEmpty`. -/
def isEmpty (q : queue) : Int :=
  if q.rear = -1 then 1 else 0

/-- Source `enqueue`: the full branch (`rear == 40-1`) does nothing. -/
def enqueue (q : queue) (value : Int) : Outcome queue :=
  if q.rear = 40 - 1 then .done q
  else
    let front := if q.front = -1 then 0 else q.front
    let rear := q.rear + 1
    (writeAt q.items rear value).bind fun items =>
    .done { items := items, front := front, rear := rear }

/-- Source `dequeue`: returns the item and the updated queue. -/
def dequeue (q : queue) : Outcome (Int × queue) :=
  if isEmpty q ≠ 0 then .done (-1, q)
  else
    (readAt q.items q.front).bind fun item =>
    let front := q.front + 1
    if front > q.rear then .done (item, { q with front := -1, rear := -1 })
    else .done (item, { q with front := front })

/-- The items a queue holds, oldest first: `items[front..rear]`, nothing when
`rear == -1`. -/
def held (q : queue) : List Int :=
  if q.rear = -1 then [] else (q.items.drop q.front.toNat).take (q.rear - q.front + 1).toNat

/-- Shape of the queues the program works with: a 40-slot buffer whose cursors
are both `-1` or satisfy `0 <= front <= rear <= 39`. -/
def QueueOk (q : queue) : Prop :=
  q.items.length = 40 ∧
    ((q.front = -1 ∧ q.rear = -1) ∨ (0 ≤ q.front ∧ q.front ≤ q.rear ∧ q.rear ≤ 39))

/-- Successive `enqueue` calls, one for each value of the list, in order. -/
def enqueueAll : queue → List Int → Outcome queue
  | q, [] => .done q
  | q, v :: vs => (enqueue q v).bind fun q1 => enqueueAll q1 vs

/-- Repeated `dequeue`, `k` calls: the returned items in order and the final queue. -/
def dequeueN : Nat → queue → Outcome (List Int × queue)
  | 0, q => .done ([], q)
  | k + 1, q =>
    (dequeue q).bind fun r =>
    (dequeueN k r.2).bind fun rs =>
    .done (r.1 :: rs.1, rs.2)

/-! ## Adjacency-list graph (graph.c lines 24-70) -/

/-- Source `struct Graph`: `adjLists[i]` is the chain of `vertex` fields, head first. -/
structure Graph where
  numVertices : Int
  adjLists : List (List Int)
  visited : List Int
  deriving DecidableEq

/-- Source `createGraph`: the loop runs for `i = 0 .. vertices-1`. -/
def createGraph (vertices : Int) : Graph :=
  { numVertices := vertices
    adjLists := List.replicate vertices.toNat []
    visited := List.replicate vertices.toNat 0 }

/-- Source `addEdge`: prepend `dest` to `adjLists[src]`, then `src` to `adjLists[dest]`. -/
def addEdge (graph : Graph) (src dest : Int) : Outcome Graph :=
  (readAt graph.adjLists src).bind fun oldSrc =>
  (writeAt graph.adjLists src (dest :: oldSrc)).bind fun adj1 =>
  (readAt adj1 dest).bind fun oldDest =>
  (writeAt adj1 dest (src :: oldDest)).bind fun adj2 =>
  .done { graph with adjLists := adj2 }

/-- A sequence of `addEdge` calls, in list order. -/
def addEdges : Graph → List (Int × Int) → Outcome Graph
  | graph, [] => .done graph
  | graph, (src, dest) :: rest => (addEdge graph src dest).bind fun g => addEdges g rest

/-- Call of `createGraph(n)` followed by the `addEdge` calls of `edges`. -/
def buildGraph (n : Int) (edges : List (Int × Int)) : Outcome Graph :=
  addEdges (createGraph n) edges

/-- Vertex `v` occurs in the chain `adjLists[u]`. -/
def inAdj (graph : Graph) (u v : Int) : Prop :=
  ∃ l, readAt graph.adjLists u = .done l ∧ v ∈ l

/-- Every endpoint of every edge is a vertex identifier of a graph with `n` vertices. -/
def ValidEdges (n : Int) (edges : List (Int × Int)) : Prop :=
  ∀ e ∈ edges, (0 ≤ e.1 ∧ e.1 < n) ∧ (0 ≤ e.2 ∧ e.2 < n)

/-- What one `addEdge(src, dest)` call puts in front of the chain of vertex `u`:
`dest` when `u` is `src`, and then `src` on top when `u` is `dest`. -/
def edgeEntries (e : Int × Int) (u : Int) : List Int :=
  (if e.2 = u then [e.1] else []) ++ (if e.1 = u then [e.2] else [])

/-- The neighbours of `u` in stored order, most recently added edge first, read
off the sequence of edge insertions. -/
def storedAdj (edges : List (Int × Int)) (u : Int) : List Int :=
  edges.reverse.flatMap fun e => edgeEntries e u

/-- The edge relation of the undirected graph with the given edge insertions. -/
def Adjacent (edges : List (Int × Int)) (u v : Int) : Prop :=
  (u, v) ∈ edges ∨ (v, u) ∈ edges

instance (edges : List (Int × Int)) (u v : Int) : Decidable (Adjacent edges u v) := by
  unfold Adjacent; infer_instance

/-! ## BFS (graph.c lines 134-172) -/

/-- The inner `while(temp)` loop of `bfs`, walking the chain `temp`. -/
def bfsScan : List Int → Graph → queue → Outcome (Graph × queue)
  | [], graph, q => .done (graph, q)
  | adjVertex :: temp, graph, q =>
    (readAt graph.visited adjVertex).bind fun flag =>
    if flag = 0 then
      (writeAt graph.visited adjVertex 1).bind fun visited =>
      (enqueue q adjVertex).bind fun q1 =>
      bfsScan temp { graph with visited := visited } q1
    else bfsScan temp graph q

/-- The outer `while(!isEmpty(q))` loop of `bfs`; `order` collects the dequeued
vertices (the `Visited %d` lines of the program). -/
def bfsLoop : Nat → Graph → queue → List Int → Outcome (Graph × queue × List Int)
  | 0, _, _, _ => .outOfFuel
  | fuel + 1, graph, q, order =>
    if isEmpty q = 0 then
      (dequeue q).bind fun r =>
      (readAt graph.adjLists r.1).bind fun temp =>
      (bfsScan temp graph r.2).bind fun s =>
      bfsLoop fuel s.1 s.2 (order ++ [r.1])
    else .done (graph, q, order)

/-- Source `bfs`: returns the graph, the queue and the dequeued vertices in order. -/
def bfs (fuel : Nat) (mem : List Int) (graph : Graph) (startVertex : Int) :
    Outcome (Graph × queue × List Int) :=
  let q := createQueue mem
  (writeAt graph.visited startVertex 1).bind fun visited =>
  (enqueue q startVertex).bind fun q1 =>
  bfsLoop fuel { graph with visited := visited } q1 []

/-- The edge insertions of `bfs_test`, in program order. -/
def bfs_test_edges : List (Int × Int) :=
  [(0, 1), (0, 2), (1, 2), (1, 4), (1, 3), (2, 4), (3, 4)]

/-- Source `bfs_test`. -/
def bfs_test (fuel : Nat) (mem : List Int) : Outcome (Graph × queue × List Int) :=
  (buildGraph 6 bfs_test_edges).bind fun graph => bfs fuel mem graph 0

/-! ## Reference breadth-first search and edge distance -/

/-- Reference BFS, the scan of one adjacency list: each neighbour that is not
yet visited is marked visited and put at the tail of the FIFO. -/
def refScan : List Int → List Int → List Int → List Int × List Int
  | [], vis, fifo => (vis, fifo)
  | w :: ws, vis, fifo =>
    if w ∈ vis then refScan ws vis fifo else refScan ws (w :: vis) (fifo ++ [w])

/-- Reference BFS, the main loop on an unbounded FIFO (a list, oldest first):
take the oldest vertex, emit it, scan its neighbours in stored order. -/
def refLoop (adj : Int → List Int) : Nat → List Int → List Int → List Int → Option (List Int)
  | 0, _, _, _ => none
  | _ + 1, _, [], out => some out
  | fuel + 1, vis, v :: fifo, out =>
    refLoop adj fuel (refScan (adj v) vis fifo).1 (refScan (adj v) vis fifo).2 (out ++ [v])

/-- Reference BFS from `start`: mark `start` visited, enqueue it, run the loop. -/
def refBfs (adj : Int → List Int) (fuel : Nat) (start : Int) : Option (List Int) :=
  refLoop adj fuel [start] [start] []

/-- Walks: `Walk edges u v k` says there is a walk of `k` edges from `u` to `v`. -/
inductive Walk (edges : List (Int × Int)) : Int → Int → Nat → Prop where
  | nil (u : Int) : Walk edges u u 0
  | snoc {u v w : Int} {k : Nat} : Walk edges u v k → Adjacent edges v w → Walk edges u w (k + 1)

/-- Distance: `d` is the edge-distance from `s` to `v`: the length of a shortest walk. -/
def IsDist (edges : List (Int × Int)) (s v : Int) (d : Nat) : Prop :=
  Walk edges s v d ∧ ∀ k, Walk edges s v k → d ≤ k

/-- The graph on the vertices `0 .. n-1` is connected. -/
def Connected (n : Int) (edges : List (Int × Int)) : Prop :=
  ∀ u v : Int, 0 ≤ u → u < n → 0 ≤ v → v < n → ∃ k, Walk edges u v k

/-- Bookkeeping invariant of the reference BFS on vertices `0 .. n-1`: the
visited vertices are those emitted or waiting, none twice. -/
structure BfsBase (n : Int) (vis fifo out : List Int) : Prop where
  /-- visited = emitted or waiting -/
  perm : vis.Perm (out ++ fifo)
  /-- no vertex is marked twice -/
  nodup : vis.Nodup
  /-- only vertex identifiers are marked -/
  range : ∀ x ∈ vis, 0 ≤ x ∧ x < n

/-- Level invariant of the reference BFS from `s`, with `lab` the level given
to each visited vertex, `fin` the vertices whose scan is complete and `cur` the
vertex that bounds the levels (the one being scanned, or the oldest waiting). -/
structure BfsLevels (edges : List (Int × Int)) (s : Int) (lab : Int → Nat)
    (vis fifo out fin : List Int) (cur : Option Int) : Prop where
  /-- a visited vertex is reached by a walk as long as its level -/
  walk : ∀ x ∈ vis, Walk edges s x (lab x)
  /-- emitted and waiting vertices are in order of level -/
  sorted : (out ++ fifo).Pairwise (fun a b => lab a ≤ lab b)
  /-- no level exceeds the level of `cur` by more than one -/
  bound : ∀ c ∈ cur, ∀ x ∈ vis, lab x ≤ lab c + 1
  /-- the neighbours of a completely scanned vertex are visited, at most one level up -/
  finished : ∀ u ∈ fin, ∀ w, Adjacent edges u w → w ∈ vis ∧ lab w ≤ lab u + 1
  /-- completely scanned vertices are visited -/
  fin_vis : ∀ u ∈ fin, u ∈ vis
  /-- the start vertex is visited, at level 0 -/
  root : s ∈ vis ∧ lab s = 0

/-- The graph and queue of `bfs` represent the state of the reference BFS once
the start vertex has been dequeued: the flag of a vertex is non-zero exactly
when it is in `vis`, the queue holds `fifo`, and fewer slots were used since
the queue was last empty than vertices were marked (the start vertex leaves the
queue, which resets the cursors, before any other vertex enters it). -/
structure BfsSim (n : Int) (adj : Int → List Int) (g : Graph) (q : queue)
    (vis fifo : List Int) : Prop where
  /-- at most 41 vertices: the start vertex and one per slot -/
  size : 0 ≤ n ∧ n ≤ 41
  /-- the array `visited` has `n` entries -/
  vlen : (g.visited.length : Int) = n
  /-- the chain `adjLists[u]` is the stored adjacency of `u` -/
  adj_read : ∀ u : Int, 0 ≤ u → u < n → readAt g.adjLists u = .done (adj u)
  /-- adjacency entries are vertex identifiers -/
  adj_range : ∀ u : Int, 0 ≤ u → u < n → ∀ w ∈ adj u, 0 ≤ w ∧ w < n
  /-- flags agree with `vis` -/
  flags : ∀ u : Int, 0 ≤ u → u < n →
    ∃ f, readAt g.visited u = .done f ∧ (f = 0 ↔ u ∉ vis)
  /-- the queue is well formed -/
  qok : QueueOk q
  /-- the queue holds the FIFO -/
  qheld : held q = fifo
  /-- slots used since the last reset, the start vertex not counted -/
  used : q.rear + 2 ≤ vis.length

/-- A star with centre 0 and the 41 leaves `1 .. 41`, the edges `(0, 1)`,
`(0, 2)`, .., `(0, 41)` inserted in this order. -/
def star42_edges : List (Int × Int) :=
  (List.range 41).map fun i => (0, Int.ofNat i + 1)

/-- A star with centre 0 and the 40 leaves `1 .. 40`, the edges `(0, 1)`,
`(0, 2)`, .., `(0, 40)` inserted in this order: 41 vertices, one more than the
queue has slots. -/
def star41_edges : List (Int × Int) :=
  (List.range 40).map fun i => (0, Int.ofNat i + 1)

/-! ## Linked-list bubble sort (graph.c lines 174-226)

`bubbleSort` only exchanges `data` fields, so a chain of `struct Node` is the
list of its `data` fields; a pointer to a node is its position in the chain and
NULL is `none`. `start` is position 0 of a non-empty chain. -/

/-- Pointer `p->next` for the node at position `p`. -/
def nextOf (data : List Int) (p : Nat) : Option Nat :=
  if p + 1 < data.length then some (p + 1) else none

/-- Source `insertAtTheBegin`. -/
def insertAtTheBegin (start : List Int) (data : Int) : List Int :=
  data :: start

/-- Source `swap`, called as `swap(a, b)` on the nodes at positions `a` and `b`. -/
def swap (data : List Int) (a b : Nat) : Outcome (List Int) :=
  (readN data a).bind fun temp =>
  (readN data b).bind fun bd =>
  (writeN data a bd).bind fun d1 =>
  writeN d1 b temp

/-- The inner `while (ptr1->next != lptr)` loop. `swaps` counts the calls of
`swap` (a ghost counter). -/
def bubblePass : Nat → List Int → Nat → Option Nat → Int → Nat →
    Outcome (List Int × Nat × Int × Nat)
  | 0, _, _, _, _, _ => .outOfFuel
  | fuel + 1, data, ptr1, lptr, swapped, swaps =>
    if nextOf data ptr1 ≠ lptr then
      match nextOf data ptr1 with
      | none => .fault
      | some nxt =>
        (readN data ptr1).bind fun a =>
        (readN data nxt).bind fun b =>
        if a > b then
          (swap data ptr1 nxt).bind fun data1 =>
          bubblePass fuel data1 nxt lptr 1 (swaps + 1)
        else bubblePass fuel data nxt lptr swapped swaps
    else .done (data, ptr1, swapped, swaps)

/-- The `do { ... } while (swapped)` loop; each pass may use as many inner
iterations as the fuel that is left. -/
def bubbleLoop : Nat → List Int → Option Nat → Nat → Outcome (List Int × Nat)
  | 0, _, _, _ => .outOfFuel
  | fuel + 1, data, lptr, swaps =>
    (bubblePass (fuel + 1) data 0 lptr 0 swaps).bind fun r =>
    if r.2.2.1 ≠ 0 then bubbleLoop fuel r.1 (some r.2.1) r.2.2.2
    else .done (r.1, r.2.2.2)

/-- Source `bubbleSort(start)`: the values after the call and the number of swaps. -/
def bubbleSort (fuel : Nat) (data : List Int) : Outcome (List Int × Nat) :=
  match data with
  | [] => .done ([], 0)
  | _ :: _ => bubbleLoop fuel data none 0

/-- The chain `link_list` builds before sorting. -/
def link_list_input : List Int :=
  [12, 56, 2, 11, 1, 90].foldl insertAtTheBegin []

/-- Source `link_list`. -/
def link_list (fuel : Nat) : Outcome (List Int × Nat) :=
  bubbleSort fuel link_list_input

/-- One left-to-right pass of adjacent compare-and-exchange over the values
`a :: rest` (the effect of one inner loop on the values it walks over): `a` is
the value carried along, `rest` what is still ahead. -/
def bubble (a : Int) : List Int → List Int
  | [] => [a]
  | b :: t => if a > b then b :: bubble a t else a :: bubble b t

/-- The number of exchanges `bubble` makes. -/
def bubbleSwaps (a : Int) : List Int → Nat
  | [] => 0
  | b :: t => if a > b then bubbleSwaps a t + 1 else bubbleSwaps b t

/-! ## Adjacency-matrix DFS (graph.c lines 229-332) -/

/-- The globals `stack`, `top`, `lstVertices`, `adjMatrix`, `vertexCount`.
`lstVertices[i]` is NULL (`none`) or points to a `struct Vertex` whose `visited`
field is the stored `Bool`. -/
structure DfsState where
  stack : List Int
  top : Int
  lstVertices : List (Option Bool)
  adjMatrix : List (List Int)
  vertexCount : Int
  deriving DecidableEq

/-- The globals at program start (static storage is zeroed). -/
def dfsInit : DfsState :=
  { stack := List.replicate 5 0
    top := -1
    lstVertices := List.replicate 5 none
    adjMatrix := List.replicate 5 (List.replicate 5 0)
    vertexCount := 0 }

/-- Source `push`: `stack[++top] = item`. -/
def push (s : DfsState) (item : Int) : Outcome DfsState :=
  let top := s.top + 1
  (writeAt s.stack top item).bind fun stack =>
  .done { s with stack := stack, top := top }

/-- Source `pop`: `return stack[top--]`. -/
def pop (s : DfsState) : Outcome (Int × DfsState) :=
  (readAt s.stack s.top).bind fun item =>
  .done (item, { s with top := s.top - 1 })

/-- Source `peek`. -/
def peek (s : DfsState) : Outcome Int :=
  readAt s.stack s.top

/-- Source `isStackEmpty`. -/
def isStackEmpty (s : DfsState) : Bool :=
  s.top == -1

/-- Source `addVertex`. -/
def addVertex (s : DfsState) : Outcome DfsState :=
  (writeAt s.lstVertices s.vertexCount (some false)).bind fun l =>
  .done { s with lstVertices := l, vertexCount := s.vertexCount + 1 }

/-- Assignment `adjMatrix[i][j] = v`. -/
def writeMatrix (m : List (List Int)) (i j : Int) (v : Int) : Outcome (List (List Int)) :=
  (readAt m i).bind fun row =>
  (writeAt row j v).bind fun row1 =>
  writeAt m i row1

/-- Read of `adjMatrix[i][j]`. -/
def readMatrix (m : List (List Int)) (i j : Int) : Outcome Int :=
  (readAt m i).bind fun row => readAt row j

/-- Source `addEdge_DFS`. -/
def addEdge_DFS (s : DfsState) (start end_ : Int) : Outcome DfsState :=
  (writeMatrix s.adjMatrix start end_ 1).bind fun m1 =>
  (writeMatrix m1 end_ start 1).bind fun m2 =>
  .done { s with adjMatrix := m2 }

/-- Read of `lstVertices[i]->visited`. -/
def readVisited (s : DfsState) (i : Int) : Outcome Bool :=
  (readAt s.lstVertices i).bind fun p =>
  match p with
  | none => .fault
  | some b => .done b

/-- Assignment `lstVertices[i]->visited = b`. -/
def writeVisited (s : DfsState) (i : Int) (b : Bool) : Outcome DfsState :=
  (readAt s.lstVertices i).bind fun p =>
  match p with
  | none => .fault
  | some _ =>
    (writeAt s.lstVertices i (some b)).bind fun l =>
    .done { s with lstVertices := l }

/-- The `for` loop of `getAdjUnvisitedVertex` with `k` iterations left, at index `i`. -/
def getAdjLoop (s : DfsState) (vertexIndex : Int) : Nat → Int → Outcome Int
  | 0, _ => .done (-1)
  | k + 1, i =>
    (readMatrix s.adjMatrix vertexIndex i).bind fun a =>
    if a = 1 then
      (readVisited s i).bind fun v =>
      if v = false then .done i else getAdjLoop s vertexIndex k (i + 1)
    else getAdjLoop s vertexIndex k (i + 1)

/-- Source `getAdjUnvisitedVertex`: `i` runs from 0 while `i < vertexCount`. -/
def getAdjUnvisitedVertex (s : DfsState) (vertexIndex : Int) : Outcome Int :=
  getAdjLoop s vertexIndex s.vertexCount.toNat 0

/-- The `while(!isStackEmpty())` loop of `depthFirstSearch`; `order` collects the
vertices in the order they are marked visited and pushed. -/
def dfsLoop : Nat → DfsState → List Int → Outcome (DfsState × List Int)
  | 0, _, _ => .outOfFuel
  | fuel + 1, s, order =>
    if isStackEmpty s = false then
      (peek s).bind fun t =>
      (getAdjUnvisitedVertex s t).bind fun unvisitedVertex =>
      if unvisitedVertex = -1 then
        (pop s).bind fun r => dfsLoop fuel r.2 order
      else
        (writeVisited s unvisitedVertex true).bind fun s1 =>
        (push s1 unvisitedVertex).bind fun s2 =>
        dfsLoop fuel s2 (order ++ [unvisitedVertex])
    else .done (s, order)

/-- The final `for` loop of `depthFirstSearch`, `k` iterations left at index `i`. -/
def resetLoop : Nat → Int → DfsState → Outcome DfsState
  | 0, _, s => .done s
  | k + 1, i, s => (writeVisited s i false).bind fun s1 => resetLoop k (i + 1) s1

/-- Source `depthFirstSearch`: the globals after the call and the visit order. -/
def depthFirstSearch (fuel : Nat) (s : DfsState) : Outcome (DfsState × List Int) :=
  (writeVisited s 0 true).bind fun s1 =>
  (push s1 0).bind fun s2 =>
  (dfsLoop fuel s2 [0]).bind fun r =>
  (resetLoop r.1.vertexCount.toNat 0 r.1).bind fun s3 =>
  .done (s3, r.2)

/-- Repeated `addVertex`, `k` calls. -/
def addVertices : Nat → DfsState → Outcome DfsState
  | 0, s => .done s
  | k + 1, s => (addVertex s).bind fun s1 => addVertices k s1

/-- A sequence of `addEdge_DFS` calls, in list order. -/
def addEdges_DFS : DfsState → List (Int × Int) → Outcome DfsState
  | s, [] => .done s
  | s, (a, b) :: rest => (addEdge_DFS s a b).bind fun s1 => addEdges_DFS s1 rest

/-- The matrix has 5 rows of 5 entries. -/
def Matrix5 (m : List (List Int)) : Prop :=
  m.length = 5 ∧ ∀ row ∈ m, row.length = 5

/-- Every endpoint of every edge is an index of the 5 x 5 matrix. -/
def ValidEdges_DFS (edges : List (Int × Int)) : Prop :=
  ∀ e ∈ edges, (0 ≤ e.1 ∧ e.1 < 5) ∧ (0 ≤ e.2 ∧ e.2 < 5)

/-- The two nested loops of `DFS_test` that set the matrix to 0. -/
def zeroMatrix (s : DfsState) : DfsState :=
  { s with adjMatrix := List.replicate 5 (List.replicate 5 0) }

/-- Entry condition of `depthFirstSearch` on a matrix graph with 1 to 5
registered vertices: the arrays have their declared sizes, the stack is empty
(`top == -1`), and every registered vertex exists with its flag false. -/
def DfsReady (s : DfsState) : Prop :=
  s.stack.length = 5 ∧ s.top = -1 ∧ Matrix5 s.adjMatrix ∧ s.lstVertices.length = 5 ∧
    (1 ≤ s.vertexCount ∧ s.vertexCount ≤ 5) ∧
    ∀ i : Int, 0 ≤ i → i < s.vertexCount → readVisited s i = .done false

/-- The stack entries in use, bottom first: `stack[0..top]`. -/
def liveStack (s : DfsState) : List Int :=
  s.stack.take (s.top + 1).toNat

/-- An edge of the matrix leading to a registered vertex. -/
def MatrixEdge (m : List (List Int)) (vc : Int) (u v : Int) : Prop :=
  readMatrix m u v = .done 1 ∧ 0 ≤ v ∧ v < vc

/-- The search for the first index `j` in `i, i+1, .., i+k-1` that is adjacent
to `t` and not yet in `order`. -/
def scanFrom (m : List (List Int)) (order : List Int) (t : Int) : Nat → Int → Option Int
  | 0, _ => none
  | k + 1, i =>
    if readMatrix m t i = .done 1 ∧ i ∉ order then some i else scanFrom m order t k (i + 1)

/-- Depth-first search on a list stack (top first), the visited set being the
vertices of `order`: the visit order, or `none` when the fuel runs out. -/
def stackDfs (m : List (List Int)) (vc : Int) : Nat → List Int → List Int → Option (List Int)
  | 0, _, _ => none
  | _ + 1, [], order => some order
  | fuel + 1, t :: rest, order =>
    match scanFrom m order t vc.toNat 0 with
    | none => stackDfs m vc fuel rest order
    | some u => stackDfs m vc fuel (u :: t :: rest) (order ++ [u])

/-- Invariant of the depth-first search with stack `stk` and visit order `order`. -/
structure DfsInv (m : List (List Int)) (vc : Int) (stk order : List Int) : Prop where
  /-- no vertex is visited twice -/
  nodup : order.Nodup
  /-- only registered vertices are visited -/
  range : ∀ x ∈ order, 0 ≤ x ∧ x < vc
  /-- stack entries are visited vertices -/
  stk_sub : ∀ x ∈ stk, x ∈ order
  /-- the stack is no longer than the visit order -/
  stk_len : stk.length ≤ order.length
  /-- visited vertices are reachable from vertex 0 -/
  reach : ∀ x ∈ order, Relation.ReflTransGen (MatrixEdge m vc) 0 x
  /-- a visited vertex that left the stack has all its neighbours visited -/
  finished : ∀ x ∈ order, x ∉ stk → ∀ y, MatrixEdge m vc x y → y ∈ order
  /-- vertex 0 is visited -/
  root : (0 : Int) ∈ order

/-- The globals `s` represent the list stack `stk` (top first) and the visited
set `order`: `stack[0..top]` is `stk` reversed and the flag of a registered
vertex is set exactly when the vertex is in `order`. -/
structure DfsSim (s : DfsState) (stk order : List Int) : Prop where
  /-- the array `stack` has 5 slots -/
  stack_len : s.stack.length = 5
  /-- the array `adjMatrix` is 5 x 5 -/
  matrix : Matrix5 s.adjMatrix
  /-- between 1 and 5 registered vertices -/
  count : 1 ≤ s.vertexCount ∧ s.vertexCount ≤ 5
  /-- the array `lstVertices` has 5 slots -/
  vlen : s.lstVertices.length = 5
  /-- the flags are the membership in `order` -/
  flags : ∀ i : Int, 0 ≤ i → i < s.vertexCount → readVisited s i = .done (decide (i ∈ order))
  /-- the cursor `top` is the stack height minus one -/
  top : s.top + 1 = stk.length
  /-- the slots in use hold the stack, bottom first -/
  live : s.stack.take stk.length = stk.reverse

/-- The globals of a matrix graph before the search: `vc` calls of `addVertex`
and the `addEdge_DFS` calls of `edges` on a zeroed matrix, starting from a
stack with contents `stack0`. -/
def buildMatrixGraph (stack0 : List Int) (vc : Nat) (edges : List (Int × Int)) :
    Outcome DfsState :=
  (addVertices vc (zeroMatrix { dfsInit with stack := stack0 })).bind fun s1 =>
  addEdges_DFS s1 edges

/-- One step of a path in the matrix graph with the given edge insertions and
`vc` registered vertices: an edge leading to a registered vertex. -/
def RegisteredEdge (edges : List (Int × Int)) (vc : Int) (a b : Int) : Prop :=
  Adjacent edges a b ∧ b < vc

/-- The edges of `DFS_test`, in program order. -/
def DFS_test_edges : List (Int × Int) :=
  [(0, 1), (0, 2), (0, 3), (1, 4), (2, 4), (3, 4)]

/-- The globals just before `DFS_test` calls `depthFirstSearch`. -/
def DFS_test_graph (s : DfsState) : Outcome DfsState :=
  (addVertices 5 (zeroMatrix s)).bind fun s1 => addEdges_DFS s1 DFS_test_edges

/-- Source `DFS_test`. -/
def DFS_test (fuel : Nat) (s : DfsState) : Outcome (DfsState × List Int) :=
  (DFS_test_graph s).bind fun g => depthFirstSearch fuel g

/-- The globals `DFS_test` hands to `depthFirstSearch` when started from the
initial globals. -/
def DFS_test_state : DfsState :=
  { stack := [0, 0, 0, 0, 0]
    top := -1
    lstVertices := [some false, some false, some false, some false, some false]
    adjMatrix := [[0, 1, 1, 1, 0], [1, 0, 0, 0, 1], [1, 0, 0, 0, 1], [1, 0, 0, 0, 1],
      [0, 1, 1, 1, 0]]
    vertexCount := 5 }

/-! ## Queue states of a run, and the abstract FIFO -/

/-- Queue states reachable from `createQueue` by `enqueue` and `dequeue` calls. -/
inductive QueueReachable : queue → Prop where
  | create (mem : List Int) : mem.length = 40 → QueueReachable (createQueue mem)
  | enq {q q1 : queue} (v : Int) : QueueReachable q → enqueue q v = .done q1 →
      QueueReachable q1
  | deq {q q1 : queue} {x : Int} : QueueReachable q → dequeue q = .done (x, q1) →
      QueueReachable q1

/-- Abstract FIFO (a list, oldest item first): adding an item puts it at the tail. -/
def fifoEnqueue (l : List Int) (v : Int) : List Int :=
  l ++ [v]

/-- Abstract FIFO: removing takes the oldest item, if there is one. -/
def fifoDequeue : List Int → Option (Int × List Int)
  | [] => none
  | x :: l => some (x, l)

/-- The queue of the counterexample to unconditional acceptance: the values
0 .. 39 were enqueued on a fresh queue and the first 39 dequeued again. -/
def drainedQueue : queue :=
  { items := (List.range 40).map Int.ofNat, front := 39, rear := 39 }

/-! ## `bfs` on any number of vertices and any flags -/

/-- The flag of `u` is set: `visited[u]` is readable and not 0. -/
def Marked (g : Graph) (u : Int) : Prop :=
  ∃ f, readAt g.visited u = .done f ∧ f ≠ 0

/-- Shape of the graph and queue during `bfs` on `n` vertices with stored
adjacency `adj`: the arrays have `n` entries, chains hold vertex identifiers,
the queue is well formed and holds vertex identifiers. -/
structure BfsOk (n : Int) (adj : Int → List Int) (g : Graph) (q : queue) : Prop where
  /-- the array `visited` has `n` entries -/
  vlen : (g.visited.length : Int) = n
  /-- the chain `adjLists[u]` is the stored adjacency of `u` -/
  adj_read : ∀ u : Int, 0 ≤ u → u < n → readAt g.adjLists u = .done (adj u)
  /-- adjacency entries are vertex identifiers -/
  adj_range : ∀ u : Int, 0 ≤ u → u < n → ∀ w ∈ adj u, 0 ≤ w ∧ w < n
  /-- the queue is well formed -/
  qok : QueueOk q
  /-- the queue holds vertex identifiers -/
  held_range : ∀ x ∈ held q, 0 ≤ x ∧ x < n

/-- Variant of `enqueue` in which taking the queue-full branch is a fault. -/
def enqueueStrict (q : queue) (value : Int) : Outcome queue :=
  if q.rear = 40 - 1 then .fault else enqueue q value

/-- Variant of `dequeue` in which a call on an empty queue is a fault. -/
def dequeueStrict (q : queue) : Outcome (Int × queue) :=
  if isEmpty q ≠ 0 then .fault else dequeue q

/-- The inner loop of `bfs` with `enqueueStrict` for `enqueue`. -/
def bfsScanStrict : List Int → Graph → queue → Outcome (Graph × queue)
  | [], graph, q => .done (graph, q)
  | adjVertex :: temp, graph, q =>
    (readAt graph.visited adjVertex).bind fun flag =>
    if flag = 0 then
      (writeAt graph.visited adjVertex 1).bind fun visited =>
      (enqueueStrict q adjVertex).bind fun q1 =>
      bfsScanStrict temp { graph with visited := visited } q1
    else bfsScanStrict temp graph q

/-- The outer loop of `bfs` with `dequeueStrict` and `bfsScanStrict`. -/
def bfsLoopStrict : Nat → Graph → queue → List Int → Outcome (Graph × queue × List Int)
  | 0, _, _, _ => .outOfFuel
  | fuel + 1, graph, q, order =>
    if isEmpty q = 0 then
      (dequeueStrict q).bind fun r =>
      (readAt graph.adjLists r.1).bind fun temp =>
      (bfsScanStrict temp graph r.2).bind fun s =>
      bfsLoopStrict fuel s.1 s.2 (order ++ [r.1])
    else .done (graph, q, order)

/-- The function `bfs` with the strict variants: it returns only if no
`enqueue` call met a full queue and no `dequeue` call met an empty one. -/
def bfsStrict (fuel : Nat) (mem : List Int) (graph : Graph) (startVertex : Int) :
    Outcome (Graph × queue × List Int) :=
  let q := createQueue mem
  (writeAt graph.visited startVertex 1).bind fun visited =>
  (enqueueStrict q startVertex).bind fun q1 =>
  bfsLoopStrict fuel { graph with visited := visited } q1 []

/-! ## Stack calls outside the search -/

/-- Successive `push` calls, one for each item of the list, in order. -/
def pushAll : DfsState → List Int → Outcome DfsState
  | s, [] => .done s
  | s, x :: xs => (push s x).bind fun s1 => pushAll s1 xs

/-- The initial globals after the five calls `push(0)` .. `push(4)`: the stack
holds 5 items, `top == 4`. -/
def fullStack : DfsState :=
  { dfsInit with stack := [0, 1, 2, 3, 4], top := 4 }

/-! ## The steps of `depthFirstSearch` -/

/-- One pass through the body of the `while` loop of `depthFirstSearch`: the
globals after it and the vertex that was pushed, if one was. -/
def dfsBody (s : DfsState) : Outcome (DfsState × Option Int) :=
  (peek s).bind fun t =>
  (getAdjUnvisitedVertex s t).bind fun unvisitedVertex =>
  if unvisitedVertex = -1 then
    (pop s).bind fun r => .done (r.2, none)
  else
    (writeVisited s unvisitedVertex true).bind fun s1 =>
    (push s1 unvisitedVertex).bind fun s2 =>
    .done (s2, some unvisitedVertex)

/-- The globals at the loop test of `depthFirstSearch`, for a loop entered with
the globals `s0`: `s0` itself, and the globals after each pass through the body
that is taken with a non-empty stack. -/
inductive DfsRuns (s0 : DfsState) : DfsState → Prop where
  | start : DfsRuns s0 s0
  | step {s s1 : DfsState} {p : Option Int} : DfsRuns s0 s → isStackEmpty s = false →
      dfsBody s = .done (s1, p) → DfsRuns s0 s1

/-! ## The markers of `bubbleSort` -/

/-- The values of the marker `lptr` at the start of each pass of the
`do ... while` loop of `bubbleSort`, first pass first. -/
def bubbleMarkers : Nat → List Int → Option Nat → List (Option Nat)
  | 0, _, _ => []
  | fuel + 1, data, lptr =>
    lptr ::
      match bubblePass (fuel + 1) data 0 lptr 0 0 with
      | .done r => if r.2.2.1 ≠ 0 then bubbleMarkers fuel r.1 (some r.2.1) else []
      | .fault => []
      | .outOfFuel => []

/-! # Theorems -/

/-! ## Outcomes and checked access: basic facts -/

@[simp] theorem Outcome.bind_done {α β : Type} (a : α) (f : α → Outcome β) :
    (Outcome.done a).bind f = f a := rfl

@[simp] theorem Outcome.bind_fault {α β : Type} (f : α → Outcome β) :
    (Outcome.fault : Outcome α).bind f = .fault := rfl

@[simp] theorem Outcome.bind_outOfFuel {α β : Type} (f : α → Outcome β) :
    (Outcome.outOfFuel : Outcome α).bind f = .outOfFuel := rfl

theorem Outcome.bind_eq_done {α β : Type} {x : Outcome α} {f : α → Outcome β} {b : β} :
    x.bind f = .done b ↔ ∃ a, x = .done a ∧ f a = .done b := by
  cases x <;> simp

theorem readN_eq_done {α : Type} {l : List α} {i : Nat} {a : α} :
    readN l i = .done a ↔ l[i]? = some a := by
  unfold readN
  cases h : l[i]? <;> simp

theorem readN_of_lt {α : Type} {l : List α} {i : Nat} (h : i < l.length) :
    readN l i = .done l[i] := by
  rw [readN_eq_done]; exact List.getElem?_eq_getElem h

theorem writeN_of_lt {α : Type} {l : List α} {i : Nat} (v : α) (h : i < l.length) :
    writeN l i v = .done (l.set i v) := by
  simp [writeN, h]

theorem writeN_eq_done {α : Type} {l l1 : List α} {i : Nat} {v : α} :
    writeN l i v = .done l1 ↔ i < l.length ∧ l1 = l.set i v := by
  unfold writeN
  split <;> simp [*, eq_comm]

theorem readAt_eq_done {α : Type} {l : List α} {i : Int} {a : α} :
    readAt l i = .done a ↔ 0 ≤ i ∧ l[i.toNat]? = some a := by
  unfold readAt
  split
  · simp; omega
  · rw [readN_eq_done]; constructor
    · intro h; exact ⟨by omega, h⟩
    · intro h; exact h.2

theorem writeAt_eq_done {α : Type} {l l1 : List α} {i : Int} {v : α} :
    writeAt l i v = .done l1 ↔ 0 ≤ i ∧ i.toNat < l.length ∧ l1 = l.set i.toNat v := by
  unfold writeAt
  split
  · simp; omega
  · rw [writeN_eq_done]; constructor
    · intro h; exact ⟨by omega, h⟩
    · intro h; exact h.2

theorem readAt_ofNat {α : Type} {l : List α} {i : Nat} (h : i < l.length) :
    readAt l (i : Int) = .done l[i] := by
  rw [readAt_eq_done]; simp [h]

theorem writeAt_ofNat {α : Type} {l : List α} {i : Nat} (v : α) (h : i < l.length) :
    writeAt l (i : Int) v = .done (l.set i v) := by
  rw [writeAt_eq_done]; simp [h]

theorem readAt_of_range {α : Type} {l : List α} {i : Int} (h0 : 0 ≤ i) (h : i < l.length) :
    ∃ a, readAt l i = .done a ∧ l[i.toNat]? = some a := by
  have hlt : i.toNat < l.length := by omega
  exact ⟨l[i.toNat], readAt_eq_done.2 ⟨h0, List.getElem?_eq_getElem hlt⟩,
    List.getElem?_eq_getElem hlt⟩

theorem writeAt_of_range {α : Type} {l : List α} {i : Int} (v : α) (h0 : 0 ≤ i)
    (h : i < l.length) : writeAt l i v = .done (l.set i.toNat v) := by
  rw [writeAt_eq_done]; exact ⟨h0, by omega, rfl⟩

/-! ## Queue -/

theorem take_drop_set_snoc {α : Type} (v : α) : ∀ (l : List α) (f k : Nat), f ≤ k →
    k < l.length →
    ((l.set k v).drop f).take (k - f + 1) = ((l.drop f).take (k - f)) ++ [v]
  | [], _, _, _, hk => by simp at hk
  | a :: t, 0, 0, _, _ => by simp
  | a :: t, 0, k + 1, _, hk => by
    have ih := take_drop_set_snoc v t 0 k (Nat.zero_le _) (by simpa using hk)
    simp at ih
    simp [ih]
  | a :: t, f + 1, 0, hfk, _ => by omega
  | a :: t, f + 1, k + 1, hfk, hk => by
    have ih := take_drop_set_snoc v t f k (by omega) (by simpa using hk)
    simpa using ih

theorem held_of_empty {q : queue} (h : q.rear = -1) : held q = [] := by
  simp [held, h]

theorem held_eq_nil_iff {q : queue} (hq : QueueOk q) : held q = [] ↔ q.rear = -1 := by
  constructor
  · intro h
    by_contra hr
    obtain ⟨hl, hc | ⟨h0, h1, h2⟩⟩ := hq
    · exact hr hc.2
    · have hlen := congrArg List.length h
      simp [held, hr] at hlen
      omega
  · exact held_of_empty

theorem isEmpty_eq_zero_iff {q : queue} : isEmpty q = 0 ↔ q.rear ≠ -1 := by
  unfold isEmpty; split <;> simp [*]

theorem isEmpty_eq_one_iff {q : queue} : isEmpty q = 1 ↔ q.rear = -1 := by
  unfold isEmpty; split <;> simp [*]

theorem createQueue_ok {mem : List Int} (h : mem.length = 40) : QueueOk (createQueue mem) :=
  ⟨h, Or.inl ⟨rfl, rfl⟩⟩

theorem held_createQueue (mem : List Int) : held (createQueue mem) = [] := rfl

/-- An `enqueue` below capacity appends the value to the held items. -/
theorem enqueue_spec {q : queue} (hq : QueueOk q) (v : Int) (hr : q.rear < 39) :
    ∃ q1, enqueue q v = .done q1 ∧ QueueOk q1 ∧ held q1 = held q ++ [v] ∧
      q1.rear = q.rear + 1 := by
  obtain ⟨hl, ⟨hf, hre⟩ | ⟨h0, h1, h2⟩⟩ := hq
  · refine ⟨{ items := q.items.set 0 v, front := 0, rear := 0 }, ?_, ?_, ?_, ?_⟩
    · simp [enqueue, hf, hre, writeAt, writeN, hl]
    · exact ⟨by simp [hl], Or.inr ⟨by simp, by simp, by simp⟩⟩
    · have : q.items ≠ [] := by intro h; simp [h] at hl
      obtain ⟨a, t, hat⟩ := List.exists_cons_of_ne_nil this
      simp [held, hre, hat]
    · simp [hre]
  · have hne : q.rear ≠ 39 := by omega
    have hfne : q.front ≠ -1 := by omega
    have hlt : (q.rear + 1).toNat < q.items.length := by omega
    refine ⟨{ items := q.items.set (q.rear + 1).toNat v, front := q.front,
              rear := q.rear + 1 }, ?_, ?_, ?_, rfl⟩
    · have hw := writeAt_of_range (l := q.items) (i := q.rear + 1) v (by omega) (by omega)
      simp [enqueue, hne, hfne, hw]
    · exact ⟨by simp [hl], Or.inr ⟨h0, by simp; omega, by simp; omega⟩⟩
    · have hr1 : q.rear ≠ -1 := by omega
      have hr2 : q.rear + 1 ≠ -1 := by omega
      simp only [held, hr1, hr2, if_false]
      have e1 : (q.rear + 1 - q.front + 1).toNat = (q.rear + 1).toNat - q.front.toNat + 1 := by
        omega
      have e2 : (q.rear - q.front + 1).toNat = (q.rear + 1).toNat - q.front.toNat := by omega
      rw [e1, e2]
      exact take_drop_set_snoc v _ _ _ (by omega) hlt

/-- A full queue rejects `enqueue` and stays as it is. -/
theorem enqueue_full {q : queue} (v : Int) (hr : q.rear = 39) : enqueue q v = .done q := by
  simp [enqueue, hr]

/-- A `dequeue` on a queue holding `v :: rest` returns `v` and leaves `rest`. -/
theorem dequeue_spec {q : queue} (hq : QueueOk q) {v : Int} {rest : List Int}
    (hh : held q = v :: rest) :
    ∃ q1, dequeue q = .done (v, q1) ∧ QueueOk q1 ∧ held q1 = rest ∧ q1.rear ≤ q.rear ∧
      q1.items = q.items := by
  have hne : q.rear ≠ -1 := by
    intro h; rw [held_of_empty h] at hh; cases hh
  obtain ⟨hl, ⟨hf, hre⟩ | ⟨h0, h1, h2⟩⟩ := hq
  · exact absurd hre hne
  · simp only [held, hne, if_false] at hh
    have hlt : q.front.toNat < q.items.length := by omega
    have hpos : (q.rear - q.front + 1).toNat = (q.rear - q.front).toNat + 1 := by omega
    rw [hpos, List.drop_eq_getElem_cons hlt, List.take_succ_cons] at hh
    injection hh with hv hrest
    have hrd : readAt q.items q.front = .done v := by
      rw [readAt_eq_done]; exact ⟨h0, by rw [List.getElem?_eq_getElem hlt, hv]⟩
    have hie : isEmpty q = 0 := isEmpty_eq_zero_iff.2 hne
    by_cases hlast : q.front + 1 > q.rear
    · refine ⟨{ q with front := -1, rear := -1 }, ?_, ?_, ?_, ?_, rfl⟩
      · simp [dequeue, hie, hrd, hlast]
      · exact ⟨hl, Or.inl ⟨rfl, rfl⟩⟩
      · have : (q.rear - q.front).toNat = 0 := by omega
        rw [this] at hrest
        simp at hrest
        simp [held, hrest]
      · simp; omega
    · refine ⟨{ q with front := q.front + 1 }, ?_, ?_, ?_, ?_, rfl⟩
      · simp [dequeue, hie, hrd, hlast]
      · exact ⟨hl, Or.inr ⟨by simp; omega, by simp; omega, h2⟩⟩
      · simp only [held, hne, if_false]
        have e1 : (q.front + 1).toNat = q.front.toNat + 1 := by omega
        have e2 : (q.rear - (q.front + 1) + 1).toNat = (q.rear - q.front).toNat := by omega
        rw [e1, e2]; exact hrest
      · simp

/-- `dequeue` on an empty queue returns `-1` and changes nothing. -/
theorem dequeue_empty {q : queue} (h : q.rear = -1) : dequeue q = .done (-1, q) := by
  simp [dequeue, isEmpty, h]

/-- The number of held items, from the cursors. -/
theorem held_length {q : queue} (hq : QueueOk q) :
    ((held q).length : Int) = if q.rear = -1 then 0 else q.rear - q.front + 1 := by
  obtain ⟨hl, ⟨hf, hre⟩ | ⟨h0, h1, h2⟩⟩ := hq
  · simp [held, hre]
  · have hne : q.rear ≠ -1 := by omega
    simp only [held, hne, if_false, List.length_take, List.length_drop]
    omega

/-- Enqueueing `vs` on a queue with enough room appends `vs` to the held items. -/
theorem enqueueAll_spec (vs : List Int) : ∀ {q : queue}, QueueOk q →
    q.rear + vs.length ≤ 39 →
    ∃ q1, enqueueAll q vs = .done q1 ∧ QueueOk q1 ∧ held q1 = held q ++ vs ∧
      q1.rear = q.rear + vs.length := by
  induction vs with
  | nil => intro q hq _; exact ⟨q, rfl, hq, by simp, by simp⟩
  | cons v vs ih =>
    intro q hq hr
    simp only [List.length_cons, Nat.cast_add, Nat.cast_one] at hr
    obtain ⟨q1, h1, hq1, hh1, hr1⟩ := enqueue_spec hq v (by omega)
    obtain ⟨q2, h2, hq2, hh2, hr2⟩ := ih hq1 (by omega)
    refine ⟨q2, by simp [enqueueAll, h1, h2], hq2, by simp [hh2, hh1], ?_⟩
    simp only [List.length_cons, Nat.cast_add, Nat.cast_one]; omega

/-- Dequeueing as many times as there are held items returns them in order and
empties the queue. -/
theorem dequeueN_spec (vs : List Int) : ∀ {q : queue}, QueueOk q → held q = vs →
    ∃ q1, dequeueN vs.length q = .done (vs, q1) ∧ QueueOk q1 ∧ q1.rear = -1 ∧
      q1.items = q.items := by
  induction vs with
  | nil =>
    intro q hq hh
    exact ⟨q, rfl, hq, (held_eq_nil_iff hq).1 hh, rfl⟩
  | cons v vs ih =>
    intro q hq hh
    obtain ⟨q1, h1, hq1, hh1, _, hi1⟩ := dequeue_spec hq hh
    obtain ⟨q2, h2, hq2, hr2, hi2⟩ := ih hq1 hh1
    exact ⟨q2, by simp [dequeueN, h1, h2], hq2, hr2, by rw [hi2, hi1]⟩

/-! ## Building the adjacency-list graph -/

theorem edgeEntries_mem {e : Int × Int} {u v : Int} :
    v ∈ edgeEntries e u ↔ (e = (u, v) ∨ e = (v, u)) := by
  obtain ⟨a, b⟩ := e
  unfold edgeEntries
  by_cases h1 : b = u <;> by_cases h2 : a = u <;> simp [h1, h2, Prod.ext_iff] <;>
    constructor <;> intro h <;> omega

theorem storedAdj_mem {edges : List (Int × Int)} {u v : Int} :
    v ∈ storedAdj edges u ↔ Adjacent edges u v := by
  unfold storedAdj Adjacent
  simp only [List.mem_flatMap, List.mem_reverse]
  constructor
  · rintro ⟨e, he, hv⟩
    rcases edgeEntries_mem.1 hv with h | h
    · left; rw [← h]; exact he
    · right; rw [← h]; exact he
  · rintro (h | h)
    · exact ⟨_, h, edgeEntries_mem.2 (Or.inl rfl)⟩
    · exact ⟨_, h, edgeEntries_mem.2 (Or.inr rfl)⟩

theorem storedAdj_cons (e : Int × Int) (rest : List (Int × Int)) (u : Int) :
    storedAdj (e :: rest) u = storedAdj rest u ++ edgeEntries e u := by
  simp [storedAdj, List.flatMap_append]

/-- One `addEdge` with valid endpoints: every chain gets the entries of the edge
in front, nothing else changes. -/
theorem addEdge_spec {g : Graph} {a b : Int} (ha : 0 ≤ a ∧ a < g.adjLists.length)
    (hb : 0 ≤ b ∧ b < g.adjLists.length) :
    ∃ g1, addEdge g a b = .done g1 ∧ g1.numVertices = g.numVertices ∧
      g1.visited = g.visited ∧ g1.adjLists.length = g.adjLists.length ∧
      ∀ u : Nat, u < g.adjLists.length →
        g1.adjLists[u]? = some (edgeEntries (a, b) u ++ (g.adjLists[u]?).getD []) := by
  have hla : a.toNat < g.adjLists.length := by omega
  have hlb : b.toNat < g.adjLists.length := by omega
  have r1 : readAt g.adjLists a = .done g.adjLists[a.toNat] :=
    readAt_eq_done.2 ⟨ha.1, List.getElem?_eq_getElem hla⟩
  have w1 := writeAt_of_range (l := g.adjLists) (b :: g.adjLists[a.toNat]) ha.1 ha.2
  have hlb1 : b.toNat < (g.adjLists.set a.toNat (b :: g.adjLists[a.toNat])).length := by
    simpa using hlb
  have r2 : readAt (g.adjLists.set a.toNat (b :: g.adjLists[a.toNat])) b =
      .done (g.adjLists.set a.toNat (b :: g.adjLists[a.toNat]))[b.toNat] :=
    readAt_eq_done.2 ⟨hb.1, List.getElem?_eq_getElem hlb1⟩
  have w2 := writeAt_of_range (l := g.adjLists.set a.toNat (b :: g.adjLists[a.toNat]))
    (a :: (g.adjLists.set a.toNat (b :: g.adjLists[a.toNat]))[b.toNat]) hb.1
    (by simpa using hb.2)
  simp only [addEdge, r1, w1, r2, w2, Outcome.bind_done]
  refine ⟨_, rfl, rfl, rfl, by simp, ?_⟩
  intro u hu
  have hau : (a = (u : Int)) ↔ a.toNat = u := by omega
  have hbu : (b = (u : Int)) ↔ b.toNat = u := by omega
  have hgu : g.adjLists[u]? = some g.adjLists[u] := List.getElem?_eq_getElem hu
  simp only [List.getElem?_set, List.getElem_set, edgeEntries, List.length_set, hgu,
    Option.getD_some]
  by_cases h1 : b.toNat = u <;> by_cases h2 : a.toNat = u
  · have e1 : b = (u : Int) := hbu.2 h1
    have e2 : a = (u : Int) := hau.2 h2
    have e3 : a.toNat = b.toNat := by omega
    simp [h1, h2, e1, e2, hu, e3]
  · have e1 : b = (u : Int) := hbu.2 h1
    have e2 : ¬ a = (u : Int) := fun h => h2 (hau.1 h)
    have e3 : ¬ a.toNat = b.toNat := by omega
    simp [h1, h2, e1, e2, hu, e3]
  · have e1 : ¬ b = (u : Int) := fun h => h1 (hbu.1 h)
    have e2 : a = (u : Int) := hau.2 h2
    have e3 : ¬ a.toNat = b.toNat := by omega
    simp [h1, h2, e1, e2, hu, e3]
  · have e1 : ¬ b = (u : Int) := fun h => h1 (hbu.1 h)
    have e2 : ¬ a = (u : Int) := fun h => h2 (hau.1 h)
    simp [h1, h2, e1, e2, hu]

/-- The graph a sequence of valid `addEdge` calls builds on top of `g`. -/
theorem addEdges_spec (edges : List (Int × Int)) : ∀ {g : Graph},
    ValidEdges g.adjLists.length edges →
    ∃ g1, addEdges g edges = .done g1 ∧ g1.numVertices = g.numVertices ∧
      g1.visited = g.visited ∧ g1.adjLists.length = g.adjLists.length ∧
      ∀ u : Nat, u < g.adjLists.length →
        g1.adjLists[u]? = some (storedAdj edges u ++ (g.adjLists[u]?).getD []) := by
  induction edges with
  | nil =>
    intro g _
    refine ⟨g, rfl, rfl, rfl, rfl, ?_⟩
    intro u hu
    simp [storedAdj, List.getElem?_eq_getElem hu]
  | cons e rest ih =>
    intro g hv
    obtain ⟨a, b⟩ := e
    have he := hv (a, b) (List.mem_cons_self _ _)
    obtain ⟨g1, h1, hn1, hvis1, hlen1, hadj1⟩ := addEdge_spec (g := g) he.1 he.2
    have hv1 : ValidEdges g1.adjLists.length rest := by
      intro e he1; rw [hlen1]; exact hv e (List.mem_cons_of_mem _ he1)
    obtain ⟨g2, h2, hn2, hvis2, hlen2, hadj2⟩ := ih hv1
    refine ⟨g2, by simp [addEdges, h1, h2], by rw [hn2, hn1], by rw [hvis2, hvis1],
      by rw [hlen2, hlen1], ?_⟩
    intro u hu
    rw [hadj2 u (by rw [hlen1]; exact hu), hadj1 u hu, storedAdj_cons]
    simp

/-- The graph `createGraph(n)` plus valid `addEdge` calls builds: `n` chains, the
chain of `u` being its neighbours in stored order, and all flags 0. -/
theorem buildGraph_spec {n : Int} {edges : List (Int × Int)} (hv : ValidEdges n edges) :
    ∃ g, buildGraph n edges = .done g ∧ g.numVertices = n ∧
      g.visited = List.replicate n.toNat 0 ∧ g.adjLists.length = n.toNat ∧
      ∀ u : Int, 0 ≤ u → u < n → readAt g.adjLists u = .done (storedAdj edges u) := by
  have hv0 : ValidEdges (createGraph n).adjLists.length edges := by
    intro e he
    have := hv e he
    simp only [createGraph, List.length_replicate]
    omega
  obtain ⟨g, h, hn, hvis, hlen, hadj⟩ := addEdges_spec edges hv0
  refine ⟨g, h, hn, hvis, by simpa [createGraph] using hlen, ?_⟩
  intro u hu0 hun
  have hlt : u.toNat < (createGraph n).adjLists.length := by
    simp only [createGraph, List.length_replicate]; omega
  have := hadj u.toNat hlt
  rw [readAt_eq_done]
  refine ⟨hu0, ?_⟩
  rw [this]
  have e : ((u.toNat : Nat) : Int) = u := by omega
  simp [createGraph, e]

/-! ## Building the adjacency matrix -/

theorem readAt_set {α : Type} (l : List α) (k : Nat) (x : α) {i : Int} (h0 : 0 ≤ i)
    (h : i < l.length) :
    readAt (l.set k x) i = if i.toNat = k then .done x else readAt l i := by
  have hlt : i.toNat < l.length := by omega
  split
  · rename_i hk
    subst hk
    rw [readAt_eq_done]; refine ⟨h0, ?_⟩
    simp [List.getElem?_set, hlt]
  · rename_i hk
    have hk1 : ¬ k = i.toNat := fun e => hk e.symm
    have : readAt l i = .done l[i.toNat] :=
      readAt_eq_done.2 ⟨h0, List.getElem?_eq_getElem hlt⟩
    rw [this, readAt_eq_done]; refine ⟨h0, ?_⟩
    simp [List.getElem?_set, hk1, hlt]

theorem Matrix5.read_some {m : List (List Int)} (hm : Matrix5 m) {i j : Int}
    (hi : 0 ≤ i ∧ i < 5) (hj : 0 ≤ j ∧ j < 5) : ∃ x, readMatrix m i j = .done x := by
  obtain ⟨row, hr, hrow⟩ := readAt_of_range (l := m) hi.1 (by rw [hm.1]; exact hi.2)
  have hlen : row.length = 5 := hm.2 row (List.getElem?_mem hrow)
  obtain ⟨x, hx, _⟩ := readAt_of_range (l := row) hj.1 (by rw [hlen]; exact hj.2)
  exact ⟨x, by simp [readMatrix, hr, hx]⟩

/-- Writing one matrix entry changes that entry and no other. -/
theorem writeMatrix_spec {m : List (List Int)} (hm : Matrix5 m) {i j : Int}
    (hi : 0 ≤ i ∧ i < 5) (hj : 0 ≤ j ∧ j < 5) (v : Int) :
    ∃ m1, writeMatrix m i j v = .done m1 ∧ Matrix5 m1 ∧
      ∀ a b : Int, 0 ≤ a ∧ a < 5 → 0 ≤ b ∧ b < 5 →
        readMatrix m1 a b = if a = i ∧ b = j then .done v else readMatrix m a b := by
  obtain ⟨row, hr, hrow⟩ := readAt_of_range (l := m) hi.1 (by rw [hm.1]; exact hi.2)
  have hlen : row.length = 5 := hm.2 row (List.getElem?_mem hrow)
  have hw := writeAt_of_range (l := row) v hj.1 (by rw [hlen]; exact hj.2)
  have hw2 := writeAt_of_range (l := m) (row.set j.toNat v) hi.1 (by rw [hm.1]; exact hi.2)
  refine ⟨m.set i.toNat (row.set j.toNat v), by simp [writeMatrix, hr, hw, hw2], ?_, ?_⟩
  · refine ⟨by simp [hm.1], ?_⟩
    intro r hrm
    rcases List.mem_or_eq_of_mem_set hrm with h | h
    · exact hm.2 r h
    · rw [h]; simpa using hlen
  · intro a b ha hb
    unfold readMatrix
    rw [readAt_set m _ _ ha.1 (by rw [hm.1]; exact ha.2)]
    by_cases hai : a = i
    · subst hai
      simp only [if_true, Outcome.bind_done, true_and, hr]
      rw [readAt_set row _ _ hb.1 (by rw [hlen]; exact hb.2)]
      have : (b.toNat = j.toNat) ↔ b = j := by omega
      simp only [this]
    · have : ¬ a.toNat = i.toNat := by omega
      simp [this, hai]

/-- One `addEdge_DFS` with valid indices sets the two mirrored entries to 1. -/
theorem addEdge_DFS_spec {s : DfsState} (hm : Matrix5 s.adjMatrix) {u v : Int}
    (hu : 0 ≤ u ∧ u < 5) (hv : 0 ≤ v ∧ v < 5) :
    ∃ m1, addEdge_DFS s u v = .done { s with adjMatrix := m1 } ∧ Matrix5 m1 ∧
      ∀ a b : Int, 0 ≤ a ∧ a < 5 → 0 ≤ b ∧ b < 5 →
        readMatrix m1 a b =
          if (a = u ∧ b = v) ∨ (a = v ∧ b = u) then .done 1 else readMatrix s.adjMatrix a b := by
  obtain ⟨m1, h1, hm1, hr1⟩ := writeMatrix_spec hm hu hv 1
  obtain ⟨m2, h2, hm2, hr2⟩ := writeMatrix_spec hm1 hv hu 1
  refine ⟨m2, by simp [addEdge_DFS, h1, h2], hm2, ?_⟩
  intro a b ha hb
  rw [hr2 a b ha hb, hr1 a b ha hb]
  by_cases c1 : a = v ∧ b = u <;> by_cases c2 : a = u ∧ b = v <;> simp [c1, c2]

/-- The matrix a sequence of valid `addEdge_DFS` calls leaves. -/
theorem addEdges_DFS_spec (edges : List (Int × Int)) : ∀ {s : DfsState},
    Matrix5 s.adjMatrix → ValidEdges_DFS edges →
    ∃ m1, addEdges_DFS s edges = .done { s with adjMatrix := m1 } ∧ Matrix5 m1 ∧
      ∀ a b : Int, 0 ≤ a ∧ a < 5 → 0 ≤ b ∧ b < 5 →
        readMatrix m1 a b =
          if Adjacent edges a b then .done 1 else readMatrix s.adjMatrix a b := by
  induction edges with
  | nil =>
    intro s hm _
    exact ⟨s.adjMatrix, rfl, hm, by intro a b _ _; simp [Adjacent]⟩
  | cons e rest ih =>
    intro s hm hv
    obtain ⟨u, v⟩ := e
    have he := hv (u, v) (List.mem_cons_self _ _)
    obtain ⟨m1, h1, hm1, hr1⟩ := addEdge_DFS_spec hm he.1 he.2
    obtain ⟨m2, h2, hm2, hr2⟩ := ih (s := { s with adjMatrix := m1 }) hm1
      (fun e he1 => hv e (List.mem_cons_of_mem _ he1))
    refine ⟨m2, by simp [addEdges_DFS, h1, h2], hm2, ?_⟩
    intro a b ha hb
    rw [hr2 a b ha hb]
    simp only [hr1 a b ha hb]
    by_cases c1 : Adjacent rest a b
    · have : Adjacent ((u, v) :: rest) a b := by
        rcases c1 with h | h
        · exact Or.inl (List.mem_cons_of_mem _ h)
        · exact Or.inr (List.mem_cons_of_mem _ h)
      simp [c1, this]
    · by_cases c2 : (a = u ∧ b = v) ∨ (a = v ∧ b = u)
      · have : Adjacent ((u, v) :: rest) a b := by
          rcases c2 with ⟨h1, h2⟩ | ⟨h1, h2⟩
          · left; rw [h1, h2]; exact List.mem_cons_self _ _
          · right; rw [h1, h2]; exact List.mem_cons_self _ _
        simp [c1, c2, this]
      · have : ¬ Adjacent ((u, v) :: rest) a b := by
          intro h
          rcases h with h | h
          · rcases List.mem_cons.1 h with h | h
            · simp only [Prod.mk.injEq] at h; exact c2 (Or.inl h)
            · exact c1 (Or.inl h)
          · rcases List.mem_cons.1 h with h | h
            · simp only [Prod.mk.injEq] at h; exact c2 (Or.inr ⟨h.2, h.1⟩)
            · exact c1 (Or.inr h)
        simp [c1, c2, this]

theorem matrix5_zero : Matrix5 (List.replicate 5 (List.replicate 5 0)) := by
  refine ⟨by simp, ?_⟩
  intro row h
  rw [List.eq_of_mem_replicate h]; simp

theorem readMatrix_zero {a b : Int} (ha : 0 ≤ a ∧ a < 5) (hb : 0 ≤ b ∧ b < 5) :
    readMatrix (List.replicate 5 (List.replicate 5 0)) a b = .done 0 := by
  obtain ⟨ha0, ha5⟩ := ha
  obtain ⟨hb0, hb5⟩ := hb
  interval_cases a <;> interval_cases b <;> rfl

/-! ## Bubble sort -/

theorem bubble_length (t : List Int) : ∀ a : Int, (bubble a t).length = t.length + 1 := by
  induction t with
  | nil => intro a; rfl
  | cons b t ih =>
    intro a
    simp only [bubble]
    split <;> simp [ih]

theorem bubble_perm (t : List Int) : ∀ a : Int, (bubble a t).Perm (a :: t) := by
  induction t with
  | nil => intro a; exact List.Perm.refl _
  | cons b t ih =>
    intro a
    simp only [bubble]
    split
    · exact ((ih a).cons b).trans (List.Perm.swap a b t)
    · exact (ih b).cons a

theorem bubble_ne_nil (a : Int) (t : List Int) : bubble a t ≠ [] := by
  intro e
  have := bubble_length t a
  rw [e] at this
  simp at this

/-- After a pass the last value is a maximum. -/
theorem bubble_getLast_max (t : List Int) : ∀ a : Int,
    ∀ x ∈ bubble a t, x ≤ (bubble a t).getLast (bubble_ne_nil a t) := by
  induction t with
  | nil => intro a x hx; simp [bubble] at hx ⊢; omega
  | cons b t ih =>
    intro a x hx
    by_cases hab : a > b
    · have e : bubble a (b :: t) = b :: bubble a t := by simp [bubble, hab]
      have hl : (bubble a (b :: t)).getLast (bubble_ne_nil _ _) =
          (bubble a t).getLast (bubble_ne_nil _ _) := by
        simp only [e]; exact List.getLast_cons (bubble_ne_nil _ _)
      rw [hl]
      rw [e] at hx
      rcases List.mem_cons.1 hx with hx | hx
      · have ha : a ∈ bubble a t := (bubble_perm t a).mem_iff.2 (List.mem_cons_self _ _)
        have := ih a a ha
        omega
      · exact ih a x hx
    · have e : bubble a (b :: t) = a :: bubble b t := by simp [bubble, hab]
      have hl : (bubble a (b :: t)).getLast (bubble_ne_nil _ _) =
          (bubble b t).getLast (bubble_ne_nil _ _) := by
        simp only [e]; exact List.getLast_cons (bubble_ne_nil _ _)
      rw [hl]
      rw [e] at hx
      rcases List.mem_cons.1 hx with hx | hx
      · have hb : b ∈ bubble b t := (bubble_perm t b).mem_iff.2 (List.mem_cons_self _ _)
        have := ih b b hb
        omega
      · exact ih b x hx

/-- A pass without exchange means the values were already in order. -/
theorem sorted_of_bubbleSwaps_zero (t : List Int) : ∀ a : Int, bubbleSwaps a t = 0 →
    (a :: t).Sorted (· ≤ ·) ∧ bubble a t = a :: t := by
  induction t with
  | nil => intro a _; exact ⟨List.sorted_singleton _, rfl⟩
  | cons b t ih =>
    intro a h
    by_cases hab : a > b
    · simp [bubbleSwaps, hab] at h
    · simp only [bubbleSwaps, hab, if_false] at h
      obtain ⟨hs, hb⟩ := ih b h
      refine ⟨?_, by simp [bubble, hab, hb]⟩
      rw [List.Sorted, List.pairwise_cons]
      refine ⟨?_, hs⟩
      intro y hy
      rcases List.mem_cons.1 hy with hy | hy
      · omega
      · have := List.rel_of_sorted_cons hs y hy
        omega

/-- A pass over values in order makes no exchange. -/
theorem bubbleSwaps_of_sorted (t : List Int) : ∀ a : Int, (a :: t).Sorted (· ≤ ·) →
    bubbleSwaps a t = 0 := by
  induction t with
  | nil => intro a _; rfl
  | cons b t ih =>
    intro a h
    have hab : ¬ a > b := by
      have := List.rel_of_sorted_cons h b (List.mem_cons_self _ _)
      omega
    simp only [bubbleSwaps, hab, if_false]
    exact ih b (List.Sorted.of_cons h)

theorem nextOf_inner (pre : List Int) (a b : Int) (rest : List Int) :
    nextOf (pre ++ a :: b :: rest) pre.length = some (pre.length + 1) := by
  simp [nextOf]

theorem readN_append_head (pre : List Int) (a : Int) (rest : List Int) :
    readN (pre ++ a :: rest) pre.length = .done a := by
  rw [readN_eq_done, List.getElem?_append_right (Nat.le_refl _)]; simp

theorem readN_append_second (pre : List Int) (a b : Int) (rest : List Int) :
    readN (pre ++ a :: b :: rest) (pre.length + 1) = .done b := by
  rw [readN_eq_done, List.getElem?_append_right (Nat.le_succ _)]; simp

theorem swap_adjacent (pre : List Int) (a b : Int) (rest : List Int) :
    swap (pre ++ a :: b :: rest) pre.length (pre.length + 1) =
      .done (pre ++ b :: a :: rest) := by
  unfold swap
  rw [readN_append_head, readN_append_second]
  simp only [Outcome.bind_done]
  rw [writeN_of_lt _ (by simp)]
  simp only [Outcome.bind_done]
  rw [writeN_of_lt _ (by simp)]
  congr 1
  have e1 : (pre ++ a :: b :: rest).set pre.length b = pre ++ b :: b :: rest := by
    simp
  rw [e1]
  have e2 : pre ++ b :: b :: rest = (pre ++ [b]) ++ b :: rest := by simp
  have h2 : pre.length + 1 = (pre ++ [b]).length := by simp
  rw [e2, h2]
  simp

/-- The inner loop started at the node holding `a`, with `pre` behind it, `rest`
ahead of it up to the marker and `suf` from the marker on, bubbles `a :: rest`
and stops at the last node before the marker. -/
theorem bubblePass_spec (rest : List Int) : ∀ (fuel : Nat) (pre : List Int) (a : Int)
    (suf : List Int) (lptr : Option Nat) (swapped : Int) (swaps : Nat),
    rest.length < fuel →
    ((suf = [] ∧ lptr = none) ∨ (suf ≠ [] ∧ lptr = some (pre.length + 1 + rest.length))) →
    bubblePass fuel (pre ++ (a :: (rest ++ suf))) pre.length lptr swapped swaps =
      .done (pre ++ (bubble a rest ++ suf), pre.length + rest.length,
        if bubbleSwaps a rest = 0 then swapped else 1, swaps + bubbleSwaps a rest) := by
  induction rest with
  | nil =>
    intro fuel pre a suf lptr swapped swaps hf hl
    obtain ⟨f, rfl⟩ : ∃ f, fuel = f + 1 := ⟨fuel - 1, by simp at hf; omega⟩
    have hnext : nextOf (pre ++ (a :: ([] ++ suf))) pre.length = lptr := by
      rcases hl with ⟨h1, h2⟩ | ⟨h1, h2⟩
      · subst h1; subst h2; simp [nextOf]
      · rw [h2]
        obtain ⟨c, t, rfl⟩ := List.exists_cons_of_ne_nil h1
        simp [nextOf]
    simp only [List.nil_append] at hnext ⊢
    simp [bubblePass, hnext, bubble, bubbleSwaps]
  | cons b rest ih =>
    intro fuel pre a suf lptr swapped swaps hf hl
    obtain ⟨f, rfl⟩ : ∃ f, fuel = f + 1 := ⟨fuel - 1, by simp at hf; omega⟩
    have hf1 : rest.length < f := by simp at hf; omega
    have hnext : nextOf (pre ++ (a :: (b :: rest ++ suf))) pre.length =
        some (pre.length + 1) := nextOf_inner pre a b (rest ++ suf)
    have hne : nextOf (pre ++ (a :: (b :: rest ++ suf))) pre.length ≠ lptr := by
      rw [hnext]
      rcases hl with ⟨_, h2⟩ | ⟨_, h2⟩
      · rw [h2]; simp
      · rw [h2]; simp
    have hlen : (pre ++ [b]).length = pre.length + 1 := by simp
    have hlen2 : (pre ++ [a]).length = pre.length + 1 := by simp
    have hne2 : ¬ some (pre.length + 1) = lptr := by rw [← hnext]; exact hne
    rw [bubblePass]
    simp only [hne, if_true, ne_eq, not_false_eq_true, hnext]
    have r1 := readN_append_head pre a (b :: rest ++ suf)
    have r2 := readN_append_second pre a b (rest ++ suf)
    simp only [List.cons_append] at r1 r2 ⊢
    rw [r1, r2]
    simp only [Outcome.bind_done]
    by_cases hab : a > b
    · have hs := swap_adjacent pre a b (rest ++ suf)
      simp only [hab, if_true, hs, Outcome.bind_done]
      have hl1 : (suf = [] ∧ lptr = none) ∨
          (suf ≠ [] ∧ lptr = some ((pre ++ [b]).length + 1 + rest.length)) := by
        rcases hl with h | ⟨h1, h2⟩
        · exact Or.inl h
        · right; refine ⟨h1, ?_⟩; rw [h2, hlen]; simp; omega
      have := ih f (pre ++ [b]) a suf lptr 1 (swaps + 1) hf1 hl1
      rw [hlen] at this
      simp only [List.append_assoc, List.singleton_append] at this
      rw [this]
      simp [bubble, bubbleSwaps, hab, hne2]
      omega
    · simp only [hab, if_false]
      have hl1 : (suf = [] ∧ lptr = none) ∨
          (suf ≠ [] ∧ lptr = some ((pre ++ [a]).length + 1 + rest.length)) := by
        rcases hl with h | ⟨h1, h2⟩
        · exact Or.inl h
        · right; refine ⟨h1, ?_⟩; rw [h2, hlen2]; simp; omega
      have := ih f (pre ++ [a]) b suf lptr swapped swaps hf1 hl1
      rw [hlen2] at this
      simp only [List.append_assoc, List.singleton_append] at this
      rw [this]
      simp [bubble, bubbleSwaps, hab, hne2]
      omega

/-- The `do ... while` loop with the marker at the first node of `suf`, where
`suf` is in order and bounds `pre` from above: it ends, and leaves the values
in non-decreasing order, a rearrangement of the values it started from. -/
theorem bubbleLoop_spec : ∀ (fuel : Nat) (pre suf : List Int) (lptr : Option Nat)
    (swaps : Nat), pre ≠ [] → pre.length ≤ fuel →
    ((suf = [] ∧ lptr = none) ∨ (suf ≠ [] ∧ lptr = some pre.length)) →
    suf.Sorted (· ≤ ·) → (∀ x ∈ pre, ∀ y ∈ suf, x ≤ y) →
    ∃ out k, bubbleLoop fuel (pre ++ suf) lptr swaps = .done (out, k) ∧
      out.Sorted (· ≤ ·) ∧ out.Perm (pre ++ suf) := by
  intro fuel
  induction fuel with
  | zero =>
    intro pre suf lptr swaps hne hlen
    exfalso
    exact hne (List.length_eq_zero.1 (Nat.le_zero.1 hlen))
  | succ f ih =>
    intro pre suf lptr swaps hne hlen hmark hsuf hcross
    obtain ⟨a, rest, rfl⟩ := List.exists_cons_of_ne_nil hne
    have hrl : rest.length < f + 1 := by simp at hlen; omega
    have hmark1 : (suf = [] ∧ lptr = none) ∨
        (suf ≠ [] ∧ lptr = some (([] : List Int).length + 1 + rest.length)) := by
      rcases hmark with h | ⟨h1, h2⟩
      · exact Or.inl h
      · right; refine ⟨h1, ?_⟩; rw [h2]; simp; omega
    have hp := bubblePass_spec rest (f + 1) [] a suf lptr 0 swaps hrl hmark1
    simp only [List.nil_append, List.length_nil, Nat.zero_add] at hp
    rw [bubbleLoop]
    simp only [List.cons_append, hp, Outcome.bind_done]
    by_cases hk : bubbleSwaps a rest = 0
    · obtain ⟨hs, hb⟩ := sorted_of_bubbleSwaps_zero rest a hk
      refine ⟨a :: (rest ++ suf), swaps, by simp [hk, hb], ?_, List.Perm.refl _⟩
      have : (a :: rest ++ suf).Sorted (· ≤ ·) := by
        rw [List.Sorted, List.pairwise_append]
        exact ⟨hs, hsuf, hcross⟩
      simpa using this
    · have hrne : rest ≠ [] := by
        intro h; subst h; exact hk rfl
      have hbl := bubble_length rest a
      have hbne := bubble_ne_nil a rest
      have hsplit := List.dropLast_append_getLast hbne
      have hperm := bubble_perm rest a
      have hmax := bubble_getLast_max rest a
      have hpre1 : (bubble a rest).dropLast ≠ [] := by
        intro h
        have := congrArg List.length h
        simp [hbl] at this
        exact hrne this
      have hlen1 : (bubble a rest).dropLast.length ≤ f := by
        simp [hbl]; omega
      have hlast_mem : (bubble a rest).getLast hbne ∈ a :: rest :=
        hperm.mem_iff.1 (List.getLast_mem hbne)
      have hsuf1 : ((bubble a rest).getLast hbne :: suf).Sorted (· ≤ ·) := by
        rw [List.Sorted, List.pairwise_cons]
        exact ⟨fun y hy => hcross _ hlast_mem y hy, hsuf⟩
      have hcross1 : ∀ x ∈ (bubble a rest).dropLast,
          ∀ y ∈ (bubble a rest).getLast hbne :: suf, x ≤ y := by
        intro x hx y hy
        have hxb : x ∈ bubble a rest := List.mem_of_mem_dropLast hx
        rcases List.mem_cons.1 hy with hy | hy
        · rw [hy]; exact hmax x hxb
        · exact hcross x (hperm.mem_iff.1 hxb) y hy
      have hmark2 : ((bubble a rest).getLast hbne :: suf = [] ∧ some rest.length = none) ∨
          ((bubble a rest).getLast hbne :: suf ≠ [] ∧
            some rest.length = some (bubble a rest).dropLast.length) := by
        right; refine ⟨by simp, ?_⟩; simp [hbl]
      obtain ⟨out, k, hrun, hsorted, hp2⟩ := ih (bubble a rest).dropLast
        ((bubble a rest).getLast hbne :: suf) (some rest.length)
        (swaps + bubbleSwaps a rest) hpre1 hlen1 hmark2 hsuf1 hcross1
      have hdata : (bubble a rest).dropLast ++ ((bubble a rest).getLast hbne :: suf) =
          bubble a rest ++ suf := by
        conv_rhs => rw [← hsplit]
        simp
      rw [hdata] at hrun hp2
      refine ⟨out, k, by simp [hk, hrun], hsorted, ?_⟩
      exact hp2.trans (by simpa using hperm.append_right suf)

/-- `bubbleSort` returns, with the values in non-decreasing order and a
rearrangement of the input values. -/
theorem bubbleSort_spec (data : List Int) (fuel : Nat) (hf : data.length ≤ fuel) :
    ∃ out k, bubbleSort fuel data = .done (out, k) ∧ out.Sorted (· ≤ ·) ∧
      out.Perm data := by
  cases data with
  | nil => exact ⟨[], 0, rfl, List.sorted_nil, List.Perm.refl _⟩
  | cons a t =>
    have := bubbleLoop_spec fuel (a :: t) [] none 0 (by simp) hf (Or.inl ⟨rfl, rfl⟩)
      List.sorted_nil (by simp)
    simpa [bubbleSort] using this

/-- On values already in order `bubbleSort` makes no exchange and changes nothing. -/
theorem bubbleSort_sorted (data : List Int) (fuel : Nat) (hf : data.length ≤ fuel)
    (hs : data.Sorted (· ≤ ·)) : bubbleSort fuel data = .done (data, 0) := by
  cases data with
  | nil => rfl
  | cons a t =>
    obtain ⟨f, rfl⟩ : ∃ f, fuel = f + 1 := ⟨fuel - 1, by simp at hf; omega⟩
    have hp := bubblePass_spec t (f + 1) [] a [] none 0 0 (by simp at hf; omega)
      (Or.inl ⟨rfl, rfl⟩)
    have hk := bubbleSwaps_of_sorted t a hs
    obtain ⟨_, hb⟩ := sorted_of_bubbleSwaps_zero t a hk
    simp only [List.nil_append, List.length_nil, Nat.zero_add, List.append_nil] at hp
    simp [bubbleSort, bubbleLoop, hp, hk, hb]

/-! ## Depth-first search on a list stack -/

theorem scanFrom_some {m : List (List Int)} {order : List Int} {t : Int} :
    ∀ (k : Nat) (i u : Int), scanFrom m order t k i = some u →
      i ≤ u ∧ u < i + k ∧ readMatrix m t u = .done 1 ∧ u ∉ order := by
  intro k
  induction k with
  | zero => intro i u h; simp [scanFrom] at h
  | succ k ih =>
    intro i u h
    simp only [scanFrom] at h
    split at h
    · rename_i hc
      injection h with h
      subst h
      exact ⟨le_refl _, by push_cast; omega, hc.1, hc.2⟩
    · obtain ⟨h1, h2, h3, h4⟩ := ih (i + 1) u h
      exact ⟨by omega, by push_cast; omega, h3, h4⟩

theorem scanFrom_none {m : List (List Int)} {order : List Int} {t : Int} :
    ∀ (k : Nat) (i : Int), scanFrom m order t k i = none →
      ∀ j : Int, i ≤ j → j < i + k → readMatrix m t j = .done 1 → j ∈ order := by
  intro k
  induction k with
  | zero => intro i _ j h1 h2; simp at h2; omega
  | succ k ih =>
    intro i h j h1 h2 h3
    simp only [scanFrom] at h
    split at h
    · cases h
    · rename_i hc
      by_cases hji : j = i
      · subst hji
        by_contra hn
        exact hc ⟨h3, hn⟩
      · exact ih (i + 1) h j (by omega) (by push_cast at h2 ⊢; omega) h3

/-- A duplicate-free list of integers from `0 .. vc-1` has at most `vc` entries. -/
theorem length_le_of_nodup_range {l : List Int} {vc : Int} (hn : l.Nodup)
    (hr : ∀ x ∈ l, 0 ≤ x ∧ x < vc) : l.length ≤ vc.toNat := by
  have hsub : l.toFinset ⊆ Finset.Ico (0 : Int) vc := by
    intro x hx
    rw [List.mem_toFinset] at hx
    rw [Finset.mem_Ico]
    exact hr x hx
  have h1 := Finset.card_le_card hsub
  rw [List.toFinset_card_of_nodup hn, Int.card_Ico] at h1
  simpa using h1

theorem DfsInv.inv_init (m : List (List Int)) {vc : Int} (h : 1 ≤ vc) : DfsInv m vc [0] [0] where
  nodup := by simp
  range := by intro x hx; simp at hx; omega
  stk_sub := by intro x hx; exact hx
  stk_len := by simp
  reach := by
    intro x hx
    simp at hx
    rw [hx]
  finished := by intro x hx hn; exact absurd hx hn
  root := by simp

theorem DfsInv.inv_pop {m : List (List Int)} {vc t : Int} {rest order : List Int}
    (h : DfsInv m vc (t :: rest) order) (hs : scanFrom m order t vc.toNat 0 = none) :
    DfsInv m vc rest order where
  nodup := h.nodup
  range := h.range
  stk_sub := fun x hx => h.stk_sub x (List.mem_cons_of_mem _ hx)
  stk_len := by have := h.stk_len; simp at this; omega
  reach := h.reach
  finished := by
    intro x hx hn y hy
    by_cases hxt : x = t
    · subst hxt
      exact scanFrom_none _ _ hs y hy.2.1 (by have := hy.2.2; omega) hy.1
    · exact h.finished x hx (by simp [hxt, hn]) y hy
  root := h.root

theorem DfsInv.inv_push {m : List (List Int)} {vc t u : Int} {rest order : List Int}
    (h : DfsInv m vc (t :: rest) order) (hs : scanFrom m order t vc.toNat 0 = some u) :
    DfsInv m vc (u :: t :: rest) (order ++ [u]) := by
  obtain ⟨h1, h2, h3, h4⟩ := scanFrom_some _ _ _ hs
  have hu : 0 ≤ u ∧ u < vc := ⟨h1, by omega⟩
  exact
  { nodup := by
      rw [List.nodup_append]
      refine ⟨h.nodup, by simp, ?_⟩
      intro a ha hb
      simp at hb
      subst hb
      exact h4 ha
    range := by
      intro x hx
      rcases List.mem_append.1 hx with hx | hx
      · exact h.range x hx
      · simp at hx; rw [hx]; exact hu
    stk_sub := by
      intro x hx
      rcases List.mem_cons.1 hx with hx | hx
      · rw [hx]; simp
      · exact List.mem_append_left _ (h.stk_sub x hx)
    stk_len := by have := h.stk_len; simp at this ⊢; omega
    reach := by
      intro x hx
      rcases List.mem_append.1 hx with hx | hx
      · exact h.reach x hx
      · simp at hx
        rw [hx]
        exact Relation.ReflTransGen.tail (h.reach t (h.stk_sub t (List.mem_cons_self _ _)))
          ⟨h3, hu.1, hu.2⟩
    finished := by
      intro x hx hn y hy
      have hxu : x ≠ u := by intro e; apply hn; rw [e]; simp
      have hxo : x ∈ order := by
        rcases List.mem_append.1 hx with hx | hx
        · exact hx
        · simp at hx; exact absurd hx hxu
      exact List.mem_append_left _
        (h.finished x hxo (fun hm => hn (List.mem_cons_of_mem _ hm)) y hy)
    root := List.mem_append_left _ h.root }

/-- The search on a list stack ends, within `2 * vc` steps, in a state that
satisfies the invariant with an empty stack. -/
theorem stackDfs_terminates (m : List (List Int)) (vc : Int) : ∀ (fuel : Nat)
    (stk order : List Int), DfsInv m vc stk order →
    2 * (vc.toNat - order.length) + stk.length < fuel →
    ∃ o, stackDfs m vc fuel stk order = some o ∧ DfsInv m vc [] o := by
  intro fuel
  induction fuel with
  | zero => intro stk order _ h; omega
  | succ f ih =>
    intro stk order hinv hf
    cases stk with
    | nil => exact ⟨order, rfl, hinv⟩
    | cons t rest =>
      cases hs : scanFrom m order t vc.toNat 0 with
      | none =>
        have hinv1 := hinv.inv_pop hs
        obtain ⟨o, ho, hio⟩ := ih rest order hinv1 (by simp at hf; omega)
        exact ⟨o, by simp [stackDfs, hs, ho], hio⟩
      | some u =>
        have hinv1 := hinv.inv_push hs
        have hlen := length_le_of_nodup_range hinv1.nodup hinv1.range
        simp at hlen
        obtain ⟨o, ho, hio⟩ := ih (u :: t :: rest) (order ++ [u]) hinv1
          (by simp at hf ⊢; omega)
        exact ⟨o, by simp [stackDfs, hs, ho], hio⟩

/-- With the stack empty, the visited vertices are exactly those reachable from 0. -/
theorem DfsInv.mem_iff_reach {m : List (List Int)} {vc : Int} {o : List Int}
    (h : DfsInv m vc [] o) (v : Int) :
    v ∈ o ↔ Relation.ReflTransGen (MatrixEdge m vc) 0 v := by
  constructor
  · exact h.reach v
  · intro hr
    induction hr with
    | refl => exact h.root
    | tail _ hstep ih => exact h.finished _ ih (by simp) _ hstep

/-! ## The array stack and the flags refine the list stack and the visited set -/

theorem take_succ_set {α : Type} (u : α) : ∀ (l : List α) (n : Nat), n < l.length →
    (l.set n u).take (n + 1) = l.take n ++ [u]
  | [], _, h => by simp at h
  | _ :: _, 0, _ => by simp
  | a :: t, n + 1, h => by
    have := take_succ_set u t n (by simpa using h)
    simp [this]

theorem getElem?_of_take_eq_snoc {α : Type} {l r : List α} {t : α}
    (h : l.take (r.length + 1) = r ++ [t]) : l[r.length]? = some t := by
  have h1 : (l.take (r.length + 1))[r.length]? = l[r.length]? := by
    rw [List.getElem?_take]; simp
  rw [← h1, h]
  simp

theorem take_of_take_eq_snoc {α : Type} {l r : List α} {t : α}
    (h : l.take (r.length + 1) = r ++ [t]) : l.take r.length = r := by
  have h1 : (l.take (r.length + 1)).take r.length = l.take r.length := by
    rw [List.take_take]; simp
  rw [← h1, h]
  simp

theorem isStackEmpty_iff {s : DfsState} {stk order : List Int} (h : DfsSim s stk order) :
    isStackEmpty s = true ↔ stk = [] := by
  have := h.top
  simp only [isStackEmpty, beq_iff_eq]
  constructor
  · intro e
    apply List.length_eq_zero.1
    omega
  · intro e
    rw [e] at this
    simp at this
    omega

theorem DfsSim.sim_peek {s : DfsState} {t : Int} {rest order : List Int}
    (h : DfsSim s (t :: rest) order) : peek s = .done t := by
  have htop := h.top
  have hlive := h.live
  simp only [List.length_cons, List.reverse_cons] at htop hlive
  rw [← List.length_reverse rest] at hlive
  have hget := getElem?_of_take_eq_snoc hlive
  rw [List.length_reverse] at hget
  unfold GraphC.peek
  rw [readAt_eq_done]
  refine ⟨by push_cast at htop; omega, ?_⟩
  have : s.top.toNat = rest.length := by push_cast at htop; omega
  rw [this]; exact hget

theorem DfsSim.sim_pop {s : DfsState} {t : Int} {rest order : List Int}
    (h : DfsSim s (t :: rest) order) :
    pop s = .done (t, { s with top := s.top - 1 }) ∧
      DfsSim { s with top := s.top - 1 } rest order := by
  have hp := h.sim_peek
  unfold GraphC.peek at hp
  refine ⟨by simp [GraphC.pop, hp], ?_⟩
  have htop := h.top
  have hlive := h.live
  simp only [List.length_cons, List.reverse_cons] at htop hlive
  rw [← List.length_reverse rest] at hlive
  have ht := take_of_take_eq_snoc hlive
  rw [List.length_reverse] at ht
  exact
  { stack_len := h.stack_len
    matrix := h.matrix
    count := h.count
    vlen := h.vlen
    flags := h.flags
    top := by show s.top - 1 + 1 = rest.length; push_cast at htop; omega
    live := ht }

theorem DfsSim.sim_push {s : DfsState} {stk order : List Int} (h : DfsSim s stk order)
    (u : Int) (hcap : stk.length < 5) :
    ∃ s1, push s u = .done s1 ∧ DfsSim s1 (u :: stk) order ∧
      s1.adjMatrix = s.adjMatrix ∧ s1.vertexCount = s.vertexCount := by
  have htop := h.top
  have hlt : stk.length < s.stack.length := by rw [h.stack_len]; exact hcap
  have hnat : (s.top + 1).toNat = stk.length := by omega
  have hw := writeAt_of_range (l := s.stack) (i := s.top + 1) u (by omega)
    (by rw [h.stack_len]; omega)
  rw [hnat] at hw
  refine ⟨{ s with stack := s.stack.set stk.length u, top := s.top + 1 },
    by simp [GraphC.push, hw], ?_, rfl, rfl⟩
  exact
  { stack_len := by simp [h.stack_len]
    matrix := h.matrix
    count := h.count
    vlen := h.vlen
    flags := h.flags
    top := by show s.top + 1 + 1 = ((u :: stk).length : Int); simp; omega
    live := by
      show (s.stack.set stk.length u).take (u :: stk).length = (u :: stk).reverse
      simp only [List.length_cons, List.reverse_cons]
      rw [take_succ_set u _ _ hlt, h.live] }

/-- Setting the flag of a vertex that exists changes that flag only. -/
theorem writeVisited_spec {s : DfsState} {u : Int} {b0 : Bool} (b : Bool)
    (h : readVisited s u = .done b0) :
    ∃ l, writeVisited s u b = .done { s with lstVertices := l } ∧
      l.length = s.lstVertices.length ∧
      ∀ i : Int, 0 ≤ i →
        readVisited { s with lstVertices := l } i =
          if i = u then .done b else readVisited s i := by
  unfold readVisited at h
  obtain ⟨p, hp, hp2⟩ := Outcome.bind_eq_done.1 h
  cases p with
  | none => simp at hp2
  | some b1 =>
    obtain ⟨hu0, hget⟩ := readAt_eq_done.1 hp
    have hlt : u.toNat < s.lstVertices.length := by
      by_contra hn
      rw [List.getElem?_eq_none (by omega)] at hget
      cases hget
    have hw := writeAt_of_range (l := s.lstVertices) (some b) hu0 (by omega)
    refine ⟨s.lstVertices.set u.toNat (some b), by simp [writeVisited, hp, hw], by simp, ?_⟩
    intro i hi
    unfold readVisited
    simp only
    by_cases hiu : i = u
    · subst hiu
      have : readAt (s.lstVertices.set i.toNat (some b)) i = .done (some b) := by
        rw [readAt_eq_done]; exact ⟨hi, by simp [List.getElem?_set, hlt]⟩
      simp [this]
    · simp only [hiu, if_false]
      have hne : ¬ u.toNat = i.toNat := by omega
      have : readAt (s.lstVertices.set u.toNat (some b)) i = readAt s.lstVertices i := by
        unfold readAt readN
        simp [List.getElem?_set, hne]
      rw [this]

theorem DfsSim.sim_mark {s : DfsState} {stk order : List Int} (h : DfsSim s stk order)
    {u : Int} (hu : 0 ≤ u ∧ u < s.vertexCount) :
    ∃ s1, writeVisited s u true = .done s1 ∧ DfsSim s1 stk (order ++ [u]) ∧
      s1.adjMatrix = s.adjMatrix ∧ s1.vertexCount = s.vertexCount := by
  obtain ⟨l, hw, hlen, hread⟩ := writeVisited_spec true (h.flags u hu.1 hu.2)
  refine ⟨_, hw, ?_, rfl, rfl⟩
  exact
  { stack_len := h.stack_len
    matrix := h.matrix
    count := h.count
    vlen := by show l.length = 5; rw [hlen, h.vlen]
    flags := by
      intro i hi0 hi1
      rw [hread i hi0]
      by_cases hiu : i = u
      · simp [hiu]
      · have := h.flags i hi0 hi1
        simp only [hiu, if_false, this]
        simp [hiu]
    top := h.top
    live := h.live }

/-- The loop of `getAdjUnvisitedVertex` computes `scanFrom`, with `-1` for no result. -/
theorem DfsSim.sim_scan {s : DfsState} {stk order : List Int} (h : DfsSim s stk order)
    {t : Int} (ht : 0 ≤ t ∧ t < s.vertexCount) : ∀ (k : Nat) (i : Int), 0 ≤ i →
    i + k ≤ s.vertexCount →
    getAdjLoop s t k i = .done ((scanFrom s.adjMatrix order t k i).getD (-1)) := by
  intro k
  induction k with
  | zero => intro i _ _; rfl
  | succ k ih =>
    intro i hi0 hik
    have hc := h.count
    have hi5 : 0 ≤ i ∧ i < 5 := ⟨hi0, by push_cast at hik; omega⟩
    obtain ⟨a, ha⟩ := h.matrix.read_some (i := t) (j := i) ⟨ht.1, by omega⟩ hi5
    have hfl := h.flags i hi0 (by push_cast at hik; omega)
    have hrec := ih (i + 1) (by omega) (by push_cast at hik ⊢; omega)
    simp only [getAdjLoop, ha, Outcome.bind_done, scanFrom]
    by_cases ha1 : a = 1
    · subst ha1
      by_cases hmem : i ∈ order
      · simp [hfl, hmem, hrec]
      · simp [hfl, hmem]
    · have : ¬ (Outcome.done a = Outcome.done (1 : Int)) := by
        intro e; injection e with e; exact ha1 e
      simp [ha1, this, hrec]

/-- The `while` loop of `depthFirstSearch` follows the search on the list stack. -/
theorem dfsLoop_sim : ∀ (fuel : Nat) (s : DfsState) (stk order o : List Int),
    DfsSim s stk order → DfsInv s.adjMatrix s.vertexCount stk order →
    stackDfs s.adjMatrix s.vertexCount fuel stk order = some o →
    ∃ s1, dfsLoop fuel s order = .done (s1, o) ∧ DfsSim s1 [] o ∧
      s1.adjMatrix = s.adjMatrix ∧ s1.vertexCount = s.vertexCount := by
  intro fuel
  induction fuel with
  | zero => intro s stk order o _ _ h; simp [stackDfs] at h
  | succ f ih =>
    intro s stk order o hsim hinv hrun
    cases stk with
    | nil =>
      simp only [stackDfs] at hrun
      injection hrun with hrun
      subst hrun
      have he : isStackEmpty s = true := (isStackEmpty_iff hsim).2 rfl
      exact ⟨s, by simp [dfsLoop, he], hsim, rfl, rfl⟩
    | cons t rest =>
      have he : isStackEmpty s = false := by
        cases hb : isStackEmpty s with
        | false => rfl
        | true => exact absurd ((isStackEmpty_iff hsim).1 hb) (by simp)
      have htr := hinv.range t (hinv.stk_sub t (List.mem_cons_self _ _))
      have hscan := hsim.sim_scan htr s.vertexCount.toNat 0 (le_refl _)
        (by have := hsim.count; omega)
      have hpeek := hsim.sim_peek
      cases hs : scanFrom s.adjMatrix order t s.vertexCount.toNat 0 with
      | none =>
        simp only [stackDfs, hs] at hrun
        obtain ⟨hpop, hsim1⟩ := hsim.sim_pop
        obtain ⟨s1, h1, h2, h3, h4⟩ := ih _ rest order o hsim1 (hinv.inv_pop hs) hrun
        refine ⟨s1, ?_, h2, h3, h4⟩
        simp [dfsLoop, he, hpeek, getAdjUnvisitedVertex, hscan, hs, hpop, h1]
      | some u =>
        simp only [stackDfs, hs] at hrun
        obtain ⟨hu0, hu1, _, _⟩ := scanFrom_some _ _ _ hs
        have hur : 0 ≤ u ∧ u < s.vertexCount := ⟨hu0, by omega⟩
        have hinv1 := hinv.inv_push hs
        have hlen := length_le_of_nodup_range hinv1.nodup hinv1.range
        have hcap : (t :: rest).length < 5 := by
          have h1 := hinv.stk_len
          have h2 := hsim.count
          simp at hlen h1 ⊢
          omega
        obtain ⟨s1, hm1, hsim1, hm1a, hm1b⟩ := hsim.sim_mark hur
        obtain ⟨s2, hp2, hsim2, hm2a, hm2b⟩ := hsim1.sim_push u hcap
        have hrun2 : stackDfs s2.adjMatrix s2.vertexCount f (u :: t :: rest) (order ++ [u]) =
            some o := by rw [hm2a, hm2b, hm1a, hm1b]; exact hrun
        have hinv2 : DfsInv s2.adjMatrix s2.vertexCount (u :: t :: rest) (order ++ [u]) := by
          rw [hm2a, hm2b, hm1a, hm1b]; exact hinv1
        obtain ⟨s3, h1, h2, h3, h4⟩ := ih s2 _ _ o hsim2 hinv2 hrun2
        refine ⟨s3, ?_, h2, by rw [h3, hm2a, hm1a], by rw [h4, hm2b, hm1b]⟩
        have hne : ¬ u = -1 := by omega
        simp [dfsLoop, he, hpeek, getAdjUnvisitedVertex, hscan, hs, hne, hm1, hp2, h1]

/-- The final loop of `depthFirstSearch` clears the flags of the vertices it
walks over and touches nothing else. -/
theorem resetLoop_spec : ∀ (k : Nat) (i : Int) (s : DfsState), 0 ≤ i →
    (∀ j : Int, 0 ≤ j → j < i + k → ∃ b, readVisited s j = .done b) →
    ∃ l, resetLoop k i s = .done { s with lstVertices := l } ∧
      l.length = s.lstVertices.length ∧
      ∀ j : Int, 0 ≤ j → j < i + k →
        readVisited { s with lstVertices := l } j =
          if i ≤ j then .done false else readVisited s j := by
  intro k
  induction k with
  | zero =>
    intro i s _ _
    refine ⟨s.lstVertices, rfl, rfl, ?_⟩
    intro j _ hj
    have : ¬ i ≤ j := by push_cast at hj; omega
    simp [this]
  | succ k ih =>
    intro i s hi hex
    obtain ⟨b, hb⟩ := hex i hi (by push_cast; omega)
    obtain ⟨l, hw, hlen, hread⟩ := writeVisited_spec false hb
    have hex1 : ∀ j : Int, 0 ≤ j → j < i + 1 + k →
        ∃ b, readVisited { s with lstVertices := l } j = .done b := by
      intro j hj0 hj1
      rw [hread j hj0]
      by_cases hji : j = i
      · exact ⟨false, by simp [hji]⟩
      · simp only [hji, if_false]
        exact hex j hj0 (by push_cast; omega)
    obtain ⟨l2, hr2, hlen2, hread2⟩ := ih (i + 1) { s with lstVertices := l } (by omega) hex1
    refine ⟨l2, by simp only [resetLoop, hw, Outcome.bind_done, hr2], by rw [hlen2]; exact hlen,
      ?_⟩
    intro j hj0 hj1
    have := hread2 j hj0 (by push_cast at hj1 ⊢; omega)
    simp only at this
    rw [this, hread j hj0]
    by_cases h1 : i + 1 ≤ j
    · have h2 : i ≤ j := by omega
      simp [h1, h2]
    · by_cases h2 : j = i
      · simp [h2]
      · have h3 : ¬ i ≤ j := by omega
        simp [h1, h2, h3]

/-- `depthFirstSearch` on a ready state returns with the visit order of the
search on the list stack, leaves matrix and vertex count as they were, and
leaves the state ready for another call. -/
theorem depthFirstSearch_spec {s : DfsState} (hs : DfsReady s) (fuel : Nat)
    (hf : 2 * s.vertexCount.toNat ≤ fuel) :
    ∃ s1 o, depthFirstSearch fuel s = .done (s1, o) ∧ DfsReady s1 ∧
      s1.adjMatrix = s.adjMatrix ∧ s1.vertexCount = s.vertexCount ∧
      stackDfs s.adjMatrix s.vertexCount fuel [0] [0] = some o ∧
      DfsInv s.adjMatrix s.vertexCount [] o := by
  obtain ⟨hstack, htop, hmat, hvlen, hcount, hflags⟩ := hs
  have hsim0 : DfsSim s [] [] :=
    { stack_len := hstack, matrix := hmat, count := hcount, vlen := hvlen,
      flags := by intro i h0 h1; simpa using hflags i h0 h1,
      top := by simp [htop], live := by simp }
  obtain ⟨s1, hm1, hsim1, hm1a, hm1b⟩ := hsim0.sim_mark (u := 0) ⟨le_refl _, by omega⟩
  obtain ⟨s2, hp2, hsim2, hm2a, hm2b⟩ := hsim1.sim_push 0 (by simp)
  simp only [List.nil_append] at hsim2
  have hinv0 : DfsInv s.adjMatrix s.vertexCount [0] [0] := DfsInv.inv_init _ hcount.1
  obtain ⟨o, hrun, hinvo⟩ := stackDfs_terminates s.adjMatrix s.vertexCount fuel [0] [0] hinv0
    (by simp; omega)
  have hma : s2.adjMatrix = s.adjMatrix := by rw [hm2a, hm1a]
  have hvc : s2.vertexCount = s.vertexCount := by rw [hm2b, hm1b]
  obtain ⟨s3, hloop, hsim3, hm3a, hm3b⟩ := dfsLoop_sim fuel s2 [0] [0] o hsim2
    (by rw [hma, hvc]; exact hinv0) (by rw [hma, hvc]; exact hrun)
  have hex : ∀ j : Int, 0 ≤ j → j < 0 + (s3.vertexCount.toNat : Int) →
      ∃ b, readVisited s3 j = .done b := by
    intro j hj0 hj1
    exact ⟨_, hsim3.flags j hj0 (by omega)⟩
  obtain ⟨l, hreset, hlen, hread⟩ := resetLoop_spec s3.vertexCount.toNat 0 s3 (le_refl _) hex
  refine ⟨{ s3 with lstVertices := l }, o, ?_, ?_, by show s3.adjMatrix = _; rw [hm3a, hma],
    by show s3.vertexCount = _; rw [hm3b, hvc], hrun, hinvo⟩
  · simp [depthFirstSearch, hm1, hp2, hloop, hreset]
  · refine ⟨hsim3.stack_len, ?_, hsim3.matrix, by show l.length = 5; rw [hlen, hsim3.vlen],
      hsim3.count, ?_⟩
    · have := hsim3.top
      simp at this
      show s3.top = -1
      omega
    · intro i hi0 hi1
      have hi2 : i < s3.vertexCount := hi1
      have := hread i hi0 (by omega)
      simp only [hi0, if_true] at this
      exact this

/-! ## Building the matrix graph -/

theorem addVertices_spec (stack0 : List Int) (m : List (List Int)) (vc : Nat)
    (h1 : 1 ≤ vc) (h5 : vc ≤ 5) :
    ∃ l, addVertices vc (DfsState.mk stack0 (-1) (List.replicate 5 none) m 0) =
      .done (DfsState.mk stack0 (-1) l m vc) ∧ l.length = 5 ∧
      ∀ i : Int, 0 ≤ i → i < vc → readAt l i = .done (some false) := by
  interval_cases vc
  · refine ⟨[some false, none, none, none, none], rfl, rfl, ?_⟩
    intro i h0 h1; simp at h1; interval_cases i; rfl
  · refine ⟨[some false, some false, none, none, none], rfl, rfl, ?_⟩
    intro i h0 h1; simp at h1; interval_cases i <;> rfl
  · refine ⟨[some false, some false, some false, none, none], rfl, rfl, ?_⟩
    intro i h0 h1; simp at h1; interval_cases i <;> rfl
  · refine ⟨[some false, some false, some false, some false, none], rfl, rfl, ?_⟩
    intro i h0 h1; simp at h1; interval_cases i <;> rfl
  · refine ⟨[some false, some false, some false, some false, some false], rfl, rfl, ?_⟩
    intro i h0 h1; simp at h1; interval_cases i <;> rfl

/-- The state `buildMatrixGraph` produces is ready for the search and its
matrix holds 1 exactly at the pairs joined by an inserted edge. -/
theorem buildMatrixGraph_spec {stack0 : List Int} {vc : Nat} {edges : List (Int × Int)}
    (hstack : stack0.length = 5) (h1 : 1 ≤ vc) (h5 : vc ≤ 5) (hv : ValidEdges_DFS edges) :
    ∃ g, buildMatrixGraph stack0 vc edges = .done g ∧ DfsReady g ∧ g.vertexCount = vc ∧
      ∀ a b : Int, 0 ≤ a ∧ a < 5 → 0 ≤ b ∧ b < 5 →
        readMatrix g.adjMatrix a b = .done (if Adjacent edges a b then 1 else 0) := by
  obtain ⟨l, hl, hlen, hfl⟩ := addVertices_spec stack0 (List.replicate 5 (List.replicate 5 0))
    vc h1 h5
  obtain ⟨m1, hm, hm5, hread⟩ := addEdges_DFS_spec edges
    (s := DfsState.mk stack0 (-1) l (List.replicate 5 (List.replicate 5 0)) vc)
    matrix5_zero hv
  refine ⟨{ DfsState.mk stack0 (-1) l (List.replicate 5 (List.replicate 5 0)) vc with
    adjMatrix := m1 }, ?_, ?_, rfl, ?_⟩
  · show (addVertices vc (zeroMatrix { dfsInit with stack := stack0 })).bind _ = _
    have : zeroMatrix { dfsInit with stack := stack0 } =
        DfsState.mk stack0 (-1) (List.replicate 5 none)
          (List.replicate 5 (List.replicate 5 0)) 0 := rfl
    rw [this, hl]
    exact hm
  · refine ⟨hstack, rfl, hm5, hlen, ⟨by show (1 : Int) ≤ (vc : Int); omega,
      by show (vc : Int) ≤ 5; omega⟩, ?_⟩
    intro i hi0 hi1
    have := hfl i hi0 hi1
    simp [readVisited, this]
  · intro a b ha hb
    have := hread a b ha hb
    simp only at this
    rw [this, readMatrix_zero ha hb]
    split <;> rfl

/-- Paths in the matrix are the paths along inserted edges through registered
vertices. -/
theorem reach_matrix_iff {m : List (List Int)} {edges : List (Int × Int)} {vc : Int}
    (hvc : vc ≤ 5) (hv : ValidEdges_DFS edges)
    (hread : ∀ a b : Int, 0 ≤ a ∧ a < 5 → 0 ≤ b ∧ b < 5 →
      readMatrix m a b = .done (if Adjacent edges a b then 1 else 0)) (v : Int) :
    Relation.ReflTransGen (MatrixEdge m vc) 0 v ↔
      Relation.ReflTransGen (RegisteredEdge edges vc) 0 v := by
  have hadj : ∀ a b, Adjacent edges a b → (0 ≤ a ∧ a < 5) ∧ (0 ≤ b ∧ b < 5) := by
    intro a b h
    rcases h with h | h
    · exact hv (a, b) h
    · have := hv (b, a) h
      exact ⟨this.2, this.1⟩
  constructor
  · intro h
    have : (0 ≤ v ∧ v < 5) ∧ Relation.ReflTransGen (RegisteredEdge edges vc) 0 v := by
      induction h with
      | refl => exact ⟨⟨le_refl _, by norm_num⟩, Relation.ReflTransGen.refl⟩
      | tail _ hstep ih =>
        rename_i b c _
        obtain ⟨hr, hc0, hc1⟩ := hstep
        have hc5 : 0 ≤ c ∧ c < 5 := ⟨hc0, by omega⟩
        refine ⟨hc5, Relation.ReflTransGen.tail ih.2 ⟨?_, hc1⟩⟩
        rw [hread b c ih.1 hc5] at hr
        by_contra hn
        simp [hn] at hr
    exact this.2
  · intro h
    induction h with
    | refl => exact Relation.ReflTransGen.refl
    | tail _ hstep ih =>
      rename_i b c _
      obtain ⟨hab, hc1⟩ := hstep
      obtain ⟨hb5, hc5⟩ := hadj b c hab
      refine Relation.ReflTransGen.tail ih ⟨?_, hc5.1, hc1⟩
      rw [hread b c hb5 hc5]
      simp [hab]

theorem DFS_test_state_ready : DfsReady DFS_test_state := by
  refine ⟨rfl, rfl, ⟨rfl, by decide⟩, rfl, ⟨by decide, by decide⟩, ?_⟩
  intro i h0 h1
  have h1 : i < 5 := h1
  interval_cases i <;> rfl

/-! ## Reference BFS: bookkeeping -/

/-- Induction along a scan: a property kept by every marking step holds at the end. -/
theorem refScan_induct (P : List Int → List Int → Prop) (ws : List Int) :
    ∀ (vis fifo : List Int), P vis fifo →
    (∀ w ∈ ws, ∀ vis fifo, P vis fifo → w ∉ vis → P (w :: vis) (fifo ++ [w])) →
    P (refScan ws vis fifo).1 (refScan ws vis fifo).2 := by
  induction ws with
  | nil => intro vis fifo h _; exact h
  | cons w ws ih =>
    intro vis fifo h hstep
    simp only [refScan]
    split
    · exact ih vis fifo h (fun w' hw' => hstep w' (List.mem_cons_of_mem _ hw'))
    · rename_i hw
      exact ih _ _ (hstep w (List.mem_cons_self _ _) vis fifo h hw)
        (fun w' hw' => hstep w' (List.mem_cons_of_mem _ hw'))

theorem refScan_subset (ws : List Int) : ∀ (vis fifo : List Int),
    ∀ x ∈ vis, x ∈ (refScan ws vis fifo).1 := by
  induction ws with
  | nil => intro vis fifo x hx; exact hx
  | cons w ws ih =>
    intro vis fifo x hx
    simp only [refScan]
    split
    · exact ih vis fifo x hx
    · exact ih _ _ x (List.mem_cons_of_mem _ hx)

/-- After the scan of `ws` every vertex of `ws` is visited. -/
theorem refScan_mem (ws : List Int) : ∀ (vis fifo : List Int),
    ∀ w ∈ ws, w ∈ (refScan ws vis fifo).1 := by
  induction ws with
  | nil => intro vis fifo w hw; cases hw
  | cons a ws ih =>
    intro vis fifo w hw
    simp only [refScan]
    rcases List.mem_cons.1 hw with hw | hw
    · subst hw
      split
      · rename_i h; exact refScan_subset ws vis fifo w h
      · exact refScan_subset ws _ _ w (List.mem_cons_self _ _)
    · split
      · exact ih vis fifo w hw
      · exact ih _ _ w hw

theorem refScan_length (ws : List Int) : ∀ (vis fifo : List Int),
    vis.length ≤ (refScan ws vis fifo).1.length ∧
      (refScan ws vis fifo).1.length + fifo.length =
        vis.length + (refScan ws vis fifo).2.length := by
  induction ws with
  | nil => intro vis fifo; exact ⟨le_refl _, rfl⟩
  | cons w ws ih =>
    intro vis fifo
    simp only [refScan]
    split
    · exact ih vis fifo
    · have := ih (w :: vis) (fifo ++ [w])
      simp at this
      constructor <;> omega

theorem BfsBase.base_scan {n : Int} {vis fifo out : List Int} (h : BfsBase n vis fifo out)
    {ws : List Int} (hws : ∀ w ∈ ws, 0 ≤ w ∧ w < n) :
    BfsBase n (refScan ws vis fifo).1 (refScan ws vis fifo).2 out := by
  refine refScan_induct (fun vis fifo => BfsBase n vis fifo out) ws vis fifo h ?_
  intro w hw vis fifo hb hwv
  exact
  { perm := by
      have := hb.perm
      rw [← List.append_assoc]
      exact (this.cons w).trans (List.perm_append_singleton w (out ++ fifo)).symm
    nodup := List.nodup_cons.2 ⟨hwv, hb.nodup⟩
    range := by
      intro x hx
      rcases List.mem_cons.1 hx with hx | hx
      · rw [hx]; exact hws w hw
      · exact hb.range x hx }

theorem BfsBase.base_dequeue {n : Int} {vis fifo out : List Int} {v : Int}
    (h : BfsBase n vis (v :: fifo) out) : BfsBase n vis fifo (out ++ [v]) where
  perm := by
    have := h.perm
    simpa using this
  nodup := h.nodup
  range := h.range

theorem BfsBase.length_le {n : Int} {vis fifo out : List Int} (h : BfsBase n vis fifo out) :
    vis.length ≤ n.toNat :=
  length_le_of_nodup_range h.nodup h.range

theorem BfsBase.base_init {n s : Int} (hs : 0 ≤ s ∧ s < n) : BfsBase n [s] [s] [] where
  perm := by simp
  nodup := by simp
  range := by intro x hx; simp at hx; rw [hx]; exact hs

/-- The reference BFS ends within `n + 1` rounds. -/
theorem refLoop_terminates {n : Int} (adj : Int → List Int)
    (hadj : ∀ u : Int, 0 ≤ u → u < n → ∀ w ∈ adj u, 0 ≤ w ∧ w < n) :
    ∀ (fuel : Nat) (vis fifo out : List Int), BfsBase n vis fifo out →
    (n.toNat - vis.length) + fifo.length < fuel →
    ∃ o, refLoop adj fuel vis fifo out = some o := by
  intro fuel
  induction fuel with
  | zero => intro vis fifo out _ h; omega
  | succ f ih =>
    intro vis fifo out hb hf
    cases fifo with
    | nil => exact ⟨out, rfl⟩
    | cons v fifo =>
      have hv : v ∈ vis := hb.perm.mem_iff.2 (by simp)
      have hvr := hb.range v hv
      have hb1 := hb.base_dequeue.base_scan (hadj v hvr.1 hvr.2)
      have hlen := refScan_length (adj v) vis fifo
      have hle := hb1.length_le
      obtain ⟨o, ho⟩ := ih _ _ _ hb1 (by simp at hf; omega)
      exact ⟨o, by simp [refLoop, ho]⟩

/-! ## `bfs` follows the reference BFS -/

/-- Marking an unvisited vertex and enqueueing it, when a slot is free. -/
theorem BfsSim.bfs_mark {n : Int} {adj : Int → List Int} {g : Graph} {q : queue}
    {vis fifo : List Int} (h : BfsSim n adj g q vis fifo) {w : Int}
    (hw : 0 ≤ w ∧ w < n) (hroom : vis.length + 1 ≤ 41) :
    ∃ q1, writeAt g.visited w 1 = .done (g.visited.set w.toNat 1) ∧
      enqueue q w = .done q1 ∧
      BfsSim n adj { g with visited := g.visited.set w.toNat 1 } q1 (w :: vis)
        (fifo ++ [w]) := by
  have hvl := h.vlen
  have hwr := writeAt_of_range (l := g.visited) (1 : Int) hw.1 (by omega)
  obtain ⟨q1, he, hq1, hh1, hr1⟩ := enqueue_spec h.qok w (by have := h.used; omega)
  refine ⟨q1, hwr, he, ?_⟩
  exact
  { size := h.size
    vlen := by simp [hvl]
    adj_read := h.adj_read
    adj_range := h.adj_range
    flags := by
      intro u hu0 hu1
      show ∃ f, readAt (g.visited.set w.toNat 1) u = .done f ∧ (f = 0 ↔ u ∉ w :: vis)
      rw [readAt_set g.visited _ _ hu0 (by omega)]
      by_cases huw : u = w
      · subst huw
        exact ⟨1, by simp, by simp⟩
      · have hne : ¬ u.toNat = w.toNat := by omega
        obtain ⟨f, hf, hiff⟩ := h.flags u hu0 hu1
        refine ⟨f, by simp [hne, hf], ?_⟩
        simp [huw, hiff]
    qok := hq1
    qheld := by rw [hh1, h.qheld]
    used := by rw [hr1]; have := h.used; simp; omega }

/-- The inner loop of `bfs` follows the reference scan. -/
theorem bfsScan_sim {n : Int} {adj : Int → List Int} (ws : List Int) :
    ∀ (g : Graph) (q : queue) (vis fifo : List Int), BfsSim n adj g q vis fifo →
    (∀ w ∈ ws, 0 ≤ w ∧ w < n) → (refScan ws vis fifo).1.length ≤ 41 →
    ∃ g1 q1, bfsScan ws g q = .done (g1, q1) ∧
      BfsSim n adj g1 q1 (refScan ws vis fifo).1 (refScan ws vis fifo).2 ∧
      g1.adjLists = g.adjLists ∧ g1.numVertices = g.numVertices := by
  induction ws with
  | nil => intro g q vis fifo h _ _; exact ⟨g, q, rfl, h, rfl, rfl⟩
  | cons w ws ih =>
    intro g q vis fifo h hws hlen
    have hw := hws w (List.mem_cons_self _ _)
    have hws1 : ∀ x ∈ ws, 0 ≤ x ∧ x < n := fun x hx => hws x (List.mem_cons_of_mem _ hx)
    obtain ⟨f, hf, hiff⟩ := h.flags w hw.1 hw.2
    by_cases hmem : w ∈ vis
    · have hf0 : ¬ f = 0 := fun e => (hiff.1 e) hmem
      simp only [refScan, hmem, if_true] at hlen ⊢
      obtain ⟨g1, q1, h1, h2, h3, h4⟩ := ih g q vis fifo h hws1 hlen
      exact ⟨g1, q1, by simp [bfsScan, hf, hf0, h1], h2, h3, h4⟩
    · have hf0 : f = 0 := hiff.2 hmem
      simp only [refScan, hmem, if_false] at hlen ⊢
      have hmono := (refScan_length ws (w :: vis) (fifo ++ [w])).1
      obtain ⟨q1, hwr, he, hsim1⟩ := h.bfs_mark hw (by simp at hmono; omega)
      obtain ⟨g2, q2, h1, h2, h3, h4⟩ := ih _ q1 _ _ hsim1 hws1 hlen
      exact ⟨g2, q2, by simp [bfsScan, hf, hf0, hwr, he, h1], h2, h3, h4⟩

/-- The outer loop of `bfs` follows the reference loop and emits the same order;
at the end the flags mark exactly the emitted vertices. -/
theorem bfsLoop_sim {n : Int} {adj : Int → List Int} : ∀ (fuel : Nat) (g : Graph)
    (q : queue) (vis fifo out o : List Int), BfsSim n adj g q vis fifo →
    BfsBase n vis fifo out → refLoop adj fuel vis fifo out = some o →
    ∃ g1 q1 visf, bfsLoop fuel g q out = .done (g1, q1, o) ∧ BfsSim n adj g1 q1 visf [] ∧
      BfsBase n visf [] o ∧ g1.adjLists = g.adjLists ∧ g1.numVertices = g.numVertices := by
  intro fuel
  induction fuel with
  | zero => intro g q vis fifo out o _ _ h; simp [refLoop] at h
  | succ f ih =>
    intro g q vis fifo out o hsim hb hrun
    cases fifo with
    | nil =>
      simp only [refLoop] at hrun
      injection hrun with hrun
      subst hrun
      have hr : q.rear = -1 := (held_eq_nil_iff hsim.qok).1 hsim.qheld
      have he : isEmpty q = 1 := isEmpty_eq_one_iff.2 hr
      exact ⟨g, q, vis, by simp [bfsLoop, he], hsim, hb, rfl, rfl⟩
    | cons v fifo =>
      simp only [refLoop] at hrun
      have hne : q.rear ≠ -1 := by
        intro e
        have := (held_eq_nil_iff hsim.qok).2 e
        rw [hsim.qheld] at this
        cases this
      have he : isEmpty q = 0 := isEmpty_eq_zero_iff.2 hne
      obtain ⟨q1, hd, hq1, hh1, hr1, _⟩ := dequeue_spec hsim.qok hsim.qheld
      have hv : v ∈ vis := hb.perm.mem_iff.2 (by simp)
      have hvr := hb.range v hv
      have hread := hsim.adj_read v hvr.1 hvr.2
      have hws := hsim.adj_range v hvr.1 hvr.2
      have hsim1 : BfsSim n adj g q1 vis fifo :=
        { size := hsim.size, vlen := hsim.vlen, adj_read := hsim.adj_read,
          adj_range := hsim.adj_range, flags := hsim.flags, qok := hq1, qheld := hh1,
          used := by have := hsim.used; omega }
      have hb1 := hb.base_dequeue.base_scan hws
      have hlen : (refScan (adj v) vis fifo).1.length ≤ 41 := by
        have := hb1.length_le
        have := hsim.size
        omega
      obtain ⟨g2, q2, hscan, hsim2, ha2, hn2⟩ := bfsScan_sim (adj v) g q1 vis fifo hsim1 hws hlen
      obtain ⟨g3, q3, visf, hloop, hsim3, hb3, ha3, hn3⟩ := ih g2 q2 _ _ _ o hsim2 hb1 hrun
      refine ⟨g3, q3, visf, ?_, hsim3, hb3, by rw [ha3, ha2], by rw [hn3, hn2]⟩
      simp [bfsLoop, he, hd, hread, hscan, hloop]

theorem storedAdj_range {n : Int} {edges : List (Int × Int)} (hv : ValidEdges n edges)
    (u : Int) : ∀ w ∈ storedAdj edges u, 0 ≤ w ∧ w < n := by
  intro w hw
  rcases storedAdj_mem.1 hw with h | h
  · exact (hv _ h).2
  · exact (hv _ h).1

/-- A freshly built graph in which the start vertex has been marked, with a
queue that is empty again after the start vertex went through it, represents
the reference BFS with the start vertex marked and nothing waiting. -/
theorem BfsSim.fresh {n : Int} {edges : List (Int × Int)} {g : Graph} {q : queue} {s : Int}
    (hn : 0 ≤ n ∧ n ≤ 41) (hv : ValidEdges n edges) (hs : 0 ≤ s ∧ s < n)
    (hq : QueueOk q) (hr : q.rear = -1)
    (hvis : g.visited = List.replicate n.toNat 0)
    (hadj : ∀ u : Int, 0 ≤ u → u < n → readAt g.adjLists u = .done (storedAdj edges u)) :
    BfsSim n (storedAdj edges) { g with visited := g.visited.set s.toNat 1 } q [s] [] where
  size := hn
  vlen := by rw [hvis]; simp; omega
  adj_read := hadj
  adj_range := fun u _ _ => storedAdj_range hv u
  flags := by
    intro u hu0 hu1
    have hlen : (g.visited.length : Int) = n := by rw [hvis]; simp; omega
    show ∃ f, readAt (g.visited.set s.toNat 1) u = .done f ∧ (f = 0 ↔ u ∉ [s])
    rw [readAt_set g.visited _ _ hu0 (by omega)]
    by_cases hus : u = s
    · subst hus
      exact ⟨1, by simp, by simp⟩
    · have hne : ¬ u.toNat = s.toNat := by omega
      refine ⟨0, ?_, by simp [hus]⟩
      simp only [hne, if_false]
      rw [hvis, readAt_eq_done]
      refine ⟨hu0, ?_⟩
      rw [List.getElem?_replicate]
      have : u.toNat < n.toNat := by omega
      simp [this]
  qok := hq
  qheld := held_of_empty hr
  used := by rw [hr]; simp

/-- `bfs` on a graph of at most 41 vertices built by `createGraph` and valid
`addEdge` calls returns, and emits the order of the reference BFS: the start
vertex is dequeued, which empties the queue and resets its cursors, before its
neighbours are enqueued, so the 40 slots serve the other vertices. -/
theorem bfs_eq_refBfs {n : Int} {edges : List (Int × Int)} {s : Int} {mem : List Int}
    (hn : n ≤ 41) (hv : ValidEdges n edges) (hs : 0 ≤ s ∧ s < n) (hmem : mem.length = 40)
    (fuel : Nat) (hf : n.toNat < fuel) :
    ∃ g g1 q1 o visf, buildGraph n edges = .done g ∧ bfs fuel mem g s = .done (g1, q1, o) ∧
      refBfs (storedAdj edges) fuel s = some o ∧ BfsSim n (storedAdj edges) g1 q1 visf [] ∧
      BfsBase n visf [] o ∧ g1.adjLists = g.adjLists ∧
      g1.numVertices = g.numVertices := by
  obtain ⟨g, hg, hnum, hvis, _, hadj⟩ := buildGraph_spec hv
  have hlen : (g.visited.length : Int) = n := by rw [hvis]; simp; omega
  have hwr := writeAt_of_range (l := g.visited) (1 : Int) hs.1 (by omega)
  obtain ⟨q1, he, hq1, hh1, _⟩ := enqueue_spec (createQueue_ok hmem) s (by simp [createQueue])
  rw [held_createQueue, List.nil_append] at hh1
  obtain ⟨q2, hd, hq2, hh2, _, _⟩ := dequeue_spec hq1 hh1
  have hr2 : q2.rear = -1 := (held_eq_nil_iff hq2).1 hh2
  have hne1 : q1.rear ≠ -1 := by
    intro e
    have := (held_eq_nil_iff hq1).2 e
    rw [hh1] at this
    cases this
  have hemp : isEmpty q1 = 0 := isEmpty_eq_zero_iff.2 hne1
  have hsim := BfsSim.fresh (g := g) (s := s) ⟨by omega, hn⟩ hv hs hq2 hr2 hvis hadj
  have hb := BfsBase.base_init hs
  obtain ⟨o, ho⟩ := refLoop_terminates (storedAdj edges)
    (fun u _ _ => storedAdj_range hv u) fuel [s] [s] [] hb (by simp; omega)
  obtain ⟨f, rfl⟩ : ∃ f, fuel = f + 1 := ⟨fuel - 1, by omega⟩
  have ho1 := ho
  simp only [refLoop] at ho1
  have hws := storedAdj_range hv s
  have hb1 := hb.base_dequeue.base_scan hws
  have hl1 : (refScan (storedAdj edges s) [s] []).1.length ≤ 41 := by
    have := hb1.length_le
    omega
  obtain ⟨g2, q3, hscan, hsim2, ha2, hn2⟩ :=
    bfsScan_sim (storedAdj edges s) _ q2 [s] [] hsim hws hl1
  obtain ⟨g3, q4, visf, hloop, hsim3, hb3, ha3, hn3⟩ :=
    bfsLoop_sim f g2 q3 _ _ _ o hsim2 hb1 ho1
  rw [List.nil_append] at hloop
  refine ⟨g, g3, q4, o, visf, hg, ?_, ho, hsim3, hb3, by rw [ha3, ha2], by rw [hn3, hn2]⟩
  simp [bfs, hwr, he, bfsLoop, hemp, hd, hadj s hs.1 hs.2, hscan, hloop]

/-! ## Reference BFS: levels -/

theorem BfsLevels.levels_init (edges : List (Int × Int)) (s : Int) :
    BfsLevels edges s (fun _ => 0) [s] [s] [] [] (some s) where
  walk := by intro x hx; simp at hx; rw [hx]; exact Walk.nil s
  sorted := by simp
  bound := by intro c _ x _; simp
  finished := by intro u hu; cases hu
  fin_vis := by intro u hu; cases hu
  root := ⟨by simp, rfl⟩

theorem BfsLevels.levels_dequeue {edges : List (Int × Int)} {s : Int} {lab : Int → Nat}
    {vis fifo out : List Int} {v : Int}
    (h : BfsLevels edges s lab vis (v :: fifo) out out (some v)) :
    BfsLevels edges s lab vis fifo (out ++ [v]) out (some v) where
  walk := h.walk
  sorted := by have := h.sorted; simpa using this
  bound := h.bound
  finished := h.finished
  fin_vis := h.fin_vis
  root := h.root

theorem BfsLevels.add {edges : List (Int × Int)} {s n : Int} {lab : Int → Nat}
    {vis fifo out fin : List Int} {v w : Int} (hb : BfsBase n vis fifo out)
    (h : BfsLevels edges s lab vis fifo out fin (some v)) (hv : v ∈ vis)
    (hadj : Adjacent edges v w) (hw : w ∉ vis) :
    BfsLevels edges s (Function.update lab w (lab v + 1)) (w :: vis) (fifo ++ [w]) out fin
      (some v) := by
  have hold : ∀ x ∈ vis, Function.update lab w (lab v + 1) x = lab x := by
    intro x hx
    have hne : x ≠ w := fun e => hw (by rw [← e]; exact hx)
    exact Function.update_noteq hne _ _
  have hnew : Function.update lab w (lab v + 1) w = lab v + 1 := Function.update_same _ _ _
  have hbv := h.bound v rfl
  exact
  { walk := by
      intro x hx
      rcases List.mem_cons.1 hx with hx | hx
      · rw [hx, hnew]; exact Walk.snoc (h.walk v hv) hadj
      · rw [hold x hx]; exact h.walk x hx
    sorted := by
      rw [← List.append_assoc, List.pairwise_append]
      refine ⟨?_, by simp, ?_⟩
      · refine List.Pairwise.imp_of_mem ?_ h.sorted
        intro a b ha hb' hab
        rw [hold a (hb.perm.mem_iff.2 ha), hold b (hb.perm.mem_iff.2 hb')]
        exact hab
      · intro a ha b hb'
        simp at hb'
        subst hb'
        have hav := hb.perm.mem_iff.2 ha
        rw [hold a hav, hnew]
        exact hbv a hav
    bound := by
      intro c hc x hx
      have hcv : c = v := by simpa using hc.symm
      rw [hcv, hold v hv]
      rcases List.mem_cons.1 hx with hx | hx
      · rw [hx, hnew]
      · rw [hold x hx]; exact hbv x hx
    finished := by
      intro u hu w' hw'
      obtain ⟨h1, h2⟩ := h.finished u hu w' hw'
      refine ⟨List.mem_cons_of_mem _ h1, ?_⟩
      rw [hold w' h1, hold u (h.fin_vis u hu)]
      exact h2
    fin_vis := fun u hu => List.mem_cons_of_mem _ (h.fin_vis u hu)
    root := ⟨List.mem_cons_of_mem _ h.root.1, by rw [hold s h.root.1]; exact h.root.2⟩ }

theorem BfsLevels.levels_scan {edges : List (Int × Int)} {s n : Int} {out F : List Int} {v : Int}
    {ws : List Int} (hadj : ∀ w ∈ ws, Adjacent edges v w) (hws : ∀ w ∈ ws, 0 ≤ w ∧ w < n) :
    ∀ (vis fifo : List Int), BfsBase n vis fifo out → v ∈ vis →
    (∃ lab, BfsLevels edges s lab vis fifo out F (some v)) →
    ∃ lab, BfsLevels edges s lab (refScan ws vis fifo).1 (refScan ws vis fifo).2 out F
      (some v) := by
  intro vis fifo hb hv hl
  have := refScan_induct
    (fun vis fifo => BfsBase n vis fifo out ∧ v ∈ vis ∧
      ∃ lab, BfsLevels edges s lab vis fifo out F (some v)) ws vis fifo ⟨hb, hv, hl⟩ ?_
  · exact this.2.2
  · intro w hw vis fifo ⟨hb1, hv1, lab, hl1⟩ hwv
    refine ⟨?_, List.mem_cons_of_mem _ hv1, _, hl1.add hb1 hv1 (hadj w hw) hwv⟩
    have := hb1.base_scan (show ∀ x ∈ [w], 0 ≤ x ∧ x < n from by
      intro x hx; simp at hx; rw [hx]; exact hws w hw)
    simpa [refScan, hwv] using this

theorem BfsLevels.finish {edges : List (Int × Int)} {s : Int} {lab : Int → Nat}
    {vis fifo out : List Int} {v : Int}
    (h : BfsLevels edges s lab vis fifo (out ++ [v]) out (some v)) (hv : v ∈ vis)
    (hall : ∀ w, Adjacent edges v w → w ∈ vis) :
    BfsLevels edges s lab vis fifo (out ++ [v]) (out ++ [v]) fifo.head? where
  walk := h.walk
  sorted := h.sorted
  bound := by
    intro c hc x hx
    have hcm : c ∈ fifo := List.mem_of_mem_head? hc
    have hs := (List.pairwise_append.1 h.sorted).2.2 v (by simp) c hcm
    have := h.bound v rfl x hx
    omega
  finished := by
    intro u hu w hw
    rcases List.mem_append.1 hu with hu | hu
    · exact h.finished u hu w hw
    · simp at hu
      subst hu
      exact ⟨hall w hw, h.bound u rfl w (hall w hw)⟩
  fin_vis := by
    intro u hu
    rcases List.mem_append.1 hu with hu | hu
    · exact h.fin_vis u hu
    · simp at hu; rw [hu]; exact hv
  root := h.root

/-- The level invariant holds when the reference BFS ends. -/
theorem refLoop_levels {edges : List (Int × Int)} {s n : Int} (hv : ValidEdges n edges) :
    ∀ (fuel : Nat) (vis fifo out o : List Int), BfsBase n vis fifo out →
    (∃ lab, BfsLevels edges s lab vis fifo out out fifo.head?) →
    refLoop (storedAdj edges) fuel vis fifo out = some o →
    ∃ lab visf, BfsBase n visf [] o ∧ BfsLevels edges s lab visf [] o o none := by
  intro fuel
  induction fuel with
  | zero => intro vis fifo out o _ _ h; simp [refLoop] at h
  | succ f ih =>
    intro vis fifo out o hb hl hrun
    cases fifo with
    | nil =>
      simp only [refLoop] at hrun
      injection hrun with hrun
      subst hrun
      obtain ⟨lab, hl⟩ := hl
      exact ⟨lab, vis, hb, hl⟩
    | cons v fifo =>
      simp only [refLoop] at hrun
      obtain ⟨lab, hl⟩ := hl
      have hvv : v ∈ vis := hb.perm.mem_iff.2 (by simp)
      have hws := storedAdj_range hv v
      have hb1 := hb.base_dequeue
      have hb2 := hb1.base_scan hws
      obtain ⟨lab2, hl2⟩ := BfsLevels.levels_scan (F := out)
        (fun w hw => storedAdj_mem.1 hw) hws vis fifo hb1 hvv ⟨lab, hl.levels_dequeue⟩
      have hl3 := hl2.finish (refScan_subset _ _ _ v hvv)
        (fun w hw => refScan_mem _ _ _ w (storedAdj_mem.2 hw))
      exact ih _ _ _ o hb2 ⟨lab2, hl3⟩ hrun

/-- When the reference BFS has ended, every vertex joined to `s` by a walk was
emitted, with a level no larger than the length of the walk. -/
theorem BfsLevels.of_walk {edges : List (Int × Int)} {s n : Int} {lab : Int → Nat}
    {visf o : List Int} (hb : BfsBase n visf [] o)
    (hl : BfsLevels edges s lab visf [] o o none) {x : Int} {k : Nat}
    (hw : Walk edges s x k) : x ∈ o ∧ lab x ≤ k := by
  have hmem : ∀ y, y ∈ visf ↔ y ∈ o := fun y => by
    have := hb.perm.mem_iff (a := y)
    simpa using this
  induction hw with
  | nil => exact ⟨(hmem s).1 hl.root.1, by rw [hl.root.2]⟩
  | snoc _ hadj ih =>
    obtain ⟨h1, h2⟩ := hl.finished _ ih.1 _ hadj
    exact ⟨(hmem _).1 h1, by omega⟩

/-- When the reference BFS has ended, the level of an emitted vertex is its
edge-distance from `s`. -/
theorem BfsLevels.isDist {edges : List (Int × Int)} {s n : Int} {lab : Int → Nat}
    {visf o : List Int} (hb : BfsBase n visf [] o)
    (hl : BfsLevels edges s lab visf [] o o none) {x : Int} (hx : x ∈ o) :
    IsDist edges s x (lab x) := by
  have hxv : x ∈ visf := hb.perm.mem_iff.2 (by simpa using hx)
  exact ⟨hl.walk x hxv, fun k hk => (hl.of_walk hb hk).2⟩

theorem IsDist.unique {edges : List (Int × Int)} {s x : Int} {d1 d2 : Nat}
    (h1 : IsDist edges s x d1) (h2 : IsDist edges s x d2) : d1 = d2 :=
  Nat.le_antisymm (h1.2 d2 h2.1) (h2.2 d1 h1.1)

/-! ## Walks -/

theorem Adjacent.adj_symm {edges : List (Int × Int)} {u v : Int} (h : Adjacent edges u v) :
    Adjacent edges v u := Or.symm h

theorem Walk.walk_trans {edges : List (Int × Int)} {u v w : Int} {k j : Nat}
    (h1 : Walk edges u v k) (h2 : Walk edges v w j) : Walk edges u w (k + j) := by
  induction h2 with
  | nil => exact h1
  | snoc _ hadj ih => exact Walk.snoc ih hadj

theorem Walk.walk_symm {edges : List (Int × Int)} {u v : Int} {k : Nat}
    (h : Walk edges u v k) : Walk edges v u k := by
  induction h with
  | nil => exact Walk.nil u
  | snoc _ hadj ih =>
    have h1 := Walk.walk_trans (Walk.snoc (Walk.nil _) hadj.adj_symm) ih
    rw [Nat.add_comm] at h1
    exact h1

/-- A graph in which every vertex is joined to one vertex `r` is connected. -/
theorem connected_of_root {n : Int} {edges : List (Int × Int)} (r : Int)
    (h : ∀ v : Int, 0 ≤ v → v < n → ∃ k, Walk edges r v k) : Connected n edges := by
  intro u v hu0 hu1 hv0 hv1
  obtain ⟨k, hk⟩ := h u hu0 hu1
  obtain ⟨j, hj⟩ := h v hv0 hv1
  exact ⟨k + j, hk.walk_symm.walk_trans hj⟩

theorem star42_valid : ValidEdges 42 star42_edges := by
  intro e he
  simp only [star42_edges, List.mem_map, List.mem_range] at he
  obtain ⟨i, hi, rfl⟩ := he
  simp only [Int.ofNat_eq_coe]
  omega

theorem star42_connected : Connected 42 star42_edges := by
  apply connected_of_root 0
  intro v hv0 hv1
  by_cases h : v = 0
  · subst h; exact ⟨0, Walk.nil 0⟩
  · refine ⟨1, Walk.snoc (Walk.nil 0) (Or.inl ?_)⟩
    simp only [star42_edges, List.mem_map, List.mem_range]
    refine ⟨(v - 1).toNat, by omega, ?_⟩
    simp only [Int.ofNat_eq_coe, Prod.mk.injEq, true_and]
    omega

theorem star41_valid : ValidEdges 41 star41_edges := by
  intro e he
  simp only [star41_edges, List.mem_map, List.mem_range] at he
  obtain ⟨i, hi, rfl⟩ := he
  simp only [Int.ofNat_eq_coe]
  omega

theorem star41_connected : Connected 41 star41_edges := by
  apply connected_of_root 0
  intro v hv0 hv1
  by_cases h : v = 0
  · subst h; exact ⟨0, Walk.nil 0⟩
  · refine ⟨1, Walk.snoc (Walk.nil 0) (Or.inl ?_)⟩
    simp only [star41_edges, List.mem_map, List.mem_range]
    refine ⟨(v - 1).toNat, by omega, ?_⟩
    simp only [Int.ofNat_eq_coe, Prod.mk.injEq, true_and]
    omega

/-! ## Breadth-first search: the claims -/

set_option maxRecDepth 100000 in
/-- C1, counterexample: on the connected star with centre 0 and leaves 1 .. 41
(42 vertices, all flags 0, valid identifiers), `bfs` from vertex 0 returns
without ever dequeueing vertex 1: the enqueue of the 41st leaf finds the queue
full. -/
theorem bfs_star42_skips_vertex :
    ValidEdges 42 star42_edges ∧ Connected 42 star42_edges ∧
      ∃ g r, buildGraph 42 star42_edges = .done g ∧ g.visited = List.replicate 42 0 ∧
        bfs 43 (List.replicate 40 0) g 0 = .done r ∧ (1 : Int) ∉ r.2.2 := by
  refine ⟨star42_valid, star42_connected, ?_⟩
  have h : ((buildGraph 42 star42_edges).bind fun g =>
      (bfs 43 (List.replicate 40 0) g 0).bind fun r =>
        .done (decide ((1 : Int) ∈ r.2.2))) = .done false := by decide
  obtain ⟨g, hg, h1⟩ := Outcome.bind_eq_done.1 h
  obtain ⟨r, hr, h2⟩ := Outcome.bind_eq_done.1 h1
  obtain ⟨g', hg', _, hvis, _, _⟩ := buildGraph_spec star42_valid
  rw [hg] at hg'
  injection hg' with hg'
  subst hg'
  refine ⟨g, r, hg, hvis, hr, ?_⟩
  injection h2 with h2
  simpa using h2

/-- C1, amended: for every connected graph with at most 41 vertices built by
`createGraph(n)` and `addEdge` calls with valid identifiers, and every start
vertex `s` with `0 <= s < n`, `bfs` returns, the dequeued sequence contains
every vertex `0 .. n-1` exactly once, every vertex has an edge-distance from
`s`, and no vertex comes before a vertex of strictly smaller distance. The
start vertex has left the queue when its neighbours enter it, so the 40 slots
are enough for 41 vertices. -/
theorem bfs_visits_all_in_distance_order (n : Int) (edges : List (Int × Int)) (s : Int)
    (mem : List Int) (fuel : Nat) (hn : n ≤ 41) (hv : ValidEdges n edges)
    (hc : Connected n edges) (hs : 0 ≤ s ∧ s < n) (hmem : mem.length = 40)
    (hf : n.toNat < fuel) :
    ∃ g g1 q1 order, buildGraph n edges = .done g ∧
      bfs fuel mem g s = .done (g1, q1, order) ∧ order.Nodup ∧
      (∀ v : Int, v ∈ order ↔ 0 ≤ v ∧ v < n) ∧
      (∀ v ∈ order, ∃ d, IsDist edges s v d) ∧
      order.Pairwise (fun a b => ∀ da db, IsDist edges s a da → IsDist edges s b db →
        da ≤ db) := by
  obtain ⟨g, g1, q1, o, _, hg, hbfs, href, _⟩ := bfs_eq_refBfs hn hv hs hmem fuel hf
  have hb0 := BfsBase.base_init hs
  obtain ⟨lab, visf, hb, hl⟩ := refLoop_levels hv fuel [s] [s] [] o hb0
    ⟨_, BfsLevels.levels_init edges s⟩ href
  have hmem' : ∀ y, y ∈ visf ↔ y ∈ o := fun y => by
    have := hb.perm.mem_iff (a := y)
    simpa using this
  refine ⟨g, g1, q1, o, hg, hbfs, ?_, ?_, ?_, ?_⟩
  · have := hb.perm.nodup_iff.1 hb.nodup
    simpa using this
  · intro v
    constructor
    · intro h; exact hb.range v ((hmem' v).2 h)
    · intro h
      obtain ⟨k, hk⟩ := hc s v hs.1 hs.2 h.1 h.2
      exact (hl.of_walk hb hk).1
  · intro v hvo
    exact ⟨lab v, hl.isDist hb hvo⟩
  · have hsorted := hl.sorted
    simp only [List.append_nil] at hsorted
    refine List.Pairwise.imp_of_mem ?_ hsorted
    intro a b ha hb' hab da db hda hdb
    rw [IsDist.unique hda (hl.isDist hb ha), IsDist.unique hdb (hl.isDist hb hb')]
    exact hab

/-- C1, witness: the star with centre 0 and 40 leaves (41 vertices, the largest
size), searched from the centre. -/
theorem bfs_visits_all_in_distance_order_witness :
    ∃ g g1 q1 order, buildGraph 41 star41_edges = .done g ∧
      bfs 42 (List.replicate 40 0) g 0 = .done (g1, q1, order) ∧ order.Nodup ∧
      (∀ v : Int, v ∈ order ↔ 0 ≤ v ∧ v < 41) ∧
      (∀ v ∈ order, ∃ d, IsDist star41_edges 0 v d) ∧
      order.Pairwise (fun a b => ∀ da db, IsDist star41_edges 0 a da →
        IsDist star41_edges 0 b db → da ≤ db) :=
  bfs_visits_all_in_distance_order 41 star41_edges 0 (List.replicate 40 0) 42
    (by decide) star41_valid star41_connected (by decide) (by decide) (by decide)

/-- C2: on every graph with at most 40 vertices built by `createGraph` and
valid `addEdge` calls, from every valid start vertex, `bfs` returns and the
sequence of dequeued vertices is the visit order of the reference BFS (unbounded
FIFO, adjacency scanned in stored order, most recently added edge first); and
for the graph of `bfs_test` the sequence is 0, 2, 1, 4, 3. -/
theorem bfs_order_eq_reference :
    (∀ (n : Int) (edges : List (Int × Int)) (s : Int) (mem : List Int) (fuel : Nat),
      n ≤ 40 → ValidEdges n edges → 0 ≤ s ∧ s < n → mem.length = 40 → n.toNat < fuel →
      ∃ g g1 q1 order, buildGraph n edges = .done g ∧
        g.visited = List.replicate n.toNat 0 ∧
        bfs fuel mem g s = .done (g1, q1, order) ∧
        refBfs (storedAdj edges) fuel s = some order) ∧
    (∀ mem : List Int, mem.length = 40 →
      ∃ g1 q1, bfs_test 7 mem = .done (g1, q1, [0, 2, 1, 4, 3])) := by
  constructor
  · intro n edges s mem fuel hn hv hs hmem hf
    obtain ⟨g, g1, q1, o, _, hg, hbfs, href, _⟩ :=
      bfs_eq_refBfs (le_trans hn (by decide)) hv hs hmem fuel hf
    obtain ⟨g', hg', _, hvis, _, _⟩ := buildGraph_spec hv
    rw [hg] at hg'
    injection hg' with hg'
    subst hg'
    exact ⟨g, g1, q1, o, hg, hvis, hbfs, href⟩
  · intro mem hmem
    have hv : ValidEdges 6 bfs_test_edges := by
      intro e he
      simp [bfs_test_edges] at he
      rcases he with rfl | rfl | rfl | rfl | rfl | rfl | rfl <;> decide
    obtain ⟨g, g1, q1, o, _, hg, hbfs, href, _⟩ :=
      bfs_eq_refBfs (n := 6) (s := 0) (by decide) hv (by decide) hmem 7 (by decide)
    have hval : refBfs (storedAdj bfs_test_edges) 7 0 = some [0, 2, 1, 4, 3] := by decide
    rw [hval] at href
    injection href with href
    subst href
    exact ⟨g1, q1, by simp [bfs_test, hg, hbfs]⟩

/-- C2, witness: the general statement at the graph of `bfs_test`, start 0. -/
theorem bfs_order_eq_reference_witness :
    ∃ g g1 q1 order, buildGraph 6 bfs_test_edges = .done g ∧
      g.visited = List.replicate (6 : Int).toNat 0 ∧
      bfs 7 (List.replicate 40 0) g 0 = .done (g1, q1, order) ∧
      refBfs (storedAdj bfs_test_edges) 7 0 = some order :=
  bfs_order_eq_reference.1 6 bfs_test_edges 0 (List.replicate 40 0) 7 (by decide)
    (by
      intro e he
      simp [bfs_test_edges] at he
      rcases he with rfl | rfl | rfl | rfl | rfl | rfl | rfl <;> decide)
    (by decide) (by decide) (by decide)

/-! ## Depth-first search: the claims -/

/-- C3: for every matrix graph with 1 to 5 registered vertices whose edges were
set by `addEdge_DFS` calls on a zeroed matrix (flags false, stack empty, any
stack contents), `depthFirstSearch` returns, the vertices it marks and pushes
are pairwise different, and they are exactly the vertices reachable from
vertex 0 along inserted edges through registered vertices; `DFS_test` visits
0, 1, 4, 2, 3: all 5 vertices, each once. -/
theorem depthFirstSearch_visits_reachable :
    (∀ (stack0 : List Int) (vc : Nat) (edges : List (Int × Int)) (fuel : Nat),
      stack0.length = 5 → 1 ≤ vc → vc ≤ 5 → ValidEdges_DFS edges → 2 * vc ≤ fuel →
      ∃ g s1 order, buildMatrixGraph stack0 vc edges = .done g ∧
        depthFirstSearch fuel g = .done (s1, order) ∧ order.Nodup ∧
        ∀ v : Int, v ∈ order ↔ Relation.ReflTransGen (RegisteredEdge edges vc) 0 v) ∧
    (∃ s1, DFS_test 10 dfsInit = .done (s1, [0, 1, 4, 2, 3])) := by
  constructor
  · intro stack0 vc edges fuel hstack h1 h5 hv hf
    obtain ⟨g, hg, hready, hvc, hread⟩ := buildMatrixGraph_spec hstack h1 h5 hv
    obtain ⟨s1, o, hrun, _, _, _, _, hinv⟩ := depthFirstSearch_spec hready fuel
      (by rw [hvc]; simpa using hf)
    refine ⟨g, s1, o, hg, hrun, hinv.nodup, ?_⟩
    intro v
    rw [hinv.mem_iff_reach v, hvc]
    exact reach_matrix_iff (by omega) hv hread v
  · have h : ((DFS_test 10 dfsInit).bind fun r => .done (decide (r.2 = [0, 1, 4, 2, 3]))) =
        .done true := by decide
    obtain ⟨r, hr, h2⟩ := Outcome.bind_eq_done.1 h
    injection h2 with h2
    have h3 : r.2 = [0, 1, 4, 2, 3] := by simpa using h2
    exact ⟨r.1, by rw [hr, ← h3]⟩

/-- C3, witness: the general statement at the graph of `DFS_test`. -/
theorem depthFirstSearch_visits_reachable_witness :
    ∃ g s1 order, buildMatrixGraph [0, 0, 0, 0, 0] 5 DFS_test_edges = .done g ∧
      depthFirstSearch 10 g = .done (s1, order) ∧ order.Nodup ∧
      ∀ v : Int, v ∈ order ↔
        Relation.ReflTransGen (RegisteredEdge DFS_test_edges (5 : Nat)) 0 v :=
  depthFirstSearch_visits_reachable.1 [0, 0, 0, 0, 0] 5 DFS_test_edges 10 (by decide)
    (by decide) (by decide)
    (by
      intro e he
      simp [DFS_test_edges] at he
      rcases he with rfl | rfl | rfl | rfl | rfl | rfl <;> decide)
    (by decide)

/-- C6: when `depthFirstSearch` is entered on a matrix graph with 1 to 5
registered vertices, flags false and stack empty, whatever the matrix entries,
it returns with `top == -1` and the flag of every registered vertex false. -/
theorem depthFirstSearch_resets_flags (s : DfsState) (fuel : Nat) (hs : DfsReady s)
    (hf : 2 * s.vertexCount.toNat ≤ fuel) :
    ∃ s1 order, depthFirstSearch fuel s = .done (s1, order) ∧ s1.top = -1 ∧
      isStackEmpty s1 = true ∧ s1.vertexCount = s.vertexCount ∧
      ∀ i : Int, 0 ≤ i → i < s.vertexCount → readVisited s1 i = .done false := by
  obtain ⟨s1, o, hrun, hready, _, hvc, _, _⟩ := depthFirstSearch_spec hs fuel hf
  obtain ⟨_, htop, _, _, _, hflags⟩ := hready
  refine ⟨s1, o, hrun, htop, by simp [isStackEmpty, htop], hvc, ?_⟩
  intro i h0 h1
  exact hflags i h0 (by rw [hvc]; exact h1)

/-- C6, witness: the globals `DFS_test` passes to `depthFirstSearch`. -/
theorem depthFirstSearch_resets_flags_witness :
    ∃ s1 order, depthFirstSearch 10 DFS_test_state = .done (s1, order) ∧ s1.top = -1 ∧
      isStackEmpty s1 = true ∧ s1.vertexCount = DFS_test_state.vertexCount ∧
      ∀ i : Int, 0 ≤ i → i < DFS_test_state.vertexCount →
        readVisited s1 i = .done false :=
  depthFirstSearch_resets_flags DFS_test_state 10 DFS_test_state_ready (by decide)

/-- C7: two calls of `depthFirstSearch` in succession on a matrix graph with 1
to 5 registered vertices (flags false and stack empty before the first call)
both return, with the same visit sequence. -/
theorem depthFirstSearch_twice_same_order (s : DfsState) (fuel : Nat) (hs : DfsReady s)
    (hf : 2 * s.vertexCount.toNat ≤ fuel) :
    ∃ s1 s2 order, depthFirstSearch fuel s = .done (s1, order) ∧
      depthFirstSearch fuel s1 = .done (s2, order) := by
  obtain ⟨s1, o, hrun, hready, hm, hvc, hstk, _⟩ := depthFirstSearch_spec hs fuel hf
  obtain ⟨s2, o2, hrun2, _, _, _, hstk2, _⟩ := depthFirstSearch_spec hready fuel
    (by rw [hvc]; exact hf)
  rw [hm, hvc, hstk] at hstk2
  injection hstk2 with e
  subst e
  exact ⟨s1, s2, o, hrun, hrun2⟩

/-- C7, witness: two searches on the globals of `DFS_test`. -/
theorem depthFirstSearch_twice_same_order_witness :
    ∃ s1 s2 order, depthFirstSearch 10 DFS_test_state = .done (s1, order) ∧
      depthFirstSearch 10 s1 = .done (s2, order) :=
  depthFirstSearch_twice_same_order DFS_test_state 10 DFS_test_state_ready (by decide)

/-! ## Bubble sort: the claims -/

/-- C4: for every list of integer nodes `bubbleSort` returns; afterwards the
list has as many nodes as before and its values, read from the head, are in
non-decreasing order and a permutation of the input values. The list built by
`link_list` is 90, 1, 11, 2, 56, 12 and becomes 1, 2, 11, 12, 56, 90. -/
theorem bubbleSort_sorts :
    (∀ (data : List Int) (fuel : Nat), data.length ≤ fuel →
      ∃ out swaps, bubbleSort fuel data = .done (out, swaps) ∧ out.length = data.length ∧
        out.Sorted (· ≤ ·) ∧ out.Perm data) ∧
    link_list_input = [90, 1, 11, 2, 56, 12] ∧
    (∃ swaps, link_list 6 = .done ([1, 2, 11, 12, 56, 90], swaps)) := by
  refine ⟨?_, by decide, ⟨7, by decide⟩⟩
  intro data fuel hf
  obtain ⟨out, k, h, hs, hp⟩ := bubbleSort_spec data fuel hf
  exact ⟨out, k, h, hp.length_eq, hs, hp⟩

/-- C4, witness: the general statement at the list of `link_list`. -/
theorem bubbleSort_sorts_witness :
    ∃ out swaps, bubbleSort 6 [90, 1, 11, 2, 56, 12] = .done (out, swaps) ∧
      out.length = [90, 1, 11, 2, 56, (12 : Int)].length ∧ out.Sorted (· ≤ ·) ∧
      out.Perm [90, 1, 11, 2, 56, 12] :=
  bubbleSort_sorts.1 [90, 1, 11, 2, 56, 12] 6 (by decide)

/-- C5: on every list whose values are already in non-decreasing order
`bubbleSort` makes no exchange and leaves every value unchanged; hence sorting
the result of `bubbleSort` again changes nothing. -/
theorem bubbleSort_idempotent :
    (∀ (data : List Int) (fuel : Nat), data.length ≤ fuel → data.Sorted (· ≤ ·) →
      bubbleSort fuel data = .done (data, 0)) ∧
    (∀ (data out : List Int) (swaps fuel : Nat), data.length ≤ fuel →
      bubbleSort fuel data = .done (out, swaps) → bubbleSort fuel out = .done (out, 0)) := by
  refine ⟨bubbleSort_sorted, ?_⟩
  intro data out swaps fuel hf h
  obtain ⟨out', k, h', hs, hp⟩ := bubbleSort_spec data fuel hf
  rw [h] at h'
  injection h' with h'
  injection h' with h1 h2
  subst h1
  exact bubbleSort_sorted out fuel (by rw [hp.length_eq]; exact hf) hs

/-- C5, witness: lists in order (empty, one node, equal neighbours) stay as
they are, and the sorted list of `link_list` is a fixed point. -/
theorem bubbleSort_idempotent_witness :
    bubbleSort 0 [] = .done ([], 0) ∧ bubbleSort 1 [5] = .done ([5], 0) ∧
      bubbleSort 3 [2, 2, 3] = .done ([2, 2, 3], 0) ∧
      bubbleSort 6 [1, 2, 11, 12, 56, 90] = .done ([1, 2, 11, 12, 56, 90], 0) :=
  ⟨bubbleSort_idempotent.1 [] 0 (by decide) (by decide),
    bubbleSort_idempotent.1 [5] 1 (by decide) (by decide),
    bubbleSort_idempotent.1 [2, 2, 3] 3 (by decide) (by decide),
    bubbleSort_idempotent.2 [90, 1, 11, 2, 56, 12] [1, 2, 11, 12, 56, 90] 7 6 (by decide)
      (by decide)⟩

/-! ## Edge insertion and the queue: the claims -/

/-- C8: after any sequence of `addEdge` calls with valid identifiers on a graph
from `createGraph`, every added edge `(u, v)` has `v` in `adjLists[u]` and `u`
in `adjLists[v]`, and `v` occurs in `adjLists[u]` exactly when `u` occurs in
`adjLists[v]`; after any sequence of `addEdge_DFS` calls with valid indices on
a zeroed matrix, every added edge has both mirrored entries equal to 1 and the
matrix is symmetric. -/
theorem edge_symmetry :
    (∀ (n : Int) (edges : List (Int × Int)), ValidEdges n edges →
      ∃ g, buildGraph n edges = .done g ∧
        (∀ e ∈ edges, inAdj g e.1 e.2 ∧ inAdj g e.2 e.1) ∧
        ∀ u v : Int, inAdj g u v ↔ inAdj g v u) ∧
    (∀ (s : DfsState) (edges : List (Int × Int)), ValidEdges_DFS edges →
      ∃ s1, addEdges_DFS (zeroMatrix s) edges = .done s1 ∧
        (∀ e ∈ edges, readMatrix s1.adjMatrix e.1 e.2 = .done 1 ∧
          readMatrix s1.adjMatrix e.2 e.1 = .done 1) ∧
        ∀ i j : Int, 0 ≤ i ∧ i < 5 → 0 ≤ j ∧ j < 5 →
          readMatrix s1.adjMatrix i j = readMatrix s1.adjMatrix j i) := by
  constructor
  · intro n edges hv
    obtain ⟨g, hg, _, _, hlen, hadj⟩ := buildGraph_spec hv
    have hin : ∀ u v : Int, inAdj g u v ↔ Adjacent edges u v := by
      intro u v
      constructor
      · rintro ⟨l, hl, hvl⟩
        obtain ⟨hu0, hget⟩ := readAt_eq_done.1 hl
        have hlt : u.toNat < g.adjLists.length := by
          by_contra hn
          rw [List.getElem?_eq_none (by omega)] at hget
          cases hget
        rw [hadj u hu0 (by omega)] at hl
        injection hl with hl
        rw [← hl] at hvl
        exact storedAdj_mem.1 hvl
      · intro h
        have hu : 0 ≤ u ∧ u < n := by
          rcases h with h | h
          · exact (hv _ h).1
          · exact (hv _ h).2
        exact ⟨_, hadj u hu.1 hu.2, storedAdj_mem.2 h⟩
    refine ⟨g, hg, ?_, ?_⟩
    · intro e he
      exact ⟨(hin _ _).2 (Or.inl he), (hin _ _).2 (Or.inr he)⟩
    · intro u v
      rw [hin, hin]
      exact ⟨Adjacent.adj_symm, Adjacent.adj_symm⟩
  · intro s edges hv
    obtain ⟨m1, hm, _, hread⟩ := addEdges_DFS_spec edges (s := zeroMatrix s) matrix5_zero hv
    refine ⟨_, hm, ?_, ?_⟩
    · intro e he
      have hr := hv e he
      have h1 : Adjacent edges e.1 e.2 := Or.inl he
      have h2 : Adjacent edges e.2 e.1 := Or.inr he
      exact ⟨by simp [hread _ _ hr.1 hr.2, h1], by simp [hread _ _ hr.2 hr.1, h2]⟩
    · intro i j hi hj
      show readMatrix m1 i j = readMatrix m1 j i
      rw [hread i j hi hj, hread j i hj hi]
      have hz1 : readMatrix (zeroMatrix s).adjMatrix i j = .done 0 := readMatrix_zero hi hj
      have hz2 : readMatrix (zeroMatrix s).adjMatrix j i = .done 0 := readMatrix_zero hj hi
      rw [hz1, hz2]
      by_cases h : Adjacent edges i j
      · simp [h, h.adj_symm]
      · have h' : ¬ Adjacent edges j i := fun c => h c.adj_symm
        simp [h, h']

/-- C8, witness: the edges of `bfs_test` and of `DFS_test`. -/
theorem edge_symmetry_witness :
    (∃ g, buildGraph 6 bfs_test_edges = .done g ∧
        (∀ e ∈ bfs_test_edges, inAdj g e.1 e.2 ∧ inAdj g e.2 e.1) ∧
        ∀ u v : Int, inAdj g u v ↔ inAdj g v u) ∧
    (∃ s1, addEdges_DFS (zeroMatrix dfsInit) DFS_test_edges = .done s1 ∧
        (∀ e ∈ DFS_test_edges, readMatrix s1.adjMatrix e.1 e.2 = .done 1 ∧
          readMatrix s1.adjMatrix e.2 e.1 = .done 1) ∧
        ∀ i j : Int, 0 ≤ i ∧ i < 5 → 0 ≤ j ∧ j < 5 →
          readMatrix s1.adjMatrix i j = readMatrix s1.adjMatrix j i) :=
  ⟨edge_symmetry.1 6 bfs_test_edges (by
      intro e he
      simp [bfs_test_edges] at he
      rcases he with rfl | rfl | rfl | rfl | rfl | rfl | rfl <;> decide),
    edge_symmetry.2 dfsInit DFS_test_edges (by
      intro e he
      simp [DFS_test_edges] at he
      rcases he with rfl | rfl | rfl | rfl | rfl | rfl <;> decide)⟩

/-- C9: after 40 enqueues on a queue from `createQueue`, a 41st enqueue returns
the queue unchanged (items, front and rear), and 40 dequeues then return the
first 40 values in the order they were enqueued. -/
theorem enqueue_beyond_capacity_rejected (mem vs : List Int) (x : Int)
    (hmem : mem.length = 40) (hvs : vs.length = 40) :
    ∃ q40 q, enqueueAll (createQueue mem) vs = .done q40 ∧ enqueue q40 x = .done q40 ∧
      dequeueN 40 q40 = .done (vs, q) := by
  obtain ⟨q40, h1, hq, hh, hr⟩ := enqueueAll_spec vs (createQueue_ok hmem)
    (by simp [createQueue, hvs])
  have hr39 : q40.rear = 39 := by rw [hr, hvs]; simp [createQueue]
  rw [held_createQueue, List.nil_append] at hh
  obtain ⟨q, h2, _, _, _⟩ := dequeueN_spec vs hq hh
  rw [hvs] at h2
  exact ⟨q40, q, h1, enqueue_full x hr39, h2⟩

/-- C9, witness: the values 0 .. 39 enqueued on a zero-filled buffer, then 99. -/
theorem enqueue_beyond_capacity_rejected_witness :
    ∃ q40 q, enqueueAll (createQueue (List.replicate 40 0))
        ((List.range 40).map Int.ofNat) = .done q40 ∧
      enqueue q40 99 = .done q40 ∧
      dequeueN 40 q40 = .done ((List.range 40).map Int.ofNat, q) :=
  enqueue_beyond_capacity_rejected (List.replicate 40 0) ((List.range 40).map Int.ofNat) 99
    (by decide) (by decide)

/-- C10: `dequeue` on an empty queue returns `-1` and leaves the queue (items,
front, rear) unchanged, hence still empty; a fresh queue is empty, and so is a
queue from which every enqueued item has been dequeued. -/
theorem dequeue_empty_returns_sentinel :
    (∀ q : queue, isEmpty q = 1 → dequeue q = .done (-1, q)) ∧
    (∀ mem : List Int, isEmpty (createQueue mem) = 1) ∧
    (∀ (mem vs : List Int), mem.length = 40 → vs.length ≤ 40 →
      ∃ q1 q2, enqueueAll (createQueue mem) vs = .done q1 ∧
        dequeueN vs.length q1 = .done (vs, q2) ∧ isEmpty q2 = 1 ∧
        dequeue q2 = .done (-1, q2)) := by
  refine ⟨fun q h => dequeue_empty (isEmpty_eq_one_iff.1 h), fun _ => rfl, ?_⟩
  intro mem vs hmem hvs
  obtain ⟨q1, h1, hq, hh, _⟩ := enqueueAll_spec vs (createQueue_ok hmem)
    (by simp [createQueue]; omega)
  rw [held_createQueue, List.nil_append] at hh
  obtain ⟨q2, h2, _, hr2, _⟩ := dequeueN_spec vs hq hh
  exact ⟨q1, q2, h1, h2, isEmpty_eq_one_iff.2 hr2, dequeue_empty hr2⟩

/-- C10, witness: a fresh queue, and a queue after three enqueues and three
dequeues. -/
theorem dequeue_empty_returns_sentinel_witness :
    dequeue (createQueue (List.replicate 40 0)) =
        .done (-1, createQueue (List.replicate 40 0)) ∧
      ∃ q1 q2, enqueueAll (createQueue (List.replicate 40 0)) [7, 8, 9] = .done q1 ∧
        dequeueN [7, 8, (9 : Int)].length q1 = .done ([7, 8, 9], q2) ∧ isEmpty q2 = 1 ∧
        dequeue q2 = .done (-1, q2) :=
  ⟨dequeue_empty_returns_sentinel.1 _ (dequeue_empty_returns_sentinel.2.1 _),
    dequeue_empty_returns_sentinel.2.2 (List.replicate 40 0) [7, 8, 9] (by decide)
      (by decide)⟩

/-! ## Reachable queue states -/

/-- On a well-formed queue `enqueue` returns: unchanged when `rear` is 39, with
the value appended otherwise. -/
theorem enqueue_total {q : queue} (hq : QueueOk q) (v : Int) :
    ∃ q1, enqueue q v = .done q1 ∧ QueueOk q1 ∧
      ((q.rear = 39 ∧ q1 = q) ∨
        (q.rear < 39 ∧ held q1 = held q ++ [v] ∧ q1.rear = q.rear + 1)) := by
  by_cases h : q.rear = 39
  · exact ⟨q, enqueue_full v h, hq, Or.inl ⟨h, rfl⟩⟩
  · have hlt : q.rear < 39 := by
      obtain ⟨_, ⟨_, hr⟩ | ⟨_, _, h2⟩⟩ := hq <;> omega
    obtain ⟨q1, h1, hq1, hh, hr⟩ := enqueue_spec hq v hlt
    exact ⟨q1, h1, hq1, Or.inr ⟨hlt, hh, hr⟩⟩

/-- A well-formed queue with `rear != -1` holds at least one item. -/
theorem held_cons_of_nonempty {q : queue} (hq : QueueOk q) (hne : q.rear ≠ -1) :
    ∃ x rest, held q = x :: rest := by
  cases hh : held q with
  | nil => exact absurd ((held_eq_nil_iff hq).1 hh) hne
  | cons x rest => exact ⟨x, rest, rfl⟩

/-- On a well-formed queue `dequeue` returns: `-1` and the same queue when it
is empty, the oldest item and the rest otherwise. -/
theorem dequeue_total {q : queue} (hq : QueueOk q) :
    ∃ x q1, dequeue q = .done (x, q1) ∧ QueueOk q1 ∧
      ((q.rear = -1 ∧ x = -1 ∧ q1 = q) ∨
        (q.rear ≠ -1 ∧ held q = x :: held q1 ∧ q1.rear ≤ q.rear ∧ q1.items = q.items)) := by
  by_cases h : q.rear = -1
  · exact ⟨-1, q, dequeue_empty h, hq, Or.inl ⟨h, rfl, rfl⟩⟩
  · obtain ⟨x, rest, hh⟩ := held_cons_of_nonempty hq h
    obtain ⟨q1, h1, hq1, hh1, hr1, hi1⟩ := dequeue_spec hq hh
    exact ⟨x, q1, h1, hq1, Or.inr ⟨h, by rw [hh, hh1], hr1, hi1⟩⟩

/-- Every reachable queue state is well formed. -/
theorem QueueReachable.ok {q : queue} (h : QueueReachable q) : QueueOk q := by
  induction h with
  | create mem hmem => exact createQueue_ok hmem
  | enq v _ he ih =>
    obtain ⟨q1, h1, hq1, _⟩ := enqueue_total ih v
    rw [he] at h1
    injection h1 with h1
    rw [h1]; exact hq1
  | deq _ hd ih =>
    obtain ⟨x, q1, h1, hq1, _⟩ := dequeue_total ih
    rw [hd] at h1
    injection h1 with h1
    injection h1 with _ h2
    rw [h2]; exact hq1

theorem QueueReachable.enqueueAll_reach (vs : List Int) : ∀ {q q1 : queue},
    QueueReachable q → enqueueAll q vs = .done q1 → QueueReachable q1 := by
  induction vs with
  | nil =>
    intro q q1 h he
    simp only [enqueueAll] at he
    injection he with he
    rw [← he]; exact h
  | cons v vs ih =>
    intro q q1 h he
    simp only [enqueueAll] at he
    obtain ⟨q2, h2, h3⟩ := Outcome.bind_eq_done.1 he
    exact ih (QueueReachable.enq v h h2) h3

theorem QueueReachable.dequeueN_reach (k : Nat) : ∀ {q q1 : queue} {xs : List Int},
    QueueReachable q → dequeueN k q = .done (xs, q1) → QueueReachable q1 := by
  induction k with
  | zero =>
    intro q q1 xs h hd
    simp only [dequeueN] at hd
    injection hd with hd
    injection hd with _ h2
    rw [← h2]; exact h
  | succ k ih =>
    intro q q1 xs h hd
    simp only [dequeueN] at hd
    obtain ⟨r, hr, h3⟩ := Outcome.bind_eq_done.1 hd
    obtain ⟨rs, hrs, h4⟩ := Outcome.bind_eq_done.1 h3
    injection h4 with h4
    injection h4 with _ h5
    have hreach : QueueReachable r.2 := QueueReachable.deq (x := r.1) h hr
    rw [← h5]
    exact ih hreach hrs

/-- The number of held items of a well-formed queue is at most 40, and at
least 1 when `rear` is 39. -/
theorem held_length_bounds {q : queue} (hq : QueueOk q) :
    (held q).length ≤ 40 ∧ (q.rear = 39 → 1 ≤ (held q).length) ∧
      ((held q).length = 40 → q.rear = 39) := by
  have hl := held_length hq
  obtain ⟨_, ⟨_, hr⟩ | ⟨h0, h1, h2⟩⟩ := hq
  · simp only [hr, if_true] at hl
    refine ⟨by omega, by intro h; omega, by intro h; omega⟩
  · have hne : q.rear ≠ -1 := by omega
    simp only [hne, if_false] at hl
    refine ⟨by omega, by intro h; omega, by intro h; omega⟩

theorem drainedQueue_reachable : QueueReachable drainedQueue := by
  have h0 : QueueReachable (createQueue (List.replicate 40 0)) :=
    QueueReachable.create _ (by decide)
  have h1 : enqueueAll (createQueue (List.replicate 40 0)) ((List.range 40).map Int.ofNat) =
      .done { items := (List.range 40).map Int.ofNat, front := 0, rear := 39 } := by decide
  have h2 : dequeueN 39 { items := (List.range 40).map Int.ofNat, front := 0, rear := 39 } =
      .done ((List.range 39).map Int.ofNat, drainedQueue) := by decide
  exact QueueReachable.dequeueN_reach 39 (QueueReachable.enqueueAll_reach _ h0 h1) h2

/-! ## The queue and the stack at their limits: the claims -/

/-- C11, counterexample: the queue reached by enqueueing 0 .. 39 on a fresh
queue and dequeueing 39 times holds one item, far fewer than 40, and still
`enqueue` leaves it unchanged: `rear` is 39. -/
theorem enqueue_rejected_with_one_item_held :
    QueueReachable drainedQueue ∧ held drainedQueue = [39] ∧
      (held drainedQueue).length < 40 ∧ enqueue drainedQueue 7 = .done drainedQueue ∧
      ∃ q, dequeueN 1 drainedQueue = .done ([39], q) ∧ isEmpty q = 1 :=
  ⟨drainedQueue_reachable, by decide, by decide, by decide,
    ⟨{ items := (List.range 40).map Int.ofNat, front := -1, rear := -1 }, by decide,
      by decide⟩⟩

/-- C11, amended: on every queue state reachable from `createQueue` by
`enqueue` and `dequeue` calls whose `rear` is below 39, `enqueue(v)` increases
the number of held items by one and `v` is the last item to be dequeued;
`enqueue` is rejected (the queue stays as it is) exactly when `rear == 39`,
which is the case whenever 40 items are held, and then at least one item is
held; never more than 40 items are held. -/
theorem enqueue_accepts_iff_rear_below_limit (q : queue) (v : Int)
    (h : QueueReachable q) :
    (q.rear < 39 → ∃ q1 q2, enqueue q v = .done q1 ∧ held q1 = held q ++ [v] ∧
        (held q1).length = (held q).length + 1 ∧
        dequeueN (held q1).length q1 = .done (held q ++ [v], q2)) ∧
      (enqueue q v = .done q ↔ q.rear = 39) ∧
      (q.rear = 39 → 1 ≤ (held q).length) ∧
      ((held q).length = 40 → q.rear = 39) ∧ (held q).length ≤ 40 := by
  have hq := h.ok
  obtain ⟨hb1, hb2, hb3⟩ := held_length_bounds hq
  refine ⟨?_, ?_, hb2, hb3, hb1⟩
  · intro hr
    obtain ⟨q1, h1, hq1, hh, _⟩ := enqueue_spec hq v hr
    obtain ⟨q2, h2, _⟩ := dequeueN_spec (held q1) hq1 rfl
    refine ⟨q1, q2, h1, hh, by rw [hh]; simp, ?_⟩
    rw [hh] at h2 ⊢
    exact h2
  · constructor
    · intro he
      by_contra hne
      obtain ⟨q1, h1, _, hcase⟩ := enqueue_total hq v
      rw [he] at h1
      injection h1 with h1
      rcases hcase with ⟨h39, _⟩ | ⟨_, hh, _⟩
      · exact hne h39
      · rw [← h1] at hh
        have := congrArg List.length hh
        simp at this
    · intro hr
      exact enqueue_full v hr

/-- C11, witness: a fresh queue accepts the value 7. -/
theorem enqueue_accepts_iff_rear_below_limit_witness :
    ((createQueue (List.replicate 40 0)).rear < 39 →
        ∃ q1 q2, enqueue (createQueue (List.replicate 40 0)) 7 = .done q1 ∧
          held q1 = held (createQueue (List.replicate 40 0)) ++ [7] ∧
          (held q1).length = (held (createQueue (List.replicate 40 0))).length + 1 ∧
          dequeueN (held q1).length q1 =
            .done (held (createQueue (List.replicate 40 0)) ++ [7], q2)) ∧
      (enqueue (createQueue (List.replicate 40 0)) 7 =
          .done (createQueue (List.replicate 40 0)) ↔
        (createQueue (List.replicate 40 0)).rear = 39) ∧
      ((createQueue (List.replicate 40 0)).rear = 39 →
        1 ≤ (held (createQueue (List.replicate 40 0))).length) ∧
      ((held (createQueue (List.replicate 40 0))).length = 40 →
        (createQueue (List.replicate 40 0)).rear = 39) ∧
      (held (createQueue (List.replicate 40 0))).length ≤ 40 :=
  enqueue_accepts_iff_rear_below_limit (createQueue (List.replicate 40 0)) 7
    (QueueReachable.create _ (by decide))

/-- C14: the array queue refines a FIFO list. For every reachable queue state
the held items are `items[front..rear]` (none when `rear == -1`); an `enqueue`
taken while `rear < 39` is the FIFO's enqueue on the held items, a `dequeue` on
a non-empty queue is the FIFO's dequeue; so `n <= 40` enqueues on a fresh queue
followed by `n` dequeues return the same values in the same order and leave
the queue empty. -/
theorem queue_refines_fifo :
    (∀ q : queue, QueueReachable q →
      (q.rear = -1 ∧ held q = []) ∨
        ((0 ≤ q.front ∧ q.front ≤ q.rear ∧ q.rear ≤ 39) ∧
          held q = (q.items.drop q.front.toNat).take (q.rear - q.front + 1).toNat ∧
          ((held q).length : Int) = q.rear - q.front + 1)) ∧
    (∀ (q : queue) (v : Int), QueueReachable q → q.rear < 39 →
      ∃ q1, enqueue q v = .done q1 ∧ held q1 = fifoEnqueue (held q) v) ∧
    (∀ q : queue, QueueReachable q → isEmpty q = 0 →
      ∃ x q1, dequeue q = .done (x, q1) ∧ fifoDequeue (held q) = some (x, held q1)) ∧
    (∀ mem vs : List Int, mem.length = 40 → vs.length ≤ 40 →
      ∃ q1 q2, enqueueAll (createQueue mem) vs = .done q1 ∧ held q1 = vs ∧
        dequeueN vs.length q1 = .done (vs, q2) ∧ held q2 = [] ∧ isEmpty q2 = 1) := by
  refine ⟨?_, ?_, ?_, ?_⟩
  · intro q h
    have hq := h.ok
    have hl := held_length hq
    obtain ⟨_, ⟨_, hr⟩ | ⟨h0, h1, h2⟩⟩ := hq
    · exact Or.inl ⟨hr, held_of_empty hr⟩
    · have hne : q.rear ≠ -1 := by omega
      simp only [hne, if_false] at hl
      exact Or.inr ⟨⟨h0, h1, h2⟩, by simp [held, hne], hl⟩
  · intro q v h hr
    obtain ⟨q1, h1, _, hh, _⟩ := enqueue_spec h.ok v hr
    exact ⟨q1, h1, hh⟩
  · intro q h he
    obtain ⟨x, q1, h1, _, hcase⟩ := dequeue_total h.ok
    rcases hcase with ⟨hr, _, _⟩ | ⟨_, hh, _, _⟩
    · exact absurd hr (isEmpty_eq_zero_iff.1 he)
    · exact ⟨x, q1, h1, by rw [hh]; rfl⟩
  · intro mem vs hmem hvs
    obtain ⟨q1, h1, hq, hh, _⟩ := enqueueAll_spec vs (createQueue_ok hmem)
      (by simp [createQueue]; omega)
    rw [held_createQueue, List.nil_append] at hh
    obtain ⟨q2, h2, _, hr2, _⟩ := dequeueN_spec vs hq hh
    exact ⟨q1, q2, h1, hh, h2, held_of_empty hr2, isEmpty_eq_one_iff.2 hr2⟩

/-- C14, witness: three values through a fresh queue. -/
theorem queue_refines_fifo_witness :
    ∃ q1 q2, enqueueAll (createQueue (List.replicate 40 0)) [7, 8, 9] = .done q1 ∧
      held q1 = [7, 8, 9] ∧ dequeueN [7, 8, (9 : Int)].length q1 = .done ([7, 8, 9], q2) ∧
      held q2 = [] ∧ isEmpty q2 = 1 :=
  queue_refines_fifo.2.2.2 (List.replicate 40 0) [7, 8, 9] (by decide) (by decide)

/-- C12 (code defect): `push` has no capacity check. On a stack that holds 5
items (`top == 4`) the write `stack[++top] = item` goes to `stack[5]`, outside
the array: the call is not a no-op. -/
theorem push_on_full_stack_out_of_bounds (s : DfsState) (item : Int)
    (hlen : s.stack.length = 5) (htop : s.top = 4) : push s item = .fault := by
  simp [push, writeAt, writeN, htop, hlen]

/-- C12, witness: five pushes on the initial globals fill the stack, the sixth
push writes outside it. -/
theorem push_on_full_stack_out_of_bounds_witness :
    pushAll dfsInit [0, 1, 2, 3, 4] = .done fullStack ∧ fullStack.top = 4 ∧
      push fullStack 9 = .fault :=
  ⟨by decide, by decide, push_on_full_stack_out_of_bounds fullStack 9 (by decide) (by decide)⟩

/-- C13 (code defect): with no vertex registered every `lstVertices[i]` is NULL,
and `depthFirstSearch` starts with `lstVertices[0]->visited = true`: a NULL
dereference, not a no-op. -/
theorem depthFirstSearch_without_vertices_faults (fuel : Nat) (s : DfsState)
    (hnull : s.lstVertices = List.replicate 5 none) : depthFirstSearch fuel s = .fault := by
  have : readAt s.lstVertices 0 = .done none := by rw [hnull]; rfl
  simp [depthFirstSearch, writeVisited, this]

/-- C13, witness: the initial globals (`vertexCount == 0`, no `addVertex` call). -/
theorem depthFirstSearch_without_vertices_faults_witness :
    dfsInit.vertexCount = 0 ∧ depthFirstSearch 10 dfsInit = .fault :=
  ⟨rfl, depthFirstSearch_without_vertices_faults 10 dfsInit rfl⟩

/-! ## `addEdge` as a frame: the claim -/

/-- One `addEdge` with valid endpoints, read through `readAt`: every chain gets
the entries of the edge in front. -/
theorem addEdge_read {g : Graph} {a b : Int} (ha : 0 ≤ a ∧ a < g.adjLists.length)
    (hb : 0 ≤ b ∧ b < g.adjLists.length) :
    ∃ g1, addEdge g a b = .done g1 ∧ g1.numVertices = g.numVertices ∧
      g1.visited = g.visited ∧ g1.adjLists.length = g.adjLists.length ∧
      ∀ w : Int, 0 ≤ w → w < g.adjLists.length →
        ∃ old, readAt g.adjLists w = .done old ∧
          readAt g1.adjLists w = .done (edgeEntries (a, b) w ++ old) := by
  obtain ⟨g1, h1, hn, hv, hl, hadj⟩ := addEdge_spec ha hb
  refine ⟨g1, h1, hn, hv, hl, ?_⟩
  intro w hw0 hw1
  have hlt : w.toNat < g.adjLists.length := by omega
  have hcast : ((w.toNat : Nat) : Int) = w := by omega
  have hrd := hadj w.toNat hlt
  rw [hcast, List.getElem?_eq_getElem hlt, Option.getD_some] at hrd
  exact ⟨g.adjLists[w.toNat], readAt_eq_done.2 ⟨hw0, List.getElem?_eq_getElem hlt⟩,
    readAt_eq_done.2 ⟨hw0, hrd⟩⟩

/-- C15: for valid `u != v`, after `addEdge(graph, u, v)` the chain of `u` is
`v` followed by the old chain of `u`, the chain of `v` is `u` followed by the
old chain of `v`, every other chain, `numVertices` and all visited flags are
unchanged; adding the same edge again puts a second `v` and a second `u` in
front (no duplicate suppression). -/
theorem addEdge_prepends_and_frames (g : Graph) (u v : Int)
    (hu : 0 ≤ u ∧ u < g.adjLists.length) (hv : 0 ≤ v ∧ v < g.adjLists.length)
    (huv : u ≠ v) :
    ∃ g1 g2 lu lv, readAt g.adjLists u = .done lu ∧ readAt g.adjLists v = .done lv ∧
      addEdge g u v = .done g1 ∧
      readAt g1.adjLists u = .done (v :: lu) ∧ readAt g1.adjLists v = .done (u :: lv) ∧
      (∀ w : Int, 0 ≤ w → w < g.adjLists.length → w ≠ u → w ≠ v →
        readAt g1.adjLists w = readAt g.adjLists w) ∧
      g1.adjLists.length = g.adjLists.length ∧ g1.numVertices = g.numVertices ∧
      g1.visited = g.visited ∧
      addEdge g1 u v = .done g2 ∧
      readAt g2.adjLists u = .done (v :: v :: lu) ∧
      readAt g2.adjLists v = .done (u :: u :: lv) := by
  obtain ⟨g1, h1, hn1, hvis1, hl1, hr1⟩ := addEdge_read hu hv
  obtain ⟨g2, h2, _, _, _, hr2⟩ := addEdge_read (g := g1) (by rw [hl1]; exact hu)
    (by rw [hl1]; exact hv)
  have hvu : v ≠ u := fun e => huv e.symm
  have eu : edgeEntries (u, v) u = [v] := by simp [edgeEntries, hvu]
  have ev : edgeEntries (u, v) v = [u] := by simp [edgeEntries, huv]
  obtain ⟨lu, hlu, hlu1⟩ := hr1 u hu.1 hu.2
  obtain ⟨lv, hlv, hlv1⟩ := hr1 v hv.1 hv.2
  rw [eu] at hlu1
  rw [ev] at hlv1
  obtain ⟨lu', hlu', hlu2⟩ := hr2 u hu.1 (by rw [hl1]; exact hu.2)
  obtain ⟨lv', hlv', hlv2⟩ := hr2 v hv.1 (by rw [hl1]; exact hv.2)
  rw [hlu1] at hlu'
  rw [hlv1] at hlv'
  injection hlu' with hlu'
  injection hlv' with hlv'
  rw [eu, ← hlu'] at hlu2
  rw [ev, ← hlv'] at hlv2
  refine ⟨g1, g2, lu, lv, hlu, hlv, h1, hlu1, hlv1, ?_, hl1, hn1, hvis1, h2, hlu2, hlv2⟩
  intro w hw0 hw1 hwu hwv
  obtain ⟨old, ho, ho1⟩ := hr1 w hw0 hw1
  have huw : ¬ u = w := fun e => hwu e.symm
  have hvw : ¬ v = w := fun e => hwv e.symm
  have ew : edgeEntries (u, v) w = [] := by
    simp [edgeEntries, huw, hvw]
  rw [ho1, ho, ew]
  rfl

/-- C15, witness: the edge (0, 1) added twice to the graph of `createGraph(3)`. -/
theorem addEdge_prepends_and_frames_witness :
    ∃ g1 g2 lu lv, readAt (createGraph 3).adjLists 0 = .done lu ∧
      readAt (createGraph 3).adjLists 1 = .done lv ∧
      addEdge (createGraph 3) 0 1 = .done g1 ∧
      readAt g1.adjLists 0 = .done (1 :: lu) ∧ readAt g1.adjLists 1 = .done (0 :: lv) ∧
      (∀ w : Int, 0 ≤ w → w < (createGraph 3).adjLists.length → w ≠ 0 → w ≠ 1 →
        readAt g1.adjLists w = readAt (createGraph 3).adjLists w) ∧
      g1.adjLists.length = (createGraph 3).adjLists.length ∧
      g1.numVertices = (createGraph 3).numVertices ∧
      g1.visited = (createGraph 3).visited ∧
      addEdge g1 0 1 = .done g2 ∧
      readAt g2.adjLists 0 = .done (1 :: 1 :: lu) ∧
      readAt g2.adjLists 1 = .done (0 :: 0 :: lv) :=
  addEdge_prepends_and_frames (createGraph 3) 0 1 (by decide) (by decide) (by decide)

/-! ## `bfs` without a bound on the number of vertices -/

theorem count_zero_set_of_zero : ∀ (l : List Int) (i : Nat), l[i]? = some 0 →
    (l.set i 1).count 0 + 1 = l.count 0
  | [], _, h => by simp at h
  | a :: t, 0, h => by
    simp at h
    subst h
    simp
  | a :: t, i + 1, h => by
    have ih := count_zero_set_of_zero t i (by simpa using h)
    by_cases ha : a = 0
    · subst ha
      simp only [List.set_cons_succ, List.count_cons_self]
      omega
    · simp only [List.set_cons_succ]
      rw [List.count_cons_of_ne (fun e => ha e.symm), List.count_cons_of_ne (fun e => ha e.symm)]
      exact ih

theorem count_zero_set_lt : ∀ (l : List Int) (i : Nat), i < l.length →
    (l.set i 1).count 0 + 1 ≤ l.length
  | [], _, h => by simp at h
  | a :: t, 0, _ => by
    simp only [List.set_cons_zero, List.length_cons]
    rw [List.count_cons_of_ne (by decide)]
    have := List.count_le_length (0 : Int) t
    omega
  | a :: t, i + 1, h => by
    have ih := count_zero_set_lt t i (by simpa using h)
    simp only [List.set_cons_succ, List.length_cons]
    have := List.count_cons (0 : Int) a (t.set i 1)
    split at this <;> omega

theorem Marked.of_read {g : Graph} {u f : Int} (h : readAt g.visited u = .done f)
    (hf : f ≠ 0) : Marked g u := ⟨f, h, hf⟩

/-- Setting a flag to 1 keeps every set flag set, and sets the flag written. -/
theorem marked_after_set {g : Graph} {w : Int} (hw : 0 ≤ w ∧ w < g.visited.length) :
    Marked { g with visited := g.visited.set w.toNat 1 } w ∧
      ∀ u : Int, Marked g u → Marked { g with visited := g.visited.set w.toNat 1 } u := by
  constructor
  · refine ⟨1, ?_, by decide⟩
    show readAt (g.visited.set w.toNat 1) w = .done 1
    rw [readAt_set g.visited _ _ hw.1 hw.2]
    simp
  · rintro u ⟨f, hf, hne⟩
    obtain ⟨hu0, hget⟩ := readAt_eq_done.1 hf
    have hlt : u.toNat < g.visited.length := by
      by_contra hn
      rw [List.getElem?_eq_none (by omega)] at hget
      cases hget
    show ∃ f, readAt (g.visited.set w.toNat 1) u = .done f ∧ f ≠ 0
    rw [readAt_set g.visited _ _ hu0 (by omega)]
    by_cases h : u.toNat = w.toNat
    · exact ⟨1, by simp [h], by decide⟩
    · exact ⟨f, by simp [h, hf], hne⟩

/-- One marking step of the inner loop: the flag write and the `enqueue` both
return, the shape is kept, one more flag is set, and the queue either was full
and stays as it is or gets the vertex at its tail. -/
theorem BfsOk.mark_step {n : Int} {adj : Int → List Int} {g : Graph} {q : queue}
    (h : BfsOk n adj g q) {w : Int} (hw : 0 ≤ w ∧ w < n)
    (hflag : readAt g.visited w = .done 0) :
    ∃ q1, writeAt g.visited w 1 = .done (g.visited.set w.toNat 1) ∧
      enqueue q w = .done q1 ∧
      BfsOk n adj { g with visited := g.visited.set w.toNat 1 } q1 ∧
      (g.visited.set w.toNat 1).count 0 + 1 = g.visited.count 0 ∧
      ((q.rear = 39 ∧ q1 = q) ∨
        (q.rear < 39 ∧ held q1 = held q ++ [w] ∧ q1.rear = q.rear + 1)) := by
  have hvl := h.vlen
  have hwr := writeAt_of_range (l := g.visited) (1 : Int) hw.1 (by omega)
  obtain ⟨q1, he, hq1, hcase⟩ := enqueue_total h.qok w
  refine ⟨q1, hwr, he, ?_, count_zero_set_of_zero _ _ (readAt_eq_done.1 hflag).2, hcase⟩
  exact
  { vlen := by simp [hvl]
    adj_read := h.adj_read
    adj_range := h.adj_range
    qok := hq1
    held_range := by
      intro x hx
      rcases hcase with ⟨_, e⟩ | ⟨_, hh, _⟩
      · rw [e] at hx; exact h.held_range x hx
      · rw [hh] at hx
        rcases List.mem_append.1 hx with hx | hx
        · exact h.held_range x hx
        · simp at hx; rw [hx]; exact hw }

/-- The inner loop of `bfs` returns on every well-shaped state; a property
kept by each marking step holds at the end; no flag is cleared, every scanned
vertex ends up marked, and unmarked vertices plus held items do not grow. -/
theorem bfsScan_run {n : Int} {adj : Int → List Int} (P : Graph → queue → Prop)
    (ws : List Int) : ∀ (g : Graph) (q : queue), BfsOk n adj g q →
    (∀ w ∈ ws, 0 ≤ w ∧ w < n) → P g q →
    (∀ w ∈ ws, ∀ (g : Graph) (q q1 : queue), BfsOk n adj g q → P g q →
      readAt g.visited w = .done 0 → enqueue q w = .done q1 →
      P { g with visited := g.visited.set w.toNat 1 } q1) →
    ∃ g1 q1, bfsScan ws g q = .done (g1, q1) ∧ BfsOk n adj g1 q1 ∧ P g1 q1 ∧
      g1.adjLists = g.adjLists ∧ g1.numVertices = g.numVertices ∧
      g1.visited.count 0 + (held q1).length ≤ g.visited.count 0 + (held q).length ∧
      (∀ u : Int, Marked g u → Marked g1 u) ∧ (∀ w ∈ ws, Marked g1 w) := by
  induction ws with
  | nil =>
    intro g q h _ hP _
    exact ⟨g, q, rfl, h, hP, rfl, rfl, le_refl _, fun _ hu => hu, by simp⟩
  | cons w ws ih =>
    intro g q h hws hP hstep
    have hw := hws w (List.mem_cons_self _ _)
    have hws1 : ∀ x ∈ ws, 0 ≤ x ∧ x < n := fun x hx => hws x (List.mem_cons_of_mem _ hx)
    have hstep1 : ∀ x ∈ ws, ∀ (g : Graph) (q q1 : queue), BfsOk n adj g q → P g q →
        readAt g.visited x = .done 0 → enqueue q x = .done q1 →
        P { g with visited := g.visited.set x.toNat 1 } q1 :=
      fun x hx => hstep x (List.mem_cons_of_mem _ hx)
    obtain ⟨f, hf, _⟩ := readAt_of_range (l := g.visited) hw.1 (by have := h.vlen; omega)
    by_cases hf0 : f = 0
    · subst hf0
      obtain ⟨q1, hwr, he, hok1, hcnt, hcase⟩ := h.mark_step hw hf
      have hP1 := hstep w (List.mem_cons_self _ _) g q q1 h hP hf he
      obtain ⟨g2, q2, h1, hok2, hP2, ha, hnv, hle, hmono, hall⟩ := ih _ q1 hok1 hws1 hP1 hstep1
      have hmk := marked_after_set (g := g) (w := w) ⟨hw.1, by have := h.vlen; omega⟩
      refine ⟨g2, q2, by simp [bfsScan, hf, hwr, he, h1], hok2, hP2, ha, hnv, ?_, ?_, ?_⟩
      · have hlen : (held q1).length ≤ (held q).length + 1 := by
          rcases hcase with ⟨_, e⟩ | ⟨_, hh, _⟩
          · rw [e]; omega
          · rw [hh]; simp
        have hle' : g2.visited.count 0 + (held q2).length ≤
            (g.visited.set w.toNat 1).count 0 + (held q1).length := hle
        omega
      · intro u hu; exact hmono u (hmk.2 u hu)
      · intro x hx
        rcases List.mem_cons.1 hx with hx | hx
        · rw [hx]; exact hmono w hmk.1
        · exact hall x hx
    · obtain ⟨g2, q2, h1, hok2, hP2, ha, hnv, hle, hmono, hall⟩ := ih g q h hws1 hP hstep1
      refine ⟨g2, q2, by simp [bfsScan, hf, hf0, h1], hok2, hP2, ha, hnv, hle, hmono, ?_⟩
      intro x hx
      rcases List.mem_cons.1 hx with hx | hx
      · rw [hx]; exact hmono w ⟨f, hf, hf0⟩
      · exact hall x hx

/-- The outer loop of `bfs` returns on every well-shaped state, within as many
rounds as there are unmarked vertices and held items (plus one); `P` is a
property of the states between rounds, `Q v` of the states while `v` is
scanned. -/
theorem bfsLoop_run {n : Int} {adj : Int → List Int}
    (P : Graph → queue → List Int → Prop) (Q : Int → Graph → queue → List Int → Prop)
    (hdeq : ∀ (g : Graph) (q q1 : queue) (v : Int) (order : List Int), BfsOk n adj g q →
      BfsOk n adj g q1 → P g q order → dequeue q = .done (v, q1) → held q = v :: held q1 →
      q1.rear ≤ q.rear → Q v g q1 (order ++ [v]))
    (hstep : ∀ (v w : Int) (g : Graph) (q q1 : queue) (ord : List Int), w ∈ adj v →
      BfsOk n adj g q → Q v g q ord → readAt g.visited w = .done 0 →
      enqueue q w = .done q1 → Q v { g with visited := g.visited.set w.toNat 1 } q1 ord)
    (hfin : ∀ (v : Int) (g : Graph) (q : queue) (ord : List Int), BfsOk n adj g q →
      Q v g q ord → (∀ w ∈ adj v, Marked g w) → P g q ord) :
    ∀ (fuel : Nat) (g : Graph) (q : queue) (order : List Int), BfsOk n adj g q →
    P g q order → g.visited.count 0 + (held q).length < fuel →
    ∃ g1 q1 order1, bfsLoop fuel g q order = .done (g1, q1, order1) ∧ BfsOk n adj g1 q1 ∧
      P g1 q1 order1 ∧ q1.rear = -1 ∧ g1.adjLists = g.adjLists ∧
      g1.numVertices = g.numVertices := by
  intro fuel
  induction fuel with
  | zero => intro g q order _ _ h; omega
  | succ f ih =>
    intro g q order hok hP hf
    by_cases hr : q.rear = -1
    · have he : isEmpty q = 1 := isEmpty_eq_one_iff.2 hr
      exact ⟨g, q, order, by simp [bfsLoop, he], hok, hP, hr, rfl, rfl⟩
    · have he : isEmpty q = 0 := isEmpty_eq_zero_iff.2 hr
      obtain ⟨x, q1, hd, hq1, hcase⟩ := dequeue_total hok.qok
      rcases hcase with ⟨hr', _, _⟩ | ⟨_, hh, hrear, _⟩
      · exact absurd hr' hr
      · have hx : 0 ≤ x ∧ x < n := hok.held_range x (by rw [hh]; simp)
        have hok1 : BfsOk n adj g q1 :=
          { vlen := hok.vlen, adj_read := hok.adj_read, adj_range := hok.adj_range, qok := hq1,
            held_range := fun y hy => hok.held_range y (by rw [hh]; exact List.mem_cons_of_mem _ hy) }
        have hQ := hdeq g q q1 x order hok hok1 hP hd hh hrear
        have hread := hok.adj_read x hx.1 hx.2
        have hws := hok.adj_range x hx.1 hx.2
        obtain ⟨g2, q2, hscan, hok2, hQ2, ha2, hn2, hle, _, hall⟩ :=
          bfsScan_run (fun g q => Q x g q (order ++ [x])) (adj x) g q1 hok1 hws hQ
            (fun w hw g q q1 hk hq hfl he => hstep x w g q q1 (order ++ [x]) hw hk hq hfl he)
        have hP2 := hfin x g2 q2 (order ++ [x]) hok2 hQ2 hall
        have hlen : (held q).length = (held q1).length + 1 := by rw [hh]; simp
        obtain ⟨g3, q3, o3, hloop, hok3, hP3, hr3, ha3, hn3⟩ := ih g2 q2 (order ++ [x]) hok2 hP2
          (by omega)
        refine ⟨g3, q3, o3, ?_, hok3, hP3, hr3, by rw [ha3, ha2], by rw [hn3, hn2]⟩
        simp [bfsLoop, he, hd, hread, hscan, hloop]

/-- The state of `bfs` when its loop is entered: the start vertex marked and
alone in the queue. -/
theorem bfs_entry {n : Int} {adj : Int → List Int} {g : Graph} {mem : List Int} {s : Int}
    (hvl : (g.visited.length : Int) = n)
    (hread : ∀ u : Int, 0 ≤ u → u < n → readAt g.adjLists u = .done (adj u))
    (hrange : ∀ u : Int, 0 ≤ u → u < n → ∀ w ∈ adj u, 0 ≤ w ∧ w < n)
    (hmem : mem.length = 40) (hs : 0 ≤ s ∧ s < n) :
    ∃ q1, writeAt g.visited s 1 = .done (g.visited.set s.toNat 1) ∧
      enqueue (createQueue mem) s = .done q1 ∧
      q1 = { items := mem.set 0 s, front := 0, rear := 0 } ∧ held q1 = [s] ∧
      BfsOk n adj { g with visited := g.visited.set s.toNat 1 } q1 ∧
      (g.visited.set s.toNat 1).count 0 + 1 ≤ n.toNat := by
  have hwr := writeAt_of_range (l := g.visited) (1 : Int) hs.1 (by omega)
  obtain ⟨q1, he, hq1, hh, _⟩ := enqueue_spec (createQueue_ok hmem) s (by simp [createQueue])
  have hexp : enqueue (createQueue mem) s = .done { items := mem.set 0 s, front := 0, rear := 0 } := by
    simp [enqueue, createQueue, writeAt, writeN, hmem]
  rw [hexp] at he
  injection he with he
  rw [held_createQueue, List.nil_append] at hh
  refine ⟨q1, hwr, by rw [hexp, he], he.symm, hh, ?_, ?_⟩
  · exact
    { vlen := by simp [hvl]
      adj_read := hread
      adj_range := hrange
      qok := hq1
      held_range := by intro x hx; rw [hh] at hx; simp at hx; rw [hx]; exact hs }
  · have := count_zero_set_lt g.visited s.toNat (by omega)
    omega

/-- After a flag write at `w`, a set flag is the one at `w` or was set before,
and the flags at other vertices read as before. -/
theorem marked_set_cases {g : Graph} {w u : Int} (hu : 0 ≤ u ∧ u < g.visited.length) :
    (Marked { g with visited := g.visited.set w.toNat 1 } u → u.toNat = w.toNat ∨ Marked g u) ∧
      (u.toNat ≠ w.toNat →
        readAt { g with visited := g.visited.set w.toNat 1 }.visited u = readAt g.visited u) := by
  have hset := readAt_set g.visited w.toNat 1 hu.1 hu.2
  constructor
  · rintro ⟨f, hf, hne⟩
    by_cases h : u.toNat = w.toNat
    · exact Or.inl h
    · right
      have hf' : readAt (g.visited.set w.toNat 1) u = .done f := hf
      rw [hset] at hf'
      simp only [h, if_false] at hf'
      exact ⟨f, hf', hne⟩
  · intro h
    show readAt (g.visited.set w.toNat 1) u = readAt g.visited u
    rw [hset]
    simp [h]

/-- The `enqueue` of a run on a well-formed queue leaves the held items as they
are or appends the value. -/
theorem held_after_enqueue {q q1 : queue} {w : Int} (hq : QueueOk q)
    (he : enqueue q w = .done q1) : held q1 = held q ∨ held q1 = held q ++ [w] := by
  obtain ⟨q2, h2, _, hcase⟩ := enqueue_total hq w
  rw [he] at h2
  injection h2 with h2
  subst h2
  rcases hcase with ⟨_, e⟩ | ⟨_, hh, _⟩
  · left; rw [e]
  · right; exact hh

/-- On a built graph of any size `bfs` returns, dequeues and marks only
vertices joined to the start by a walk, and leaves the flags of all other
vertices, the chains and `numVertices` as they were. -/
theorem bfs_reach_frame {n : Int} {edges : List (Int × Int)} {s : Int} {mem : List Int}
    (hv : ValidEdges n edges) (hs : 0 ≤ s ∧ s < n) (hmem : mem.length = 40) (fuel : Nat)
    (hf : n.toNat < fuel) :
    ∃ g g1 q1 order, buildGraph n edges = .done g ∧
      g.visited = List.replicate n.toNat 0 ∧
      bfs fuel mem g s = .done (g1, q1, order) ∧
      (∀ v ∈ order, ∃ k, Walk edges s v k) ∧
      (∀ u : Int, 0 ≤ u → u < n → Marked g1 u → ∃ k, Walk edges s u k) ∧
      (∀ u : Int, 0 ≤ u → u < n → (¬ ∃ k, Walk edges s u k) →
        readAt g1.visited u = readAt g.visited u) ∧
      g1.adjLists = g.adjLists ∧ g1.numVertices = g.numVertices := by
  obtain ⟨g, hg, _, hvis, _, hadj⟩ := buildGraph_spec hv
  have hvl : (g.visited.length : Int) = n := by rw [hvis]; simp; omega
  obtain ⟨q0, hwr, he, _, hh0, hok0, hcnt⟩ := bfs_entry hvl hadj
    (fun u _ _ => storedAdj_range hv u) hmem hs
  have hunmarked : ∀ u : Int, 0 ≤ u → u < n → readAt g.visited u = .done 0 := by
    intro u hu0 hu1
    rw [hvis, readAt_eq_done]
    refine ⟨hu0, ?_⟩
    rw [List.getElem?_replicate]
    have : u.toNat < n.toNat := by omega
    simp [this]
  let P : Graph → queue → List Int → Prop := fun g' q order =>
    (∀ u : Int, 0 ≤ u → u < n → Marked g' u → ∃ k, Walk edges s u k) ∧
    (∀ x ∈ held q, ∃ k, Walk edges s x k) ∧ (∀ x ∈ order, ∃ k, Walk edges s x k) ∧
    (∀ u : Int, 0 ≤ u → u < n → (¬ ∃ k, Walk edges s u k) →
      readAt g'.visited u = readAt g.visited u)
  let Q : Int → Graph → queue → List Int → Prop := fun v g' q order =>
    P g' q order ∧ ∃ k, Walk edges s v k
  have hsReach : ∃ k, Walk edges s s k := ⟨0, Walk.nil s⟩
  have hP0 : P { g with visited := g.visited.set s.toNat 1 } q0 [] := by
    have hcases := fun u (hu : 0 ≤ u ∧ u < n) =>
      marked_set_cases (g := g) (w := s) (u := u) ⟨hu.1, by omega⟩
    refine ⟨?_, ?_, ?_, ?_⟩
    · intro u hu0 hu1 hm
      rcases (hcases u ⟨hu0, hu1⟩).1 hm with h | ⟨f, hf, hne⟩
      · have : u = s := by omega
        rw [this]; exact hsReach
      · rw [hunmarked u hu0 hu1] at hf
        injection hf with hf
        exact absurd hf.symm hne
    · intro x hx; rw [hh0] at hx; simp at hx; rw [hx]; exact hsReach
    · intro x hx; cases hx
    · intro u hu0 hu1 hnr
      apply (hcases u ⟨hu0, hu1⟩).2
      intro e
      have : u = s := by omega
      exact hnr (this ▸ hsReach)
  have hrun := bfsLoop_run P Q ?_ ?_ ?_ fuel _ q0 [] hok0 hP0
    (by rw [hh0]; simp; omega)
  · obtain ⟨g1, q1, o1, hloop, _, hP1, _, ha, hnv⟩ := hrun
    exact ⟨g, g1, q1, o1, hg, hvis, by simp [bfs, hwr, he, hloop], hP1.2.2.1, hP1.1, hP1.2.2.2,
      ha, hnv⟩
  · intro g' q q1 v order _ _ hP _ hh _
    have hvr : ∃ k, Walk edges s v k := hP.2.1 v (by rw [hh]; simp)
    refine ⟨⟨hP.1, ?_, ?_, hP.2.2.2⟩, hvr⟩
    · intro x hx; exact hP.2.1 x (by rw [hh]; exact List.mem_cons_of_mem _ hx)
    · intro x hx
      rcases List.mem_append.1 hx with hx | hx
      · exact hP.2.2.1 x hx
      · simp at hx; rw [hx]; exact hvr
  · intro v w g' q q1 ord hw hok hQ hfl he
    obtain ⟨hP, k, hk⟩ := hQ
    have hwr : ∃ k, Walk edges s w k := ⟨k + 1, Walk.snoc hk (storedAdj_mem.1 hw)⟩
    have hw0 : 0 ≤ w := (readAt_eq_done.1 hfl).1
    have hcases := fun u (hu : 0 ≤ u ∧ u < n) =>
      marked_set_cases (g := g') (w := w) (u := u) ⟨hu.1, by have := hok.vlen; omega⟩
    refine ⟨⟨?_, ?_, hP.2.2.1, ?_⟩, k, hk⟩
    · intro u hu0 hu1 hm
      rcases (hcases u ⟨hu0, hu1⟩).1 hm with h | h
      · have : u = w := by omega
        rw [this]; exact hwr
      · exact hP.1 u hu0 hu1 h
    · intro x hx
      rcases held_after_enqueue hok.qok he with h | h
      · rw [h] at hx; exact hP.2.1 x hx
      · rw [h] at hx
        rcases List.mem_append.1 hx with hx | hx
        · exact hP.2.1 x hx
        · simp at hx; rw [hx]; exact hwr
    · intro u hu0 hu1 hnr
      rw [← hP.2.2.2 u hu0 hu1 hnr]
      apply (hcases u ⟨hu0, hu1⟩).2
      intro e
      have : u = w := by omega
      exact hnr (this ▸ hwr)
  · intro v g' q ord _ hQ _
    exact hQ.1

/-! ## A second `bfs` call -/

theorem set_of_getElem? {α : Type} : ∀ (l : List α) (i : Nat) (a : α), l[i]? = some a →
    l.set i a = l
  | [], _, _, h => by simp at h
  | b :: t, 0, a, h => by
    simp at h
    simp [h]
  | b :: t, i + 1, a, h => by
    have := set_of_getElem? t i a (by simpa using h)
    simp [this]

/-- The inner loop of `bfs` on a chain of marked vertices changes nothing. -/
theorem bfsScan_all_marked (ws : List Int) (g : Graph) (q : queue)
    (h : ∀ w ∈ ws, Marked g w) : bfsScan ws g q = .done (g, q) := by
  induction ws with
  | nil => rfl
  | cons w ws ih =>
    obtain ⟨f, hf, hne⟩ := h w (List.mem_cons_self _ _)
    simp only [bfsScan, hf, Outcome.bind_done, hne, if_false]
    exact ih (fun x hx => h x (List.mem_cons_of_mem _ hx))

/-- On a built graph of any size `bfs` returns with the start vertex flagged 1
and every neighbour of the start vertex marked, the chains untouched. -/
theorem bfs_marks_start_neighbours {n : Int} {edges : List (Int × Int)} {s : Int}
    {mem : List Int} (hv : ValidEdges n edges) (hs : 0 ≤ s ∧ s < n) (hmem : mem.length = 40)
    (fuel : Nat) (hf : n.toNat < fuel) :
    ∃ g g1 q1 order, buildGraph n edges = .done g ∧
      bfs fuel mem g s = .done (g1, q1, order) ∧ (g1.visited.length : Int) = n ∧
      (∀ u : Int, 0 ≤ u → u < n → readAt g1.adjLists u = .done (storedAdj edges u)) ∧
      readAt g1.visited s = .done 1 ∧ ∀ w ∈ storedAdj edges s, Marked g1 w := by
  obtain ⟨g, hg, _, hvis, _, hadj⟩ := buildGraph_spec hv
  have hvl : (g.visited.length : Int) = n := by rw [hvis]; simp; omega
  obtain ⟨q0, hwr, he, _, hh0, hok0, hcnt⟩ := bfs_entry hvl hadj
    (fun u _ _ => storedAdj_range hv u) hmem hs
  let P : Graph → queue → List Int → Prop := fun g' q order =>
    readAt g'.visited s = .done 1 ∧
      ((order = [] ∧ held q = [s]) ∨ ∀ w ∈ storedAdj edges s, Marked g' w)
  let Q : Int → Graph → queue → List Int → Prop := fun v g' _ _ =>
    readAt g'.visited s = .done 1 ∧ (v = s ∨ ∀ w ∈ storedAdj edges s, Marked g' w)
  have hP0 : P { g with visited := g.visited.set s.toNat 1 } q0 [] := by
    refine ⟨?_, Or.inl ⟨rfl, hh0⟩⟩
    show readAt (g.visited.set s.toNat 1) s = .done 1
    rw [readAt_set g.visited _ _ hs.1 (by omega)]
    simp
  have hrun := bfsLoop_run P Q ?_ ?_ ?_ fuel _ q0 [] hok0 hP0 (by rw [hh0]; simp; omega)
  · obtain ⟨g1, q1, o1, hloop, hok1, hP1, hr1, _, _⟩ := hrun
    refine ⟨g, g1, q1, o1, hg, by simp [bfs, hwr, he, hloop], hok1.vlen, hok1.adj_read, hP1.1, ?_⟩
    rcases hP1.2 with ⟨_, hh⟩ | h
    · rw [held_of_empty hr1] at hh
      cases hh
    · exact h
  · intro g' q q1 v order _ _ hP _ hh _
    refine ⟨hP.1, ?_⟩
    rcases hP.2 with ⟨_, hq⟩ | h
    · left
      rw [hq] at hh
      injection hh with hh _
      exact hh.symm
    · exact Or.inr h
  · intro v w g' q q1 ord _ hok hQ hfl _
    have hw0 : 0 ≤ w := (readAt_eq_done.1 hfl).1
    have hws : w ≠ s := by
      intro e
      rw [e, hQ.1] at hfl
      injection hfl with hfl
      exact absurd hfl (by decide)
    have hwlt : w.toNat < g'.visited.length := by
      have h2 := (readAt_eq_done.1 hfl).2
      by_contra hn
      rw [List.getElem?_eq_none (by omega)] at h2
      cases h2
    have hmk := marked_after_set (g := g') (w := w) ⟨hw0, by omega⟩
    refine ⟨?_, ?_⟩
    · have hcases := marked_set_cases (g := g') (w := w) (u := s)
        ⟨hs.1, by have := hok.vlen; omega⟩
      have hne : s.toNat ≠ w.toNat := by omega
      have := hcases.2 hne
      rw [← hQ.1]
      exact this
    · rcases hQ.2 with h | h
      · exact Or.inl h
      · exact Or.inr (fun x hx => hmk.2 x (h x hx))
  · intro v g' q ord _ hQ hall
    refine ⟨hQ.1, Or.inr ?_⟩
    rcases hQ.2 with h | h
    · rw [h] at hall; exact hall
    · exact h

/-- A `bfs` call from a start vertex that is flagged 1 and whose neighbours are
all marked dequeues the start vertex only and leaves the graph as it is; the
one queue slot written is slot 0. -/
theorem bfs_rerun {adj : Int → List Int} {g : Graph} {s : Int} {mem : List Int}
    (hs : 0 ≤ s) (hflag : readAt g.visited s = .done 1)
    (hread : readAt g.adjLists s = .done (adj s)) (hall : ∀ w ∈ adj s, Marked g w)
    (hmem : mem.length = 40) (fuel : Nat) (hf : 2 ≤ fuel) :
    bfs fuel mem g s = .done (g, { items := mem.set 0 s, front := -1, rear := -1 }, [s]) := by
  obtain ⟨f, rfl⟩ : ∃ f, fuel = f + 2 := ⟨fuel - 2, by omega⟩
  have hget := (readAt_eq_done.1 hflag).2
  have hlt : s.toNat < g.visited.length := by
    by_contra hn
    rw [List.getElem?_eq_none (by omega)] at hget
    cases hget
  have hwr : writeAt g.visited s 1 = .done g.visited := by
    rw [writeAt_of_range (l := g.visited) (1 : Int) hs (by omega), set_of_getElem? _ _ _ hget]
  have hne : mem ≠ [] := by intro e; rw [e] at hmem; cases hmem
  obtain ⟨a, t, rfl⟩ := List.exists_cons_of_ne_nil hne
  show bfs (f + 2) (a :: t) g s = .done (g, { items := s :: t, front := -1, rear := -1 }, [s])
  have he : enqueue (createQueue (a :: t)) s =
      .done { items := s :: t, front := 0, rear := 0 } := by
    simp [enqueue, createQueue, writeAt, writeN]
  have hd : dequeue { items := s :: t, front := 0, rear := 0 } =
      .done (s, { items := s :: t, front := -1, rear := -1 }) := by
    simp [dequeue, isEmpty, readAt, readN]
  have hscan := bfsScan_all_marked (adj s) g
    { items := s :: t, front := -1, rear := -1 } hall
  simp only [bfs, hwr, he, Outcome.bind_done, bfsLoop, isEmpty]
  simp [hd, hread, hscan]

/-! ## The queue-full and queue-empty branches during `bfs` -/

/-- With a slot left for every unmarked vertex, a marking step finds `rear`
below 39 and keeps a slot for every vertex still unmarked. -/
theorem BfsOk.mark_step_room {n : Int} {adj : Int → List Int} {g : Graph} {q : queue}
    (h : BfsOk n adj g q) {w : Int} (hw : 0 ≤ w ∧ w < n)
    (hflag : readAt g.visited w = .done 0) (hcap : q.rear + 1 + g.visited.count 0 ≤ 40) :
    q.rear < 39 ∧ ∀ q1, enqueue q w = .done q1 →
      q1.rear + 1 + (g.visited.set w.toNat 1).count 0 ≤ 40 := by
  obtain ⟨q1, _, he, _, hcnt, hcase⟩ := h.mark_step hw hflag
  have hlt : q.rear < 39 := by omega
  refine ⟨hlt, ?_⟩
  intro q2 he2
  rw [he] at he2
  injection he2 with he2
  subst he2
  rcases hcase with ⟨h39, _⟩ | ⟨_, _, hr⟩
  · omega
  · omega

/-- With a slot left for every unmarked vertex the inner loop never takes the
queue-full branch. -/
theorem bfsScanStrict_eq {n : Int} {adj : Int → List Int} (ws : List Int) :
    ∀ (g : Graph) (q : queue), BfsOk n adj g q → (∀ w ∈ ws, 0 ≤ w ∧ w < n) →
    q.rear + 1 + g.visited.count 0 ≤ 40 → bfsScanStrict ws g q = bfsScan ws g q := by
  induction ws with
  | nil => intro g q _ _ _; rfl
  | cons w ws ih =>
    intro g q h hws hcap
    have hw := hws w (List.mem_cons_self _ _)
    have hws1 : ∀ x ∈ ws, 0 ≤ x ∧ x < n := fun x hx => hws x (List.mem_cons_of_mem _ hx)
    obtain ⟨f, hf, _⟩ := readAt_of_range (l := g.visited) hw.1 (by have := h.vlen; omega)
    by_cases hf0 : f = 0
    · subst hf0
      obtain ⟨q1, hwr, he, hok1, _, _⟩ := h.mark_step hw hf
      obtain ⟨hlt, hcap1⟩ := h.mark_step_room hw hf hcap
      have hne : ¬ q.rear = 40 - 1 := by omega
      have hes : enqueueStrict q w = .done q1 := by
        simp only [enqueueStrict, hne, if_false]; exact he
      simp only [bfsScanStrict, bfsScan, hf, Outcome.bind_done, if_true, hwr, hes, he]
      exact ih _ q1 hok1 hws1 (hcap1 q1 he)
    · simp only [bfsScanStrict, bfsScan, hf, Outcome.bind_done, hf0, if_false]
      exact ih g q h hws1 hcap

/-- With a slot left for every unmarked vertex the outer loop never takes the
queue-full branch and never calls `dequeue` on an empty queue. -/
theorem bfsLoopStrict_eq {n : Int} {adj : Int → List Int} : ∀ (fuel : Nat) (g : Graph)
    (q : queue) (order : List Int), BfsOk n adj g q →
    q.rear + 1 + g.visited.count 0 ≤ 40 →
    bfsLoopStrict fuel g q order = bfsLoop fuel g q order := by
  intro fuel
  induction fuel with
  | zero => intro g q order _ _; rfl
  | succ f ih =>
    intro g q order hok hcap
    by_cases hr : q.rear = -1
    · have he : isEmpty q = 1 := isEmpty_eq_one_iff.2 hr
      simp [bfsLoopStrict, bfsLoop, he]
    · have he : isEmpty q = 0 := isEmpty_eq_zero_iff.2 hr
      obtain ⟨x, q1, hd, hq1, hcase⟩ := dequeue_total hok.qok
      rcases hcase with ⟨hr', _, _⟩ | ⟨_, hh, hrear, _⟩
      · exact absurd hr' hr
      · have hx : 0 ≤ x ∧ x < n := hok.held_range x (by rw [hh]; simp)
        have hok1 : BfsOk n adj g q1 :=
          { vlen := hok.vlen, adj_read := hok.adj_read, adj_range := hok.adj_range, qok := hq1,
            held_range := fun y hy => hok.held_range y (by rw [hh]; exact List.mem_cons_of_mem _ hy) }
        have hcap1 : q1.rear + 1 + g.visited.count 0 ≤ 40 := by omega
        have hread := hok.adj_read x hx.1 hx.2
        have hws := hok.adj_range x hx.1 hx.2
        have hds : dequeueStrict q = .done (x, q1) := by
          simp only [dequeueStrict, he, ne_eq, not_true_eq_false, if_false]; exact hd
        obtain ⟨g2, q2, hscan, hok2, hcap2, _⟩ :=
          bfsScan_run (fun g q => q.rear + 1 + g.visited.count 0 ≤ 40) (adj x) g q1 hok1 hws
            hcap1
            (fun w hw g q q1 hk hc hfl he => (hk.mark_step_room (hws w hw) hfl hc).2 q1 he)
        have hscans := bfsScanStrict_eq (adj x) g q1 hok1 hws hcap1
        simp only [bfsLoopStrict, bfsLoop, he, if_true, hds, hd, Outcome.bind_done, hread,
          hscans, hscan]
        exact ih g2 q2 _ hok2 hcap2

/-- On at most 40 vertices, whatever the flags on entry, `bfs` returns and
takes neither the queue-full branch nor the queue-empty branch. -/
theorem bfsStrict_eq_bfs {n : Int} {adj : Int → List Int} {g : Graph} {mem : List Int}
    {s : Int} (hn : n ≤ 40) (hvl : (g.visited.length : Int) = n)
    (hread : ∀ u : Int, 0 ≤ u → u < n → readAt g.adjLists u = .done (adj u))
    (hrange : ∀ u : Int, 0 ≤ u → u < n → ∀ w ∈ adj u, 0 ≤ w ∧ w < n)
    (hmem : mem.length = 40) (hs : 0 ≤ s ∧ s < n) (fuel : Nat) (hf : n.toNat < fuel) :
    ∃ r, bfsStrict fuel mem g s = .done r ∧ bfs fuel mem g s = .done r := by
  obtain ⟨q0, hwr, he, hq0, hh0, hok0, hcnt⟩ := bfs_entry hvl hread hrange hmem hs
  have hr0 : q0.rear = 0 := by rw [hq0]
  have hcap0 : q0.rear + 1 + (g.visited.set s.toNat 1).count 0 ≤ 40 := by omega
  obtain ⟨g1, q1, o1, hloop, _⟩ := bfsLoop_run (fun _ _ _ => True) (fun _ _ _ _ => True)
    (fun _ _ _ _ _ _ _ _ _ _ _ => trivial) (fun _ _ _ _ _ _ _ _ _ _ _ => trivial)
    (fun _ _ _ _ _ _ _ => trivial) fuel _ q0 [] hok0 trivial (by rw [hh0]; simp; omega)
  have hes : enqueueStrict (createQueue mem) s = .done q0 := by
    simp only [enqueueStrict]
    rw [if_neg (by simp [createQueue])]
    exact he
  refine ⟨(g1, q1, o1), ?_, by simp [bfs, hwr, he, hloop]⟩
  simp only [bfsStrict, hwr, hes, Outcome.bind_done]
  rw [bfsLoopStrict_eq fuel _ q0 [] hok0 hcap0]
  exact hloop

/-! ## The stack during `depthFirstSearch` -/

/-- The `while` loop of `depthFirstSearch` is the repetition of `dfsBody` as
long as the stack is not empty. -/
theorem dfsLoop_unfold (fuel : Nat) (s : DfsState) (order : List Int) :
    dfsLoop (fuel + 1) s order =
      if isStackEmpty s = false then
        (dfsBody s).bind fun r => dfsLoop fuel r.1 (order ++ r.2.toList)
      else .done (s, order) := by
  simp only [dfsLoop, dfsBody]
  split
  · cases peek s with
    | fault => rfl
    | outOfFuel => rfl
    | done t =>
      simp only [Outcome.bind_done]
      cases getAdjUnvisitedVertex s t with
      | fault => rfl
      | outOfFuel => rfl
      | done u =>
        simp only [Outcome.bind_done]
        split
        · cases pop s with
          | fault => rfl
          | outOfFuel => rfl
          | done r => simp
        · cases writeVisited s u true with
          | fault => rfl
          | outOfFuel => rfl
          | done s1 =>
            simp only [Outcome.bind_done]
            cases push s1 u with
            | fault => rfl
            | outOfFuel => rfl
            | done s2 => simp
  · rfl

/-- One pass through the loop body from a state that represents a non-empty
duplicate-free stack returns, and the new state again represents a
duplicate-free stack that satisfies the search invariant. -/
theorem dfsBody_spec {s : DfsState} {t : Int} {rest order : List Int}
    (hsim : DfsSim s (t :: rest) order)
    (hinv : DfsInv s.adjMatrix s.vertexCount (t :: rest) order)
    (hnd : (t :: rest).Nodup) :
    ∃ s1 p stk1 order1, dfsBody s = .done (s1, p) ∧ DfsSim s1 stk1 order1 ∧
      DfsInv s.adjMatrix s.vertexCount stk1 order1 ∧ stk1.Nodup ∧
      s1.adjMatrix = s.adjMatrix ∧ s1.vertexCount = s.vertexCount := by
  have htr := hinv.range t (hinv.stk_sub t (List.mem_cons_self _ _))
  have hscan := hsim.sim_scan htr s.vertexCount.toNat 0 (le_refl _)
    (by have := hsim.count; omega)
  have hpeek := hsim.sim_peek
  cases hs : scanFrom s.adjMatrix order t s.vertexCount.toNat 0 with
  | none =>
    obtain ⟨hpop, hsim1⟩ := hsim.sim_pop
    refine ⟨_, none, rest, order, ?_, hsim1, hinv.inv_pop hs, (List.nodup_cons.1 hnd).2, rfl, rfl⟩
    simp [dfsBody, hpeek, getAdjUnvisitedVertex, hscan, hs, hpop]
  | some u =>
    obtain ⟨hu0, hu1, _, hnotin⟩ := scanFrom_some _ _ _ hs
    have hur : 0 ≤ u ∧ u < s.vertexCount := ⟨hu0, by omega⟩
    have hinv1 := hinv.inv_push hs
    have hlen := length_le_of_nodup_range hinv1.nodup hinv1.range
    have hcap : (t :: rest).length < 5 := by
      have h1 := hinv.stk_len
      have h2 := hsim.count
      simp at hlen h1 ⊢
      omega
    obtain ⟨s1, hm1, hsim1, hm1a, hm1b⟩ := hsim.sim_mark hur
    obtain ⟨s2, hp2, hsim2, hm2a, hm2b⟩ := hsim1.sim_push u hcap
    have hne : ¬ u = -1 := by omega
    refine ⟨s2, some u, u :: t :: rest, order ++ [u], ?_, hsim2, hinv1, ?_, by rw [hm2a, hm1a],
      by rw [hm2b, hm1b]⟩
    · simp [dfsBody, hpeek, getAdjUnvisitedVertex, hscan, hs, hne, hm1, hp2]
    · exact List.nodup_cons.2 ⟨fun hmem => hnotin (hinv.stk_sub u hmem), hnd⟩

/-- Every state at the loop test represents a duplicate-free stack that
satisfies the search invariant. -/
theorem DfsRuns.represents {s0 s' : DfsState} {stk0 order0 : List Int}
    (hsim0 : DfsSim s0 stk0 order0) (hinv0 : DfsInv s0.adjMatrix s0.vertexCount stk0 order0)
    (hnd0 : stk0.Nodup) (h : DfsRuns s0 s') :
    ∃ stk order, DfsSim s' stk order ∧ DfsInv s0.adjMatrix s0.vertexCount stk order ∧
      stk.Nodup ∧ s'.adjMatrix = s0.adjMatrix ∧ s'.vertexCount = s0.vertexCount := by
  induction h with
  | start => exact ⟨stk0, order0, hsim0, hinv0, hnd0, rfl, rfl⟩
  | step _ hne hbody ih =>
    rename_i s s1 p
    obtain ⟨stk, order, hsim, hinv, hnd, hm, hvc⟩ := ih
    cases stk with
    | nil =>
      have := (isStackEmpty_iff hsim).2 rfl
      rw [hne] at this
      cases this
    | cons t rest =>
      obtain ⟨s2, p2, stk1, order1, hb, hsim1, hinv1, hnd1, hm1, hvc1⟩ :=
        dfsBody_spec hsim (by rw [hm, hvc]; exact hinv) hnd
      rw [hbody] at hb
      injection hb with hb
      injection hb with hb1 _
      subst hb1
      exact ⟨stk1, order1, hsim1, by rw [← hm, ← hvc]; exact hinv1, hnd1, by rw [hm1, hm],
        by rw [hvc1, hvc]⟩

/-- The slots in use of a state that represents the stack `stk` hold `stk`,
bottom first. -/
theorem liveStack_eq {s : DfsState} {stk order : List Int} (h : DfsSim s stk order) :
    liveStack s = stk.reverse := by
  have htop := h.top
  have : (s.top + 1).toNat = stk.length := by omega
  rw [liveStack, this, h.live]

/-! ## The marker of `bubbleSort` -/

/-- A pass whose marker is the head node walks to the last node and then reads
through the NULL `next` pointer. -/
theorem bubblePass_marker_head_faults (rest : List Int) : ∀ (fuel : Nat) (pre : List Int)
    (a : Int) (swapped : Int) (swaps : Nat), rest.length < fuel →
    bubblePass fuel (pre ++ (a :: rest)) pre.length (some 0) swapped swaps = .fault := by
  induction rest with
  | nil =>
    intro fuel pre a swapped swaps hf
    obtain ⟨f, rfl⟩ : ∃ f, fuel = f + 1 := ⟨fuel - 1, by simp at hf; omega⟩
    have hnext : nextOf (pre ++ [a]) pre.length = none := by simp [nextOf]
    simp [bubblePass, hnext]
  | cons b rest ih =>
    intro fuel pre a swapped swaps hf
    obtain ⟨f, rfl⟩ : ∃ f, fuel = f + 1 := ⟨fuel - 1, by simp at hf; omega⟩
    have hf1 : rest.length < f := by simp at hf; omega
    have hnext := nextOf_inner pre a b rest
    have hne : ¬ some (pre.length + 1) = some 0 := by simp
    have r1 := readN_append_head pre a (b :: rest)
    have r2 := readN_append_second pre a b rest
    have hlen : (pre ++ [b]).length = pre.length + 1 := by simp
    have hlen2 : (pre ++ [a]).length = pre.length + 1 := by simp
    rw [bubblePass]
    simp only [hnext, ne_eq, hne, not_false_eq_true, if_true, r1, r2, Outcome.bind_done]
    by_cases hab : a > b
    · have hs := swap_adjacent pre a b rest
      simp only [hab, if_true, hs, Outcome.bind_done]
      have := ih f (pre ++ [b]) a 1 (swaps + 1) hf1
      rw [hlen] at this
      simpa using this
    · simp only [hab, if_false]
      have := ih f (pre ++ [a]) b swapped swaps hf1
      rw [hlen2] at this
      simpa using this

/-- The inner loop never moves `ptr1` backwards. -/
theorem bubblePass_ptr_le : ∀ (fuel : Nat) (data : List Int) (p : Nat) (lptr : Option Nat)
    (swapped : Int) (swaps : Nat) (r : List Int × Nat × Int × Nat),
    bubblePass fuel data p lptr swapped swaps = .done r → p ≤ r.2.1 := by
  intro fuel
  induction fuel with
  | zero => intro data p lptr swapped swaps r h; simp [bubblePass] at h
  | succ f ih =>
    intro data p lptr swapped swaps r h
    rw [bubblePass] at h
    split at h
    · split at h
      · cases h
      · rename_i nxt hnxt
        have hp : nxt = p + 1 := by
          unfold nextOf at hnxt
          split at hnxt
          · injection hnxt with e; exact e.symm
          · cases hnxt
        obtain ⟨a, _, h1⟩ := Outcome.bind_eq_done.1 h
        obtain ⟨b, _, h2⟩ := Outcome.bind_eq_done.1 h1
        split at h2
        · obtain ⟨d1, _, h3⟩ := Outcome.bind_eq_done.1 h2
          have := ih _ _ _ _ _ r h3
          omega
        · have := ih _ _ _ _ _ r h2
          omega
    · injection h with h
      rw [← h]

/-- A pass that ends with `ptr1` at the head node made no exchange. -/
theorem bubblePass_ends_at_head (fuel : Nat) (data : List Int) (lptr : Option Nat)
    (swaps : Nat) (r : List Int × Nat × Int × Nat)
    (h : bubblePass fuel data 0 lptr 0 swaps = .done r) (hr : r.2.1 = 0) :
    r.1 = data ∧ r.2.2.1 = 0 ∧ r.2.2.2 = swaps := by
  cases fuel with
  | zero => simp [bubblePass] at h
  | succ f =>
    rw [bubblePass] at h
    split at h
    · split at h
      · cases h
      · rename_i nxt hnxt
        have hp : nxt = 0 + 1 := by
          unfold nextOf at hnxt
          split at hnxt
          · injection hnxt with e; exact e.symm
          · cases hnxt
        obtain ⟨a, _, h1⟩ := Outcome.bind_eq_done.1 h
        obtain ⟨b, _, h2⟩ := Outcome.bind_eq_done.1 h1
        split at h2
        · obtain ⟨d1, _, h3⟩ := Outcome.bind_eq_done.1 h2
          have := bubblePass_ptr_le _ _ _ _ _ _ r h3
          omega
        · have := bubblePass_ptr_le _ _ _ _ _ _ r h2
          omega
    · injection h with h
      rw [← h]
      exact ⟨rfl, rfl, rfl⟩

/-- Every marker at the start of a pass is NULL or a node after the head. -/
theorem bubbleMarkers_spec : ∀ (fuel : Nat) (pre suf : List Int) (lptr : Option Nat),
    pre ≠ [] → pre.length ≤ fuel →
    ((suf = [] ∧ lptr = none) ∨ (suf ≠ [] ∧ lptr = some pre.length)) →
    ∀ m ∈ bubbleMarkers fuel (pre ++ suf) lptr, m ≠ some 0 := by
  intro fuel
  induction fuel with
  | zero =>
    intro pre suf lptr _ _ _ m hm
    simp [bubbleMarkers] at hm
  | succ f ih =>
    intro pre suf lptr hne hlen hmark m hm
    obtain ⟨a, rest, rfl⟩ := List.exists_cons_of_ne_nil hne
    have hrl : rest.length < f + 1 := by simp at hlen; omega
    have hmark1 : (suf = [] ∧ lptr = none) ∨
        (suf ≠ [] ∧ lptr = some (([] : List Int).length + 1 + rest.length)) := by
      rcases hmark with h | ⟨h1, h2⟩
      · exact Or.inl h
      · right; refine ⟨h1, ?_⟩; rw [h2]; simp; omega
    have hp := bubblePass_spec rest (f + 1) [] a suf lptr 0 0 hrl hmark1
    simp only [List.nil_append, List.length_nil, Nat.zero_add] at hp
    have hl0 : lptr ≠ some 0 := by
      rcases hmark with ⟨_, h2⟩ | ⟨_, h2⟩
      · rw [h2]; simp
      · rw [h2]; simp
    rw [bubbleMarkers] at hm
    simp only [List.cons_append, hp] at hm
    rcases List.mem_cons.1 hm with hm | hm
    · rw [hm]; exact hl0
    · by_cases hk : bubbleSwaps a rest = 0
      · simp [hk] at hm
      · have hrne : rest ≠ [] := by
          intro h; subst h; exact hk rfl
        have hbl := bubble_length rest a
        have hbne := bubble_ne_nil a rest
        have hsplit := List.dropLast_append_getLast hbne
        have hpre1 : (bubble a rest).dropLast ≠ [] := by
          intro h
          have := congrArg List.length h
          simp [hbl] at this
          exact hrne this
        have hlen1 : (bubble a rest).dropLast.length ≤ f := by
          simp [hbl]; omega
        have hmark2 : ((bubble a rest).getLast hbne :: suf = [] ∧ some rest.length = none) ∨
            ((bubble a rest).getLast hbne :: suf ≠ [] ∧
              some rest.length = some (bubble a rest).dropLast.length) := by
          right; refine ⟨by simp, ?_⟩; simp [hbl]
        have hdata : (bubble a rest).dropLast ++ ((bubble a rest).getLast hbne :: suf) =
            bubble a rest ++ suf := by
          conv_rhs => rw [← hsplit]
          simp
        have := ih (bubble a rest).dropLast ((bubble a rest).getLast hbne :: suf)
          (some rest.length) hpre1 hlen1 hmark2 m
        rw [hdata] at this
        apply this
        simpa [hk] using hm

/-! ## Frame, repetition and safety of the searches and the sort: the claims -/

theorem bfs_test_edges_valid : ValidEdges 6 bfs_test_edges := by
  intro e he
  simp [bfs_test_edges] at he
  rcases he with rfl | rfl | rfl | rfl | rfl | rfl | rfl <;> decide

theorem bfs_test_vertex5_unreachable : ¬ ∃ k, Walk bfs_test_edges 0 5 k := by
  rintro ⟨k, hk⟩
  cases hk with
  | snoc _ hadj =>
    rcases hadj with h | h <;> simp [bfs_test_edges] at h

/-- C16: on every graph built by `createGraph` and valid `addEdge` calls, from
every valid start vertex, `bfs` returns; every vertex it dequeues and every
vertex whose flag it sets is joined to the start vertex by a walk; the flags of
the vertices not joined to the start, all adjacency lists and `numVertices` are
the same after the call as before. In `bfs_test` vertex 5 is never dequeued and
its flag stays 0. -/
theorem bfs_leaves_unreachable_untouched :
    (∀ (n : Int) (edges : List (Int × Int)) (s : Int) (mem : List Int) (fuel : Nat),
      ValidEdges n edges → 0 ≤ s ∧ s < n → mem.length = 40 → n.toNat < fuel →
      ∃ g g1 q1 order, buildGraph n edges = .done g ∧
        g.visited = List.replicate n.toNat 0 ∧
        bfs fuel mem g s = .done (g1, q1, order) ∧
        (∀ v ∈ order, ∃ k, Walk edges s v k) ∧
        (∀ u : Int, 0 ≤ u → u < n → Marked g1 u → ∃ k, Walk edges s u k) ∧
        (∀ u : Int, 0 ≤ u → u < n → (¬ ∃ k, Walk edges s u k) →
          readAt g1.visited u = readAt g.visited u) ∧
        g1.adjLists = g.adjLists ∧ g1.numVertices = g.numVertices) ∧
    (∀ mem : List Int, mem.length = 40 →
      ∃ g1 q1 order, bfs_test 7 mem = .done (g1, q1, order) ∧ (5 : Int) ∉ order ∧
        readAt g1.visited 5 = .done 0) := by
  constructor
  · intro n edges s mem fuel hv hs hmem hf
    exact bfs_reach_frame hv hs hmem fuel hf
  · intro mem hmem
    obtain ⟨g, g1, q1, o, hg, hvis, hbfs, hord, _, hframe, _, _⟩ :=
      bfs_reach_frame (n := 6) (s := 0) bfs_test_edges_valid (by decide) hmem 7 (by decide)
    refine ⟨g1, q1, o, by simp [bfs_test, hg, hbfs], ?_, ?_⟩
    · intro h5
      exact bfs_test_vertex5_unreachable (hord 5 h5)
    · rw [hframe 5 (by decide) (by decide) bfs_test_vertex5_unreachable, hvis]
      rfl

/-- C16, witness: the general statement at the graph of `bfs_test`, start 0. -/
theorem bfs_leaves_unreachable_untouched_witness :
    ∃ g g1 q1 order, buildGraph 6 bfs_test_edges = .done g ∧
      g.visited = List.replicate (6 : Int).toNat 0 ∧
      bfs 7 (List.replicate 40 0) g 0 = .done (g1, q1, order) ∧
      (∀ v ∈ order, ∃ k, Walk bfs_test_edges 0 v k) ∧
      (∀ u : Int, 0 ≤ u → u < 6 → Marked g1 u → ∃ k, Walk bfs_test_edges 0 u k) ∧
      (∀ u : Int, 0 ≤ u → u < 6 → (¬ ∃ k, Walk bfs_test_edges 0 u k) →
        readAt g1.visited u = readAt g.visited u) ∧
      g1.adjLists = g.adjLists ∧ g1.numVertices = g.numVertices :=
  bfs_leaves_unreachable_untouched.1 6 bfs_test_edges 0 (List.replicate 40 0) 7
    bfs_test_edges_valid (by decide) (by decide) (by decide)

/-- C17: on every graph built by `createGraph` and valid `addEdge` calls and
for every valid start vertex `s`, a second call `bfs(graph, s)` right after the
first, with the flags left as they are, returns having dequeued `s` only; the
graph, flags included, is the same after the second call as before it; the one
queue slot written is slot 0, with `s`, and the scan of the chain of `s` leaves
graph and queue as they are: it sets no flag and enqueues nothing. -/
theorem bfs_again_visits_only_start (n : Int) (edges : List (Int × Int)) (s : Int)
    (mem mem2 : List Int) (fuel : Nat) (hv : ValidEdges n edges) (hs : 0 ≤ s ∧ s < n)
    (hmem : mem.length = 40) (hmem2 : mem2.length = 40) (hf : n.toNat < fuel) :
    ∃ g g1 q1 order, buildGraph n edges = .done g ∧
      bfs fuel mem g s = .done (g1, q1, order) ∧
      bfs fuel mem2 g1 s =
        .done (g1, { items := mem2.set 0 s, front := -1, rear := -1 }, [s]) ∧
      readAt g1.adjLists s = .done (storedAdj edges s) ∧
      ∀ q : queue, bfsScan (storedAdj edges s) g1 q = .done (g1, q) := by
  obtain ⟨g, g1, q1, o, hg, hbfs, _, hread, hflag, hall⟩ :=
    bfs_marks_start_neighbours hv hs hmem fuel hf
  exact ⟨g, g1, q1, o, hg, hbfs,
    bfs_rerun hs.1 hflag (hread s hs.1 hs.2) hall hmem2 fuel (by omega),
    hread s hs.1 hs.2, fun q => bfsScan_all_marked _ g1 q hall⟩

/-- C17, witness: two calls on the graph of `bfs_test`, start 0. -/
theorem bfs_again_visits_only_start_witness :
    ∃ g g1 q1 order, buildGraph 6 bfs_test_edges = .done g ∧
      bfs 7 (List.replicate 40 0) g 0 = .done (g1, q1, order) ∧
      bfs 7 (List.replicate 40 5) g1 0 =
        .done (g1, { items := (List.replicate 40 5).set 0 0, front := -1, rear := -1 }, [0]) ∧
      readAt g1.adjLists 0 = .done (storedAdj bfs_test_edges 0) ∧
      ∀ q : queue, bfsScan (storedAdj bfs_test_edges 0) g1 q = .done (g1, q) :=
  bfs_again_visits_only_start 6 bfs_test_edges 0 (List.replicate 40 0) (List.replicate 40 5) 7
    bfs_test_edges_valid (by decide) (by decide) (by decide) (by decide)

/-- C18: on a graph with at most 40 vertices built by `createGraph` and valid
`addEdge` calls, whatever the `n` visited flags on entry and for every valid
start vertex, `bfs` returns (no index out of range) and gives the same result
as the variant in which a full queue at `enqueue` or an empty queue at
`dequeue` is a fault: neither branch is ever taken. -/
theorem bfs_queue_branches_never_taken (n : Int) (edges : List (Int × Int)) (s : Int)
    (mem flags : List Int) (fuel : Nat) (hn : n ≤ 40) (hv : ValidEdges n edges)
    (hs : 0 ≤ s ∧ s < n) (hmem : mem.length = 40) (hflags : flags.length = n.toNat)
    (hf : n.toNat < fuel) :
    ∃ g r, buildGraph n edges = .done g ∧
      bfs fuel mem { g with visited := flags } s = .done r ∧
      bfsStrict fuel mem { g with visited := flags } s = .done r := by
  obtain ⟨g, hg, _, _, _, hadj⟩ := buildGraph_spec hv
  obtain ⟨r, h1, h2⟩ := bfsStrict_eq_bfs (g := { g with visited := flags }) hn
    (by show (flags.length : Int) = n; omega) hadj (fun u _ _ => storedAdj_range hv u) hmem hs
    fuel hf
  exact ⟨g, r, hg, h2, h1⟩

/-- C18, witness: the graph of `bfs_test` entered with the flags 1, 0, 7, 0, 0, 1. -/
theorem bfs_queue_branches_never_taken_witness :
    ∃ g r, buildGraph 6 bfs_test_edges = .done g ∧
      bfs 7 (List.replicate 40 0) { g with visited := [1, 0, 7, 0, 0, 1] } 0 = .done r ∧
      bfsStrict 7 (List.replicate 40 0) { g with visited := [1, 0, 7, 0, 0, 1] } 0 = .done r :=
  bfs_queue_branches_never_taken 6 bfs_test_edges 0 (List.replicate 40 0) [1, 0, 7, 0, 0, 1] 7
    (by decide) bfs_test_edges_valid (by decide) (by decide) (by decide) (by decide)

/-- C19: when `depthFirstSearch` is entered on a matrix graph with 1 to 5
registered vertices, flags false and stack empty, then at every loop test the
stack entries `stack[0..top]` are pairwise different registered vertices with
their flag set, so at most `vertexCount <= 5` items are held and `top <= 4`;
each pass through the loop body is taken with `top >= 0` and returns, so
`push` writes inside `stack[0..4]` and `peek` and `pop` read a slot in use. The
loop is the repetition of that body. -/
theorem depthFirstSearch_stack_stays_in_bounds (s : DfsState) (hs : DfsReady s) :
    (∀ (fuel : Nat) (s' : DfsState) (order : List Int),
      dfsLoop (fuel + 1) s' order =
        if isStackEmpty s' = false then
          (dfsBody s').bind fun r => dfsLoop fuel r.1 (order ++ r.2.toList)
        else .done (s', order)) ∧
    ∃ s1 s0, writeVisited s 0 true = .done s1 ∧ push s1 0 = .done s0 ∧
      ∀ s' : DfsState, DfsRuns s0 s' →
        (liveStack s').Nodup ∧
        (∀ x ∈ liveStack s', (0 ≤ x ∧ x < s.vertexCount) ∧ readVisited s' x = .done true) ∧
        ((liveStack s').length : Int) = s'.top + 1 ∧
        ((liveStack s').length : Int) ≤ s.vertexCount ∧ s'.top ≤ 4 ∧
        s'.stack.length = 5 ∧
        (isStackEmpty s' = false → 0 ≤ s'.top ∧ ∃ r, dfsBody s' = .done r) := by
  refine ⟨dfsLoop_unfold, ?_⟩
  obtain ⟨hstack, htop, hmat, hvlen, hcount, hflags⟩ := hs
  have hsim0 : DfsSim s [] [] :=
    { stack_len := hstack, matrix := hmat, count := hcount, vlen := hvlen,
      flags := by intro i h0 h1; simpa using hflags i h0 h1,
      top := by simp [htop], live := by simp }
  obtain ⟨s1, hm1, hsim1, hm1a, hm1b⟩ := hsim0.sim_mark (u := 0) ⟨le_refl _, by omega⟩
  obtain ⟨s2, hp2, hsim2, hm2a, hm2b⟩ := hsim1.sim_push 0 (by simp)
  simp only [List.nil_append] at hsim2
  have hma : s2.adjMatrix = s.adjMatrix := by rw [hm2a, hm1a]
  have hvc : s2.vertexCount = s.vertexCount := by rw [hm2b, hm1b]
  have hinv0 : DfsInv s2.adjMatrix s2.vertexCount [0] [0] := by
    rw [hvc]; exact DfsInv.inv_init _ hcount.1
  refine ⟨s1, s2, hm1, hp2, ?_⟩
  intro s' hrun
  obtain ⟨stk, order, hsim, hinv, hnd, hm', hvc'⟩ :=
    DfsRuns.represents hsim2 hinv0 (by simp) hrun
  have hlive := liveStack_eq hsim
  have hlen := length_le_of_nodup_range hinv.nodup hinv.range
  have hstk := hinv.stk_len
  have htop' := hsim.top
  have hcnt := hsim.count
  rw [hvc] at hinv
  refine ⟨by rw [hlive]; exact List.nodup_reverse.2 hnd, ?_, ?_, ?_, ?_, hsim.stack_len, ?_⟩
  · intro x hx
    rw [hlive, List.mem_reverse] at hx
    have hxo := hinv.stk_sub x hx
    have hxr := hinv.range x hxo
    refine ⟨hxr, ?_⟩
    have := hsim.flags x hxr.1 (by rw [hvc', hvc]; exact hxr.2)
    simpa [hxo] using this
  · rw [hlive, List.length_reverse]; omega
  · rw [hlive, List.length_reverse]
    rw [hvc', hvc] at hcnt
    rw [hvc] at hlen
    omega
  · rw [hvc', hvc] at hcnt
    rw [hvc] at hlen
    omega
  · intro hne
    cases stk with
    | nil =>
      have := (isStackEmpty_iff hsim).2 rfl
      rw [hne] at this
      cases this
    | cons t rest =>
      refine ⟨by simp at htop'; omega, ?_⟩
      obtain ⟨s3, p, _, _, hb, _⟩ := dfsBody_spec hsim
        (by rw [hm', hvc', hvc]; exact hinv) hnd
      exact ⟨(s3, p), hb⟩

/-- C19, witness: the globals `DFS_test` passes to `depthFirstSearch`. -/
theorem depthFirstSearch_stack_stays_in_bounds_witness :
    ∃ s1 s0, writeVisited DFS_test_state 0 true = .done s1 ∧ push s1 0 = .done s0 ∧
      ∀ s' : DfsState, DfsRuns s0 s' →
        (liveStack s').Nodup ∧
        (∀ x ∈ liveStack s', (0 ≤ x ∧ x < DFS_test_state.vertexCount) ∧
          readVisited s' x = .done true) ∧
        ((liveStack s').length : Int) = s'.top + 1 ∧
        ((liveStack s').length : Int) ≤ DFS_test_state.vertexCount ∧ s'.top ≤ 4 ∧
        s'.stack.length = 5 ∧
        (isStackEmpty s' = false → 0 ≤ s'.top ∧ ∃ r, dfsBody s' = .done r) :=
  (depthFirstSearch_stack_stays_in_bounds DFS_test_state DFS_test_state_ready).2

/-- C20: for every non-empty list `bubbleSort` returns, so no pass reads
`ptr1->next->data` through a NULL `next`; no pass starts with the marker `lptr`
at the head node; a pass that ends with `ptr1` (the next marker) at the head
node made no exchange and returns `swapped == 0`, which ends the loop; and a
pass started with the marker at the head node would read through NULL. -/
theorem bubbleSort_marker_never_at_head :
    (∀ (data : List Int) (fuel : Nat), data ≠ [] → data.length ≤ fuel →
      ∃ out swaps, bubbleSort fuel data = .done (out, swaps)) ∧
    (∀ (data : List Int) (fuel : Nat), data ≠ [] → data.length ≤ fuel →
      some 0 ∉ bubbleMarkers fuel data none) ∧
    (∀ (fuel : Nat) (data : List Int) (lptr : Option Nat) (swaps : Nat)
      (r : List Int × Nat × Int × Nat),
      bubblePass fuel data 0 lptr 0 swaps = .done r → r.2.1 = 0 →
      r.1 = data ∧ r.2.2.1 = 0 ∧ r.2.2.2 = swaps) ∧
    (∀ (data : List Int) (fuel : Nat) (swapped : Int) (swaps : Nat), data ≠ [] →
      data.length ≤ fuel → bubblePass fuel data 0 (some 0) swapped swaps = .fault) := by
  refine ⟨?_, ?_, bubblePass_ends_at_head, ?_⟩
  · intro data fuel _ hf
    obtain ⟨out, k, h, _, _⟩ := bubbleSort_spec data fuel hf
    exact ⟨out, k, h⟩
  · intro data fuel hne hf hmem
    have := bubbleMarkers_spec fuel data [] none hne hf (Or.inl ⟨rfl, rfl⟩) (some 0)
      (by simpa using hmem)
    exact this rfl
  · intro data fuel swapped swaps hne hf
    obtain ⟨a, rest, rfl⟩ := List.exists_cons_of_ne_nil hne
    have := bubblePass_marker_head_faults rest fuel [] a swapped swaps
      (by simp at hf; omega)
    simpa using this

/-- C20, witness: the list of `link_list`; its markers are NULL, then the
nodes 5 and 4. -/
theorem bubbleSort_marker_never_at_head_witness :
    (∃ out swaps, bubbleSort 6 link_list_input = .done (out, swaps)) ∧
      some 0 ∉ bubbleMarkers 6 link_list_input none ∧
      bubbleMarkers 6 link_list_input none = [none, some 5, some 4] ∧
      bubblePass 6 link_list_input 0 (some 0) 0 0 = .fault :=
  ⟨bubbleSort_marker_never_at_head.1 link_list_input 6 (by decide) (by decide),
    bubbleSort_marker_never_at_head.2.1 link_list_input 6 (by decide) (by decide),
    by decide,
    bubbleSort_marker_never_at_head.2.2.2 link_list_input 6 0 0 (by decide) (by decide)⟩

end GraphC
